import Mathlib

/-!
# SSAGES basis-function sampling: verification development

Shallow embedding of `src/Methods/BasisFunc.cpp` (class `Basis`).

Conventions of the embedding
* `std::vector<T>` is a `List T`; `v[i]` read is `v.getD i d` where the index
  is known to be in range, and a checked access (`Option`) where the source
  can run past the end of the vector.
* `double` is an arbitrary field `K` (exact arithmetic); `exp` and `log` of
  `<cmath>` are parameters of the functions using them.
* `size_t`, `int` counters that only ever hold non-negative values are `Nat`;
  word-size overflow is outside the model.
* `for (i = a; i < b; ++i) body` is `loopFrom body a (b - a)`.
-/

namespace SSAGES

/-! ## Loops -/

/-- Counted loop: runs `body i` for `i = start, start+1, ..., start+count-1`,
threading the state. -/
def loopFrom {σ : Type} (body : Nat → σ → σ) : Nat → Nat → σ → σ
  | _, 0, s => s
  | i, k + 1, s => loopFrom body (i + 1) k (body i s)

/-- Counted loop whose body can fail (an access outside a vector). -/
def loopFromM {σ : Type} (body : Nat → σ → Option σ) : Nat → Nat → σ → Option σ
  | _, 0, s => some s
  | i, k + 1, s => (body i s).bind (loopFromM body (i + 1) k)

/-! ## Data model (`BasisFunc.h`) -/

/-- Modelled from the spec: the coefficient slot `Map` of `BasisFunc.h` (the
header is not among the sources), a multi-index with one order per dimension
(`map`, a `std::vector<int>` holding non-negative counters) plus a scalar
coefficient (`value`). -/
structure Map (K : Type) where
  map : List Nat
  value : K
deriving Repr, DecidableEq

/-- Modelled from the spec: the table entry `BasisLUT` of `BasisFunc.h` for one
dimension, two flat arrays `values[bin + order*nbins]` and
`derivs[bin + order*nbins]`. -/
structure BasisLUT (K : Type) where
  values : List K
  derivs : List K
deriving Repr, DecidableEq

/-! ## `Basis::PreSimulation`, lines 72-111: the coefficient slots -/

/-- `std::vector::resize(n, fill)`. -/
def resize {α : Type} (v : List α) (n : Nat) (fill : α) : List α :=
  v.take n ++ List.replicate (n - v.length) fill

/-- Lines 72-77: `coeff_size = prod_i (polyords_[i] + 1)` over the `D` CVs. -/
def coeffSize (D : Nat) (polyords : List Nat) : Nat :=
  loopFrom (fun i sz => sz * (polyords.getD i 0 + 1)) 0 D 1

/-- State of the slot loop: the counter `jdx`, the scratch slot `temp_map`
and the slot vector `coeff_`. -/
structure SlotState (K : Type) where
  jdx : List Nat
  temp_map : Map K
  coeff : List (Map K)

/-- Body of the inner loop, lines 97-106, for dimension `j`. -/
def carryBody {K : Type} [Zero K] (D : Nat) (polyords : List Nat) (j : Nat)
    (st : SlotState K) : SlotState K :=
  let jdx1 :=
    if 0 < st.jdx.getD j 0 ∧ st.jdx.getD j 0 % (polyords.getD j 0 + 1) = 0 then
      if j ≠ D - 1 then
        (st.jdx.set (j + 1) (st.jdx.getD (j + 1) 0 + 1)).set j 0
      else st.jdx
    else st.jdx
  { st with
    jdx := jdx1
    temp_map := { map := st.temp_map.map.set j (jdx1.getD j 0), value := 0 } }

/-- Body of the outer loop, lines 95-110, for slot `i`. -/
def slotBody {K : Type} [Zero K] (D : Nat) (polyords : List Nat) (coeff_arr : List K)
    (i : Nat) (st : SlotState K) : SlotState K :=
  let st1 := loopFrom (carryBody D polyords) 0 st.jdx.length st
  let pushed := st1.coeff ++ [st1.temp_map]
  let assigned := pushed.set i { (pushed.getD i st1.temp_map) with value := coeff_arr.getD i 0 }
  { st1 with
    coeff := assigned
    jdx := st1.jdx.set 0 (st1.jdx.getD 0 0 + 1) }

/-- Lines 72-111 of `Basis::PreSimulation`: from the number of CVs, the
polynomial orders and the configured coefficient array, the slot vector
`coeff_` (which starts empty). -/
def PreSimulation_coeff {K : Type} [Zero K] (D : Nat) (polyords : List Nat)
    (coeff_arr0 : List K) : List (Map K) :=
  let coeff_size := coeffSize D polyords
  let coeff_arr := resize coeff_arr0 coeff_size 0
  let idx : List Nat := List.replicate D 0
  let jdx : List Nat := List.replicate D 0
  let temp_map : Map K := { map := idx, value := 0 }
  (loopFrom (slotBody D polyords coeff_arr) 0 coeff_size
    { jdx := jdx, temp_map := temp_map, coeff := [] }).coeff


/-! ## `Basis::BasisInit`, lines 191-234: the look-up tables -/

/-- Checked write `v[i] = a`: fails when `i` is not below `v.size()`. -/
def store {α : Type} (v : List α) (i : Nat) (a : α) : Option (List α) :=
  if i < v.length then some (v.set i a) else none

/-- Line 207: internal coordinate of bin `i` of `nbins`,
`(2.0*i + 1.0)/nbins - 1.0`. -/
def binCoord {K : Type} [Field K] (nbins i : Nat) : K :=
  (2 * (i : K) + 1) / (nbins : K) - 1

/-- Local vectors of one pass of the `k` loop of `BasisInit`. -/
structure TableState (K : Type) where
  x : List K
  vals : List K
  dervs : List K
deriving Repr, DecidableEq

/-- Lines 205-210, body for bin `i`: coordinate and order-0 row. -/
def initOrder0 {K : Type} [Field K] (nbins i : Nat) (s : TableState K) :
    Option (TableState K) := do
  let x ← store s.x i (binCoord nbins i)
  let vals ← store s.vals i 1
  let dervs ← store s.dervs i 0
  pure { x := x, vals := vals, dervs := dervs }

/-- Lines 212-216, body for bin `i`: order-1 row, written at `i + nbins`. -/
def initOrder1 {K : Type} [Field K] (nbins i : Nat) (s : TableState K) :
    Option (TableState K) := do
  let xi ← s.x[i]?
  let vals ← store s.vals (i + nbins) xi
  let dervs ← store s.dervs (i + nbins) 1
  pure { s with vals := vals, dervs := dervs }

/-- Lines 220-229, body for order `j >= 2` and bin `i`: the two recurrences. -/
def recurBody {K : Type} [Field K] (nbins j i : Nat) (s : TableState K) :
    Option (TableState K) := do
  let xi ← s.x[i]?
  let v1 ← s.vals[i + (j - 1) * nbins]?
  let v2 ← s.vals[i + (j - 2) * nbins]?
  let vals ← store s.vals (i + j * nbins)
    (((2 * (j : K) - 1) * xi * v1 - ((j : K) - 1) * v2) / (j : K))
  let w1 ← vals[i + (j - 1) * nbins]?
  let d1 ← s.dervs[i + (j - 1) * nbins]?
  let d2 ← s.dervs[i + (j - 2) * nbins]?
  let dervs ← store s.dervs (i + j * nbins)
    (((2 * (j : K) - 1) * (w1 + xi * d1) - ((j : K) - 1) * d2) / (j : K))
  pure { s with vals := vals, dervs := dervs }

/-- Lines 195-231: the table of one dimension, from its polynomial order and
its number of bins. `none` is an access outside one of the vectors. -/
def BasisInit_table {K : Type} [Field K] (polyord nbins : Nat) : Option (BasisLUT K) := do
  let ncoeff := polyord + 1
  let s0 : TableState K :=
    { x := List.replicate nbins 0
      vals := List.replicate (nbins * ncoeff) 0
      dervs := List.replicate (nbins * ncoeff) 0 }
  let s1 ← loopFromM (initOrder0 nbins) 0 nbins s0
  let s2 ← loopFromM (initOrder1 nbins) 0 nbins s1
  let s3 ← loopFromM (fun j => loopFromM (recurBody nbins j) 0 nbins) 2 (ncoeff - 2) s2
  pure { values := s3.vals, derivs := s3.dervs }

/-- `Basis::BasisInit`: one table per CV, pushed onto `LUT_` (empty before the
call). `numPoints k` is `hist_->GetNumPoints(k)`. -/
def BasisInit {K : Type} [Field K] (D : Nat) (polyords : List Nat) (numPoints : List Nat) :
    Option (List (BasisLUT K)) :=
  loopFromM (fun k LUT => do
      let pk ← polyords[k]?
      let t ← BasisInit_table pk (numPoints.getD k 0)
      pure (LUT ++ [t])) 0 D []

/-! ## Spec-side notions -/

/-- Weight of dimension `k` in the mixed-radix numbering: the product of
`p_m + 1` over the dimensions `m < k`. -/
def radix (polyords : List Nat) (k : Nat) : Nat :=
  ∏ m in Finset.range k, (polyords.getD m 0 + 1)

/-- Digit `k` of `i` in the mixed-radix numbering, the last dimension `D - 1`
being left unreduced (it never carries). -/
def digit (D : Nat) (polyords : List Nat) (i k : Nat) : Nat :=
  if k + 1 = D then i / radix polyords k
  else (i / radix polyords k) % (polyords.getD k 0 + 1)

/-! ## Loop invariants used in the proofs -/

/-- Invariant of the inner loop after the dimensions below `j` are done, while
the counter moves from the digits of `m` to those of `m + e`. -/
def CarryInv {K : Type} (D : Nat) (p : List Nat) (m : Nat) (e : Bool)
    (c0 : List (Map K)) (j : Nat) (s : SlotState K) : Prop :=
  s.jdx.length = D ∧ s.temp_map.map.length = D ∧ s.coeff = c0 ∧
  (∀ k, k < j → s.jdx.getD k 0 = digit D p (m + (if e = true then 1 else 0)) k ∧
      s.temp_map.map.getD k 0 = digit D p (m + (if e = true then 1 else 0)) k) ∧
  (∀ k, j ≤ k → k < D → s.jdx.getD k 0 =
      digit D p m k + (if k = j ∧ e = true ∧ radix p j ∣ m + 1 then 1 else 0))

/-- Invariant of the slot loop before slot `i` is built. -/
def SlotInv {K : Type} [Zero K] (D : Nat) (p : List Nat) (coeff_arr : List K)
    (i : Nat) (s : SlotState K) : Prop :=
  s.jdx.length = D ∧ s.temp_map.map.length = D ∧ s.coeff.length = i ∧
  (∀ t, t < i → ∃ slot, s.coeff[t]? = some slot ∧ slot.value = coeff_arr.getD t 0 ∧
      slot.map.length = D ∧ ∀ k, k < D → slot.map.getD k 0 = digit D p t k) ∧
  (∀ k, k < D → s.jdx.getD k 0 =
      digit D p (i - 1) k + (if k = 0 ∧ decide (0 < i) = true then 1 else 0))

/-! ## Spec-side polynomials -/

/-- Polynomial `P_j` of the value recurrence, seeded with `P_0 = 1`, `P_1 = x`:
`P_j(x) = ((2j-1) x P_(j-1)(x) - (j-1) P_(j-2)(x)) / j`. -/
def legendreP {K : Type} [Field K] : Nat → K → K
  | 0, _ => 1
  | 1, x => x
  | j + 2, x =>
    ((2 * ((j + 2 : Nat) : K) - 1) * x * legendreP (j + 1) x
      - (((j + 2 : Nat) : K) - 1) * legendreP j x) / ((j + 2 : Nat) : K)

/-- Derivative recurrence, seeded with `P_0' = 0`, `P_1' = 1`:
`P_j'(x) = ((2j-1) (P_(j-1)(x) + x P_(j-1)'(x)) - (j-1) P_(j-2)'(x)) / j`. -/
def legendreD {K : Type} [Field K] : Nat → K → K
  | 0, _ => 0
  | 1, _ => 1
  | j + 2, x =>
    ((2 * ((j + 2 : Nat) : K) - 1) * (legendreP (j + 1) x + x * legendreD (j + 1) x)
      - (((j + 2 : Nat) : K) - 1) * legendreD j x) / ((j + 2 : Nat) : K)

/-- Invariant of the first loop of `BasisInit`: bins below `i` are seeded. -/
def SeedInv {K : Type} [Field K] (n N i : Nat) (s : TableState K) : Prop :=
  s.x.length = n ∧ s.vals.length = N ∧ s.dervs.length = N ∧
  ∀ b, b < i → s.x[b]? = some (binCoord n b) ∧ s.vals[b]? = some 1 ∧ s.dervs[b]? = some 0

/-- Invariant of the later loops of `BasisInit`: rows below `rows` are filled
for every bin, row `rows` is filled for the bins below `cols`. -/
def Filled {K : Type} [Field K] (n N rows cols : Nat) (s : TableState K) : Prop :=
  s.x.length = n ∧ s.vals.length = N ∧ s.dervs.length = N ∧
  (∀ b, b < n → s.x[b]? = some (binCoord n b)) ∧
  ∀ j b, b < n → (j < rows ∨ (j = rows ∧ b < cols)) →
    s.vals[b + j * n]? = some (legendreP j (binCoord n b)) ∧
    s.dervs[b + j * n]? = some (legendreD j (binCoord n b))

/-! ## Histogram grid and object state -/

/-- Modelled from the spec: one position of the histogram iterator (the grid
classes are not among the sources). It exposes the per-dimension bin index
`index(k)`, the flag `isUnderOverflowBin()` and the count `*it` stored there. -/
structure HistBin where
  index : List Int
  isUnderOverflowBin : Bool
  value : Int
deriving Repr, DecidableEq

/-- Modelled from the spec: the histogram grid `hist_`, with its per-dimension
bin counts, bounds and periodicity, and its storage as the list of positions
visited by `begin() .. end()`, in iteration order, under/overflow positions
included (`size()` is the length of that list). -/
structure Histogram (K : Type) where
  numPoints : List Nat
  lower : List K
  upper : List K
  periodic : List Bool
  bins : List HistBin
deriving Repr

/-- Bin index of dimension `k` at an iterator position, `it.index(k)`. -/
def HistBin.idx (b : HistBin) (k : Nat) : Int := b.index.getD k 0

/-- Number of bins of dimension `k`, `hist_->GetNumPoints(k)`. -/
def Histogram.GetNumPoints {K : Type} (h : Histogram K) (k : Nat) : Nat := h.numPoints.getD k 0

/-- Modelled from the spec: the bias state and the configuration of
`class Basis` (declared in `BasisFunc.h`), under the member names that
`BasisFunc.cpp` reads and writes (`hist_`, `unbias_`, `coeff_arr_`, `coeff_`,
`LUT_`, `weight_`, `cyclefreq_`, `tol_`, `converge_exit_`, `iteration_`,
`bounds_`, `derivatives_`, `temperature_`, `restraint_`, `boundUp_`,
`boundLow_`). -/
structure Basis (K : Type) where
  hist : Histogram K
  unbias : List K
  coeff_arr : List K
  coeff : List (Map K)
  LUT : List (BasisLUT K)
  weight : K
  cyclefreq : Nat
  tol : K
  converge_exit : Bool
  iteration : Nat
  bounds : Bool
  derivatives : List K
  temperature : K
  restraint : List K
  boundUp : List K
  boundLow : List K
deriving Repr

/-- Table read `LUT_[l].values[i]` with the `int` index `i`. -/
def lutValue {K : Type} [Zero K] (LUT : List (BasisLUT K)) (l : Nat) (i : Int) : K :=
  (LUT.getD l { values := [], derivs := [] }).values.getD i.toNat 0

/-- Index expression `it.index(l) + coeff.map[l]*nbins` of the table reads. -/
def lutIndex {K : Type} (hist : Histogram K) (b : HistBin) (c : Map K) (l : Nat) : Int :=
  b.idx l + (c.map.getD l 0 : Int) * (hist.GetNumPoints l : Int)

/-! ## `Basis::UpdateBias`, lines 251-336 -/

/-- Running state of the loop over the histogram of lines 252-283. -/
structure ReweightState (K : Type) where
  i : Nat
  bins : List HistBin
  unbias : List K
  bias : K
  basis : K

/-- Lines 264-275: the loops over the slots `k >= 1` and the dimensions `l`
that accumulate `bias` at the position `b`; `basis` is multiplied up and set
back to 1 for each slot. -/
def biasLoops {K : Type} [Field K] (D : Nat) (hist : Histogram K) (LUT : List (BasisLUT K))
    (coeff : List (Map K)) (b : HistBin) (bias basis : K) : K × K :=
  loopFrom (fun k (acc : K × K) =>
      let c := coeff.getD k { map := [], value := 0 }
      let basis1 := loopFrom (fun l bs => bs * lutValue LUT l (lutIndex hist b c l)) 0 D acc.2
      (acc.1 + c.value * basis1, 1))
    1 (coeff.length - 1) (bias, basis)

/-- Lines 253-283, body for the iterator position `t`. An under/overflow
position leaves the counter `i` as it is (`--i; continue;` then `++i`). -/
def reweightBody {K : Type} [Field K] (exp : K → K) (D : Nat) (hist : Histogram K)
    (LUT : List (BasisLUT K)) (coeff : List (Map K)) (weight : K) (cyclefreq : Nat)
    (t : Nat) (s : ReweightState K) : ReweightState K :=
  match s.bins[t]? with
  | none => s
  | some b =>
    if b.isUnderOverflowBin then s
    else
      let b1 : HistBin := if b.value = 0 then { b with value := 1 } else b
      let acc := biasLoops D hist LUT coeff b1 s.bias s.basis
      { i := s.i + 1
        bins := s.bins.set t b1
        unbias := s.unbias.set s.i
          (s.unbias.getD s.i 0 + (b1.value : K) * exp acc.1 * weight / (cyclefreq : K))
        bias := 0
        basis := acc.2 }

/-- Running state of the loop over the histogram of lines 303-332. -/
structure IntegrateState (K : Type) where
  j : Nat
  value : K
  basis : K

/-- Lines 304-332, body for the iterator position `t` while the slot `c` is
integrated. -/
def integrateBody {K : Type} [Field K] (log : K → K) (D : Nat) (hist : Histogram K)
    (LUT : List (BasisLUT K)) (unbias : List K) (c : Map K)
    (t : Nat) (s : IntegrateState K) : IntegrateState K :=
  match hist.bins[t]? with
  | none => s
  | some b =>
    if b.isUnderOverflowBin then s
    else
      let weight := loopFrom (fun k w =>
          if b.idx k = 0 ∨ b.idx k = (hist.GetNumPoints k : Int) - 1 then w / 2 else w)
        0 D ((2 : K) ^ D)
      let basis1 := loopFrom (fun l bs =>
          (bs * (lutValue LUT l (lutIndex hist b c l) / (hist.GetNumPoints l : K)))
            * (2 * (c.map.getD l 0 : K) + 1))
        0 D s.basis
      { j := s.j + 1
        value := s.value + basis1 * log (unbias.getD s.j 0) * weight / (2 : K) ^ D
        basis := 1 }

/-- Running state of the loop over the slots of lines 298-336. -/
structure UpdateState (K : Type) where
  coeff : List (Map K)
  coeffTemp : List K
  coeff_arr : List K
  sum : K
  basis : K

/-- Lines 298-336, body for the slot `i`. -/
def slotUpdateBody {K : Type} [Field K] (log : K → K) (D : Nat) (hist : Histogram K)
    (LUT : List (BasisLUT K)) (unbias : List K) (i : Nat) (s : UpdateState K) :
    UpdateState K :=
  let c := s.coeff.getD i { map := [], value := 0 }
  let r := loopFrom (integrateBody log D hist LUT unbias c) 0 hist.bins.length
    { j := 0, value := c.value, basis := s.basis }
  let temp := s.coeffTemp.getD i 0 - r.value
  { coeff := s.coeff.set i { c with value := r.value }
    coeffTemp := s.coeffTemp.set i temp
    coeff_arr := s.coeff_arr.set i r.value
    sum := s.sum + temp * temp
    basis := r.basis }

/-- Lines 286-290, body for the slot `i`: save the coefficient and zero it. -/
def resetBody {K : Type} [Field K] (i : Nat) (s : List (Map K) × List K) :
    List (Map K) × List K :=
  let c := s.1.getD i { map := [], value := 0 }
  (s.1.set i { c with value := 0 }, s.2.set i c.value)

/-- Outcome of `UpdateBias`: the object afterwards, the convergence metric
`sum`, whether "System has converged" was reported and whether the process
left through `exit(EXIT_SUCCESS)`. -/
structure UpdateResult (K : Type) where
  state : Basis K
  sum : K
  converged : Bool
  exited : Bool

/-- `Basis::UpdateBias` for `D = cvs.size()` CVs. The histogram of the object
is the one `MPI_Allreduce` has left (the counts summed over the walkers); the
call of `PrintBias` on rank 0 only writes files and is not part of the state. -/
def UpdateBias {K : Type} [LinearOrderedField K] (exp log : K → K) (D : Nat) (st : Basis K) :
    UpdateResult K :=
  -- lines 252-283
  let rw := loopFrom (reweightBody exp D st.hist st.LUT st.coeff st.weight st.cyclefreq)
    0 st.hist.bins.length
    { i := 0, bins := st.hist.bins, unbias := st.unbias, bias := 0, basis := 1 }
  -- lines 286-290
  let rs := loopFrom resetBody 0 st.coeff.length (st.coeff, List.replicate st.coeff.length 0)
  -- lines 293-295
  let hist1 : Histogram K := { st.hist with bins := rw.bins.map (fun b => { b with value := 0 }) }
  -- lines 298-336
  let up := loopFrom (slotUpdateBody log D hist1 st.LUT rw.unbias) 1 (st.coeff.length - 1)
    { coeff := rs.1, coeffTemp := rs.2, coeff_arr := st.coeff_arr, sum := 0, basis := rw.basis }
  -- lines 343-351
  let converged := decide (up.sum < st.tol)
  { state := { st with hist := hist1, unbias := rw.unbias, coeff := up.coeff,
                       coeff_arr := up.coeff_arr }
    sum := up.sum
    converged := converged
    exited := converged && st.converge_exit }

/-- Number of interior positions before position `t`: the value of the
counter `i` (or `j`) of the source when the iterator is at `t`. -/
def interiorRank (bins : List HistBin) (t : Nat) : Nat :=
  ((bins.take t).filter (fun b => !b.isUnderOverflowBin)).length

/-- Count at a position once lines 255-261 have passed over it: an interior
count of 0 is replaced by 1, anything else is kept. -/
def clampBin (b : HistBin) : HistBin :=
  if b.isUnderOverflowBin then b else if b.value = 0 then { b with value := 1 } else b

/-- Bias of lines 264-275 at the position `b`, as a sum over the slots
`s >= 1` of the coefficient times the product of the basis values. -/
def biasAt {K : Type} [Field K] (D : Nat) (hist : Histogram K) (LUT : List (BasisLUT K))
    (coeff : List (Map K)) (b : HistBin) : K :=
  ∑ s in Finset.Ico 1 coeff.length,
    (coeff.getD s { map := [], value := 0 }).value *
      ∏ k in Finset.range D,
        lutValue LUT k (lutIndex hist b (coeff.getD s { map := [], value := 0 }) k)

/-- Invariant of the loop of lines 253-283 before the position `t`. -/
def ReweightInv {K : Type} [Field K] (exp : K → K) (D : Nat) (st : Basis K)
    (t : Nat) (s : ReweightState K) : Prop :=
  s.i = interiorRank st.hist.bins t ∧ s.bias = 0 ∧ s.basis = 1 ∧
  s.bins.length = st.hist.bins.length ∧ s.unbias.length = st.unbias.length ∧
  (∀ u, t ≤ u → s.bins[u]? = st.hist.bins[u]?) ∧
  (∀ u, u < t → s.bins[u]? = (st.hist.bins[u]?).map clampBin) ∧
  (∀ u b, u < t → st.hist.bins[u]? = some b → b.isUnderOverflowBin = false →
    s.unbias.getD (interiorRank st.hist.bins u) 0 =
      st.unbias.getD (interiorRank st.hist.bins u) 0 +
        ((clampBin b).value : K) * exp (biasAt D st.hist st.LUT st.coeff b) * st.weight
          / (st.cyclefreq : K)) ∧
  (∀ r, s.i ≤ r → s.unbias.getD r 0 = st.unbias.getD r 0)

/-- Position `t` of the histogram iterator (an under/overflow position past
the end of the list, which no loop visits). -/
def Histogram.binAt {K : Type} (h : Histogram K) (t : Nat) : HistBin :=
  h.bins.getD t { index := [], isUnderOverflowBin := true, value := 0 }

/-- Number of dimensions `k < D` in which the position `b` lies on the edge of
the grid: `index_k(b)` is 0 or `n_k - 1`. -/
def boundaryCount {K : Type} (D : Nat) (hist : Histogram K) (b : HistBin) : Nat :=
  ((Finset.range D).filter
    (fun k => b.idx k = 0 ∨ b.idx k = (hist.GetNumPoints k : Int) - 1)).card

/-- Quadrature term of the slot `c` at the position `b`, the counter of
interior positions being `r`:
`log(unbias[r]) * prod_k [(2 o_k + 1) * values_k[index_k(b) + o_k n_k] / n_k] * (1/2)^h(b)`. -/
def quadTerm {K : Type} [Field K] (log : K → K) (D : Nat) (hist : Histogram K)
    (LUT : List (BasisLUT K)) (unbias : List K) (c : Map K) (b : HistBin) (r : Nat) : K :=
  log (unbias.getD r 0) *
    (∏ k in Finset.range D,
      (2 * (c.map.getD k 0 : K) + 1) * lutValue LUT k (lutIndex hist b c k)
        / (hist.GetNumPoints k : K)) *
    (1 / 2 : K) ^ boundaryCount D hist b

/-- Quadrature term contributed by the iterator position `t`: nothing for an
under/overflow position. -/
def quadTermAt {K : Type} [Field K] (log : K → K) (D : Nat) (hist : Histogram K)
    (LUT : List (BasisLUT K)) (unbias : List K) (c : Map K) (t : Nat) : K :=
  match hist.bins[t]? with
  | none => 0
  | some b =>
    if b.isUnderOverflowBin then 0
    else quadTerm log D hist LUT unbias c b (interiorRank hist.bins t)

/-- Invariant of the loop of lines 304-332 before the position `t`. -/
def IntegrateInv {K : Type} [Field K] (log : K → K) (D : Nat) (hist : Histogram K)
    (LUT : List (BasisLUT K)) (unbias : List K) (c : Map K) (v0 : K)
    (t : Nat) (s : IntegrateState K) : Prop :=
  s.j = interiorRank hist.bins t ∧ s.basis = 1 ∧
  s.value = v0 + ∑ u in Finset.range t, quadTermAt log D hist LUT unbias c u

/-- Invariant of the loop of lines 286-290 before the slot `i`. -/
def ResetInv {K : Type} [Field K] (coeff : List (Map K)) (i : Nat)
    (s : List (Map K) × List K) : Prop :=
  s.1.length = coeff.length ∧ s.2.length = coeff.length ∧
  (∀ u, u < i → s.1[u]? = (coeff[u]?).map (fun c => { c with value := 0 }) ∧
      s.2[u]? = (coeff[u]?).map (fun c => c.value)) ∧
  (∀ u, i ≤ u → s.1[u]? = coeff[u]?)

/-- Invariant of the loop of lines 298-336 before the slot `i`: the slots
`1 .. i-1` hold their quadrature sums, the others are still zeroed. -/
def SlotUpdateInv {K : Type} [Field K] (log : K → K) (D : Nat) (hist : Histogram K)
    (LUT : List (BasisLUT K)) (unbias : List K) (coeff : List (Map K))
    (i : Nat) (s : UpdateState K) : Prop :=
  s.basis = 1 ∧ s.coeff.length = coeff.length ∧
  (∀ u c, 1 ≤ u → u < i → coeff[u]? = some c →
    s.coeff[u]? = some (Map.mk c.map
      (∑ t in Finset.range hist.bins.length, quadTermAt log D hist LUT unbias c t))) ∧
  (∀ u, (u = 0 ∨ i ≤ u) → s.coeff[u]? = (coeff[u]?).map (fun c => { c with value := 0 }))

/-! ## Example state -/

/-- Example object: one CV with two bins (an underflow and an overflow position
around them), order 1, the tables of `BasisInit` for that grid. -/
def exampleBasis (K : Type) [Field K] : Basis K :=
  { hist :=
      { numPoints := [2]
        lower := [0]
        upper := [1]
        periodic := [false]
        bins := [⟨[-1], true, 5⟩, ⟨[0], false, 0⟩, ⟨[1], false, 3⟩, ⟨[2], true, 0⟩] }
    unbias := [0, 0, 0, 0]
    coeff_arr := [0, 2]
    coeff := [⟨[0], 0⟩, ⟨[1], 2⟩]
    LUT := [⟨[1, 1, -1 / 2, 1 / 2], [0, 0, 1, 1]⟩]
    weight := 1
    cyclefreq := 2
    tol := 1 / 100
    converge_exit := false
    iteration := 0
    bounds := true
    derivatives := [0]
    temperature := 0
    restraint := [0]
    boundUp := [1]
    boundLow := [0] }

/-! ## `Basis::CalcBiasForce`, lines 433-511 -/

/-- Table read `LUT_[l].derivs[i]` with the `int` index `i`. -/
def lutDeriv {K : Type} [Zero K] (LUT : List (BasisLUT K)) (l : Nat) (i : Int) : K :=
  (LUT.getD l { values := [], derivs := [] }).derivs.getD i.toNat 0

/-- Lower bound of dimension `j`, `hist_->GetLower(j)`. -/
def Histogram.GetLower {K : Type} [Zero K] (h : Histogram K) (j : Nat) : K := h.lower.getD j 0

/-- Upper bound of dimension `j`, `hist_->GetUpper(j)`. -/
def Histogram.GetUpper {K : Type} [Zero K] (h : Histogram K) (j : Nat) : K := h.upper.getD j 0

/-- Periodicity of dimension `j`, `hist_->GetPeriodic(j)`. -/
def Histogram.GetPeriodic {K : Type} (h : Histogram K) (j : Nat) : Bool := h.periodic.getD j false

/-- Lines 445-474, body for dimension `j`: the update of the flag `bounds_`
from the value `x[j]` of the CV. -/
def boundsBody {K : Type} [LinearOrderedField K] (hist : Histogram K) (x : List K) (j : Nat)
    (bounds : Bool) : Bool :=
  let min := hist.GetLower j
  let max := hist.GetUpper j
  if !hist.GetPeriodic j then
    if x.getD j 0 > max ∧ bounds = true then false
    else if x.getD j 0 < min ∧ bounds = true then false
    else if x.getD j 0 < max ∧ x.getD j 0 > min ∧ bounds = false then true
    else bounds
  else bounds

/-- Lines 442-475: the flag `bounds_` after the loop over the `D` CVs. -/
def CalcBiasForce_bounds {K : Type} [LinearOrderedField K] (D : Nat) (hist : Histogram K)
    (x : List K) (bounds : Bool) : Bool :=
  loopFrom (boundsBody hist x) 0 D bounds

/-- Index expression `hist_->GetIndices(x)[k] + coeff_[i].map[k]*nbins`; `ind`
is the vector `hist_->GetIndices(x)`. -/
def forceIndex {K : Type} (hist : Histogram K) (ind : List Int) (c : Map K) (k : Nat) : Int :=
  ind.getD k 0 + (c.map.getD k 0 : Int) * (hist.GetNumPoints k : Int)

/-- Lines 482-492, body for the slot `c` and the dimension `j`: `temp` is
multiplied up over the dimensions `k` and `coeff.value * temp` is subtracted
from `derivatives_[j]`. -/
def forceDimBody {K : Type} [LinearOrderedField K] (D : Nat) (hist : Histogram K)
    (LUT : List (BasisLUT K)) (ind : List Int) (c : Map K) (j : Nat) (d : List K) : List K :=
  let temp := loopFrom (fun k tp =>
      tp * (if j = k then
          lutDeriv LUT k (forceIndex hist ind c k) * 2 / (hist.GetUpper j - hist.GetLower j)
        else lutValue LUT k (forceIndex hist ind c k)))
    0 D 1
  d.set j (d.getD j 0 - c.value * temp)

/-- Lines 478-494: the basis-derived derivatives, the loops over the slots
`i >= 1` and the dimensions `j` run only when `bounds_` holds. -/
def CalcBiasForce_basis {K : Type} [LinearOrderedField K] (D : Nat) (hist : Histogram K)
    (LUT : List (BasisLUT K)) (coeff : List (Map K)) (ind : List Int) (bounds : Bool)
    (d : List K) : List K :=
  if bounds then
    loopFrom (fun i d1 =>
        loopFrom (forceDimBody D hist LUT ind (coeff.getD i { map := [], value := 0 })) 0 D d1)
      1 (coeff.length - 1) d
  else d

/-- Lines 497-510, body for dimension `j`: the wall restraint. -/
def wallBody {K : Type} [LinearOrderedField K] (hist : Histogram K) (x restraint boundUp
    boundLow : List K) (j : Nat) (d : List K) : List K :=
  if !hist.GetPeriodic j then
    if x.getD j 0 > boundUp.getD j 0 then
      d.set j (d.getD j 0 - restraint.getD j 0 * (x.getD j 0 - boundUp.getD j 0))
    else if x.getD j 0 < boundLow.getD j 0 then
      d.set j (d.getD j 0 - restraint.getD j 0 * (x.getD j 0 - boundLow.getD j 0))
    else d
  else d

/-- The derivatives of `CalcBiasForce` before the wall terms (lines 436-494):
`derivatives_` filled with 0, then the basis-derived part. -/
def CalcBiasForce_beforeWalls {K : Type} [LinearOrderedField K] (D : Nat)
    (GetIndices : List K → List Int) (x : List K) (st : Basis K) : List K :=
  CalcBiasForce_basis D st.hist st.LUT st.coeff (GetIndices x)
    (CalcBiasForce_bounds D st.hist x st.bounds) (st.derivatives.map (fun _ => 0))

/-- `Basis::CalcBiasForce` for `D = cvs.size()` CVs with the values `x`
(`x[j] = cvs[j]->GetValue()`). `GetIndices` is `hist_->GetIndices`, the binning
of the grid classes, which are not among the sources. -/
def CalcBiasForce {K : Type} [LinearOrderedField K] (D : Nat)
    (GetIndices : List K → List Int) (x : List K) (st : Basis K) : Basis K :=
  { st with
    bounds := CalcBiasForce_bounds D st.hist x st.bounds
    derivatives := loopFrom (wallBody st.hist x st.restraint st.boundUp st.boundLow) 0 D
      (CalcBiasForce_beforeWalls D GetIndices x st) }

/-! ## `Basis::PostIntegration`, lines 118-180 -/

/-- Modelled from the spec: the part of the simulation snapshot that
`PostIntegration` reads (the snapshot class is not among the sources): the
global step counter, the temperature and the Boltzmann constant. -/
structure Snapshot (K : Type) where
  iteration : Nat
  temperature : K
  kb : K
deriving Repr

/-- Status with which the process leaves through `exit`. -/
inductive ExitCode where
  | failure
  | success
deriving Repr, DecidableEq

/-- Outcome of one call of `PostIntegration`: the object afterwards, the
`beta` handed to `UpdateBias` (if it was called) and the exit status if the
process left through `exit`. -/
structure StepResult (K : Type) where
  state : Basis K
  beta : Option K
  exit : Option ExitCode

/-- Line 132, `hist_->at(x) += 1`: the count of the position that the grid
selects for `x` grows by one. `pos` is that position, `hist_->at` belonging to
the grid classes, which are not among the sources. -/
def PostIntegration_bin {K : Type} (pos : List K → Nat) (x : List K) (st : Basis K) : Basis K :=
  match st.hist.bins[pos x]? with
  | none => st
  | some b =>
    { st with hist := { st.hist with
        bins := st.hist.bins.set (pos x) { b with value := b.value + 1 } } }

/-- Lines 156-162 once `beta` is fixed: the iteration counter, `UpdateBias`
(which can leave through `exit(EXIT_SUCCESS)`) and `CalcBiasForce`. -/
def PostIntegration_update {K : Type} [LinearOrderedField K] (exp log : K → K) (D : Nat)
    (GetIndices : List K → List Int) (x : List K) (beta : K) (st : Basis K) : StepResult K :=
  let r := UpdateBias exp log D { st with iteration := st.iteration + 1 }
  if r.exited then { state := r.state, beta := some beta, exit := some ExitCode.success }
  else { state := CalcBiasForce D GetIndices x r.state, beta := some beta, exit := none }

/-- `Basis::PostIntegration` for the CV values `x`. The forces and the virial
of the snapshot (lines 164-179) are not part of the result. -/
def PostIntegration {K : Type} [LinearOrderedField K] (exp log : K → K) (D : Nat)
    (pos : List K → Nat) (GetIndices : List K → List Int) (snap : Snapshot K) (x : List K)
    (st : Basis K) : StepResult K :=
  let st1 := PostIntegration_bin pos x st
  if snap.iteration % st1.cyclefreq = 0 then
    let beta := 1 / (snap.temperature * snap.kb)
    if snap.temperature = 0 then
      let beta1 := st1.temperature
      if st1.temperature = 0 then
        { state := st1, beta := none, exit := some ExitCode.failure }
      else PostIntegration_update exp log D GetIndices x beta1 st1
    else PostIntegration_update exp log D GetIndices x beta st1
  else
    { state := CalcBiasForce D GetIndices x st1, beta := none, exit := none }

/-! ## `Basis::PreSimulation`, the whole hook -/

/-- Ways in which a hook does not return: `world_.abort(EXIT_FAILURE)`, or an
access past the end of a vector. -/
inductive Failure where
  | abort
  | outOfRange
deriving Repr, DecidableEq

/-- Dimensionality of the grid, `hist_->GetDimension()`. -/
def Histogram.GetDimension {K : Type} (h : Histogram K) : Nat := h.numPoints.length

/-- Lines 61-66: `polyords_.resize(cvs.size())`, then every entry is set to
`polyords_[0]`. -/
def normalizeOrders (D : Nat) (polyords : List Nat) : List Nat :=
  loopFrom (fun i p => p.set i (p.getD 0 0)) 0 D (resize polyords D 0)

/-- What `PreSimulation` leaves: the polynomial orders `polyords_` and the
rest of the object. -/
structure PreSimulated (K : Type) where
  polyords : List Nat
  state : Basis K

/-- `Basis::PreSimulation` for `D = cvs.size()` CVs and the configured orders
`polyords`; `coeff_` and `LUT_` are empty before the call. The warning of lines
51-58 reads `polyords_[0]`. -/
def PreSimulation {K : Type} [Field K] (D : Nat) (polyords : List Nat) (st : Basis K) :
    Except Failure (PreSimulated K) :=
  if st.hist.GetDimension ≠ D then Except.error Failure.abort
  else
    let normalized : Except Failure (List Nat) :=
      if D ≠ polyords.length then
        match polyords[0]? with
        | none => Except.error Failure.outOfRange
        | some _ => Except.ok (normalizeOrders D polyords)
      else Except.ok polyords
    match normalized with
    | Except.error e => Except.error e
    | Except.ok p =>
      match BasisInit D p st.hist.numPoints with
      | none => Except.error Failure.outOfRange
      | some LUT =>
        Except.ok
          { polyords := p
            state := { st with
              iteration := 0
              bounds := true
              derivatives := resize st.derivatives D 0
              unbias := resize st.unbias st.hist.bins.length 0
              coeff_arr := resize st.coeff_arr (coeffSize D p) 0
              hist := { st.hist with bins := st.hist.bins.map (fun b => { b with value := 0 }) }
              coeff := PreSimulation_coeff D p st.coeff_arr
              LUT := LUT } }

/-- Invariant of the loop of lines 298-336 for the convergence metric: the
slots from `i` on still hold their saved value in `coeffTemp`, and `sum` is the
sum of the squared differences of the slots `1 .. i-1`. -/
def SumInv {K : Type} [Field K] (n : Nat) (temp0 : List K) (i : Nat) (s : UpdateState K) : Prop :=
  s.coeff.length = n ∧ s.coeffTemp.length = n ∧
  (∀ u, i ≤ u → s.coeffTemp.getD u 0 = temp0.getD u 0) ∧
  s.sum = ∑ u in Finset.Ico 1 i,
    (temp0.getD u 0 - (s.coeff.getD u { map := [], value := 0 }).value) ^ 2

/-- Example object with a flat weighted histogram: one CV with two bins, order
2, every coefficient 0, one visit in each interior bin, walker weight 2 and
update period 1, the tables of `BasisInit` for that grid. -/
def flatExample (K : Type) [Field K] : Basis K :=
  { hist :=
      { numPoints := [2]
        lower := [0]
        upper := [1]
        periodic := [false]
        bins := [⟨[-1], true, 0⟩, ⟨[0], false, 1⟩, ⟨[1], false, 1⟩, ⟨[2], true, 0⟩] }
    unbias := [0, 0, 0, 0]
    coeff_arr := [0, 0, 0]
    coeff := [⟨[0], 0⟩, ⟨[1], 0⟩, ⟨[2], 0⟩]
    LUT := [⟨[1, 1, -1 / 2, 1 / 2, -1 / 8, -1 / 8], [0, 0, 1, 1, -3 / 2, 3 / 2]⟩]
    weight := 2
    cyclefreq := 1
    tol := 1 / 100
    converge_exit := false
    iteration := 0
    bounds := true
    derivatives := [0]
    temperature := 0
    restraint := [0]
    boundUp := [1]
    boundLow := [0] }

/-- Quadrature sum of the basis function of the slot `c` alone: the sum over
the interior positions `b` of
`prod_k [(2 o_k + 1) * values_k[index_k(b) + o_k n_k] / n_k] * (1/2)^h(b)`. -/
def basisQuadrature {K : Type} [Field K] (D : Nat) (hist : Histogram K)
    (LUT : List (BasisLUT K)) (c : Map K) : K :=
  ∑ t in (Finset.range hist.bins.length).filter
      (fun t => (hist.binAt t).isUnderOverflowBin = false),
    (∏ k in Finset.range D,
      (2 * (c.map.getD k 0 : K) + 1) * lutValue LUT k (lutIndex hist (hist.binAt t) c k)
        / (hist.GetNumPoints k : K)) *
    (1 / 2 : K) ^ boundaryCount D hist (hist.binAt t)

/-- Relation between two runs of the loop of lines 298-336 that started from
saved coefficients differing in slot 0 only. -/
def SameButTemp0 {K : Type} [Zero K] (s1 s2 : UpdateState K) : Prop :=
  s1.coeff = s2.coeff ∧ s1.coeff_arr = s2.coeff_arr ∧ s1.sum = s2.sum ∧ s1.basis = s2.basis ∧
  s1.coeffTemp.length = s2.coeffTemp.length ∧
  ∀ u, 1 ≤ u → s1.coeffTemp.getD u 0 = s2.coeffTemp.getD u 0

/-- The object with the coefficient value of slot 0 replaced by `v`. -/
def withSlot0 {K : Type} [Zero K] (st : Basis K) (v : K) : Basis K :=
  { st with coeff := st.coeff.set 0 { (st.coeff.getD 0 { map := [], value := 0 }) with value := v } }

/-- Product that lines 485-490 build in `temp` for the slot `c` and the
dimension `j`: the derivative factor in dimension `j`, the value factor in
every other dimension. -/
def forceTerm {K : Type} [LinearOrderedField K] (D : Nat) (hist : Histogram K)
    (LUT : List (BasisLUT K)) (ind : List Int) (c : Map K) (j : Nat) : K :=
  ∏ k in Finset.range D,
    (if j = k then
      lutDeriv LUT k (forceIndex hist ind c k) * 2 / (hist.GetUpper j - hist.GetLower j)
    else lutValue LUT k (forceIndex hist ind c k))

/-- Invariant of the loop over the dimensions of lines 482-492 for one slot. -/
def ForceDimInv {K : Type} [LinearOrderedField K] (D : Nat) (hist : Histogram K)
    (LUT : List (BasisLUT K)) (ind : List Int) (c : Map K) (d0 : List K)
    (j : Nat) (d : List K) : Prop :=
  d.length = d0.length ∧
  ∀ m, (m < j → d.getD m 0 = d0.getD m 0 - c.value * forceTerm D hist LUT ind c m) ∧
    (j ≤ m → d.getD m 0 = d0.getD m 0)

/-- Invariant of the loop over the slots of lines 480-493. -/
def ForceSlotInv {K : Type} [LinearOrderedField K] (D : Nat) (hist : Histogram K)
    (LUT : List (BasisLUT K)) (coeff : List (Map K)) (ind : List Int) (d0 : List K)
    (i : Nat) (d : List K) : Prop :=
  d.length = d0.length ∧
  ∀ m, m < D → d.getD m 0 = d0.getD m 0 -
    ∑ s in Finset.Ico 1 i, (coeff.getD s { map := [], value := 0 }).value *
      forceTerm D hist LUT ind (coeff.getD s { map := [], value := 0 }) m

/-- Term that lines 503-509 add to `derivatives_[j]`. -/
def wallTerm {K : Type} [LinearOrderedField K] (hist : Histogram K) (x restraint boundUp
    boundLow : List K) (j : Nat) : K :=
  if !hist.GetPeriodic j then
    if x.getD j 0 > boundUp.getD j 0 then
      - (restraint.getD j 0 * (x.getD j 0 - boundUp.getD j 0))
    else if x.getD j 0 < boundLow.getD j 0 then
      - (restraint.getD j 0 * (x.getD j 0 - boundLow.getD j 0))
    else 0
  else 0

/-- Invariant of the loop over the dimensions of lines 497-510. -/
def WallInv {K : Type} [LinearOrderedField K] (hist : Histogram K) (x restraint boundUp
    boundLow : List K) (d0 : List K) (j : Nat) (d : List K) : Prop :=
  d.length = d0.length ∧
  ∀ m, (m < j → d.getD m 0 = d0.getD m 0 + wallTerm hist x restraint boundUp boundLow m) ∧
    (j ≤ m → d.getD m 0 = d0.getD m 0)

/-- Example grid with two non-periodic dimensions on `[0, 1]`, two bins each
(the storage is left empty, the flag `bounds_` does not read it). -/
def twoDimGrid (K : Type) [Field K] : Histogram K :=
  { numPoints := [2, 2]
    lower := [0, 0]
    upper := [1, 1]
    periodic := [false, false]
    bins := [] }

/-! ## `Basis::PrintBias`, lines 358-430 -/

/-- Entry of the column "PMF Estimate": a number, or the literal text `"0"` that
line 417 writes when the unbias entry is zero. -/
inductive PmfCell (K : Type) where
  | number (v : K)
  | literalZero
deriving Repr, DecidableEq

/-- One data row of the file `basis*.out` (lines 408-419): the coordinates of
the position, the negated bias, the PMF entry and the unbias entry. -/
structure BasisRow (K : Type) where
  coords : List K
  bias : K
  pmf : PmfCell K
  hist : K
deriving Repr, DecidableEq

/-- What `PrintBias` writes: the data rows of `basis*.out` in order, and in
`coeff*.out` the iteration count followed by the coefficient values (widths,
precision and the header row are not modelled). -/
structure PrintOutput (K : Type) where
  rows : List (BasisRow K)
  coeffIteration : Nat
  coeffValues : List K
deriving Repr

/-- Running state of the loop over the histogram of lines 367-385. -/
structure PrintBiasState (K : Type) where
  i : Nat
  bias : List K
  temp : K

/-- Lines 375-384, body for the slot `j >= 1` at the position `b`, the counter
of interior positions being `i`. -/
def printSlotBody {K : Type} [Field K] (D : Nat) (hist : Histogram K) (LUT : List (BasisLUT K))
    (coeff : List (Map K)) (b : HistBin) (i : Nat) (j : Nat) (s : List K × K) : List K × K :=
  let c := coeff.getD j { map := [], value := 0 }
  let temp1 := loopFrom (fun k tp => tp * lutValue LUT k (lutIndex hist b c k)) 0 D s.2
  (s.1.set i (s.1.getD i 0 + c.value * temp1), 1)

/-- Lines 368-385, body for the iterator position `t`. -/
def printBiasBody {K : Type} [Field K] (D : Nat) (hist : Histogram K) (LUT : List (BasisLUT K))
    (coeff : List (Map K)) (t : Nat) (s : PrintBiasState K) : PrintBiasState K :=
  match hist.bins[t]? with
  | none => s
  | some b =>
    if b.isUnderOverflowBin then s
    else
      let r := loopFrom (printSlotBody D hist LUT coeff b s.i) 1 (coeff.length - 1) (s.bias, s.temp)
      { i := s.i + 1, bias := r.1, temp := r.2 }

/-- Running state of the loop over the histogram of lines 400-420. -/
structure PrintRowState (K : Type) where
  j : Nat
  rows : List (BasisRow K)

/-- Lines 401-420, body for the iterator position `t`: one row is written for
an interior position. `coordinate t k` is `it.coordinate(k)` at the position
`t`, which belongs to the grid classes. -/
def printRowBody {K : Type} [LinearOrderedField K] (log : K → K) (D : Nat) (hist : Histogram K)
    (unbias bias : List K) (coordinate : Nat → Nat → K) (beta : K) (t : Nat)
    (s : PrintRowState K) : PrintRowState K :=
  match hist.bins[t]? with
  | none => s
  | some b =>
    if b.isUnderOverflowBin then s
    else
      let coords := loopFrom (fun k out => out ++ [coordinate t k]) 0 D []
      let pmf : PmfCell K :=
        if unbias.getD s.j 0 ≠ 0 then PmfCell.number (- log (unbias.getD s.j 0) / beta)
        else PmfCell.literalZero
      { j := s.j + 1
        rows := s.rows ++
          [{ coords := coords, bias := - bias.getD s.j 0, pmf := pmf, hist := unbias.getD s.j 0 }] }

/-- `Basis::PrintBias` for `D = cvs.size()` CVs and the given `beta`. -/
def PrintBias {K : Type} [LinearOrderedField K] (log : K → K) (D : Nat)
    (coordinate : Nat → Nat → K) (beta : K) (st : Basis K) : PrintOutput K :=
  -- lines 360-385
  let b := loopFrom (printBiasBody D st.hist st.LUT st.coeff) 0 st.hist.bins.length
    { i := 0, bias := List.replicate st.hist.bins.length 0, temp := 1 }
  -- lines 400-420
  let r := loopFrom (printRowBody log D st.hist st.unbias b.bias coordinate beta)
    0 st.hist.bins.length { j := 0, rows := [] }
  -- lines 422-425
  let vals := loopFrom (fun k out => out ++ [(st.coeff.getD k { map := [], value := 0 }).value])
    0 st.coeff.length []
  { rows := r.rows, coeffIteration := st.iteration, coeffValues := vals }

/-- Invariant of the loop over the slots of lines 375-384 at one interior
position `b` with counter `i`, before the slot `j`. -/
def PrintSlotInv {K : Type} [Field K] (D : Nat) (hist : Histogram K) (LUT : List (BasisLUT K))
    (coeff : List (Map K)) (b : HistBin) (bias0 : List K) (i : Nat)
    (j : Nat) (s : List K × K) : Prop :=
  s.2 = 1 ∧ s.1.length = bias0.length ∧
  s.1.getD i 0 = bias0.getD i 0 + ∑ u in Finset.Ico 1 j,
    (coeff.getD u { map := [], value := 0 }).value *
      ∏ k in Finset.range D,
        lutValue LUT k (lutIndex hist b (coeff.getD u { map := [], value := 0 }) k) ∧
  ∀ r, r ≠ i → s.1.getD r 0 = bias0.getD r 0

/-- Invariant of the loop of lines 367-385 before the position `t`. -/
def PrintBiasInv {K : Type} [Field K] (D : Nat) (hist : Histogram K) (LUT : List (BasisLUT K))
    (coeff : List (Map K)) (t : Nat) (s : PrintBiasState K) : Prop :=
  s.i = interiorRank hist.bins t ∧ s.temp = 1 ∧ s.bias.length = hist.bins.length ∧
  (∀ u b, u < t → hist.bins[u]? = some b → b.isUnderOverflowBin = false →
    s.bias.getD (interiorRank hist.bins u) 0 = biasAt D hist LUT coeff b) ∧
  (∀ r, s.i ≤ r → s.bias.getD r 0 = 0)

/-- Row that the format of `basis*.out` describes for the interior position
`t`: the coordinates, the negated sum over the slots `s >= 1` of the coefficient
times the product of the basis values, `-log(unbias)/beta` or the literal `0`,
and the unbias entry, which is the entry at the counter of interior positions. -/
def specRow {K : Type} [LinearOrderedField K] (log : K → K) (D : Nat)
    (coordinate : Nat → Nat → K) (beta : K) (st : Basis K) (t : Nat) : BasisRow K :=
  { coords := (List.range D).map (coordinate t)
    bias := - biasAt D st.hist st.LUT st.coeff (st.hist.binAt t)
    pmf :=
      if st.unbias.getD (interiorRank st.hist.bins t) 0 ≠ 0 then
        PmfCell.number (- log (st.unbias.getD (interiorRank st.hist.bins t) 0) / beta)
      else PmfCell.literalZero
    hist := st.unbias.getD (interiorRank st.hist.bins t) 0 }

/-- Interior positions of the histogram in the order of the iterator. -/
def interiorPositions {K : Type} (hist : Histogram K) (t : Nat) : List Nat :=
  (List.range t).filter (fun u => !(hist.binAt u).isUnderOverflowBin)

/-! ## Periodic dimensions in the integration -/

/-- The object with the periodicity flags of its grid replaced by `per`. -/
def withPeriodic {K : Type} (st : Basis K) (per : List Bool) : Basis K :=
  { st with hist := { st.hist with periodic := per } }

/-- Number of dimensions `k < D` that are not periodic and in which the
position `b` lies on the edge of the grid. -/
def nonPeriodicBoundaryCount {K : Type} (D : Nat) (hist : Histogram K) (b : HistBin) : Nat :=
  ((Finset.range D).filter
    (fun k => hist.GetPeriodic k = false ∧
      (b.idx k = 0 ∨ b.idx k = (hist.GetNumPoints k : Int) - 1))).card

/-- Quadrature sum of the slot `c` in which only the dimensions that are not
periodic halve the weight of a position on the edge. -/
def nonPeriodicQuadrature {K : Type} [Field K] (log : K → K) (D : Nat) (hist : Histogram K)
    (LUT : List (BasisLUT K)) (unbias : List K) (c : Map K) : K :=
  ∑ t in (Finset.range hist.bins.length).filter
      (fun t => (hist.binAt t).isUnderOverflowBin = false),
    log (unbias.getD (interiorRank hist.bins t) 0) *
      (∏ k in Finset.range D,
        (2 * (c.map.getD k 0 : K) + 1) * lutValue LUT k (lutIndex hist (hist.binAt t) c k)
          / (hist.GetNumPoints k : K)) *
      (1 / 2 : K) ^ nonPeriodicBoundaryCount D hist (hist.binAt t)

/-- Example object on a periodic grid: one periodic CV with two bins (a
periodic dimension has no under/overflow positions), order 2, every
coefficient 0, one visit in each bin, walker weight 2 and update period 1. -/
def periodicExample (K : Type) [Field K] : Basis K :=
  { hist :=
      { numPoints := [2]
        lower := [0]
        upper := [1]
        periodic := [true]
        bins := [⟨[0], false, 1⟩, ⟨[1], false, 1⟩] }
    unbias := [0, 0]
    coeff_arr := [0, 0, 0]
    coeff := [⟨[0], 0⟩, ⟨[1], 0⟩, ⟨[2], 0⟩]
    LUT := [⟨[1, 1, -1 / 2, 1 / 2, -1 / 8, -1 / 8], [0, 0, 1, 1, -3 / 2, 3 / 2]⟩]
    weight := 2
    cyclefreq := 1
    tol := 1 / 100
    converge_exit := false
    iteration := 0
    bounds := true
    derivatives := [0]
    temperature := 0
    restraint := [0]
    boundUp := [1]
    boundLow := [0] }

/-- Quadrature term of the bin `r` of a single dimension with `n` bins, for the
order `o` and the accumulator `unbias`:
`log(unbias[r]) * [(2 o + 1) * P_o(x_r) / n] * (1/2)^h(r)`, where `h(r)` is 1
for `r = 0` and `r = n - 1` and 0 otherwise. -/
def lineTerm {K : Type} [Field K] (log : K → K) (n o : Nat) (unbias : List K) (r : Nat) : K :=
  log (unbias.getD r 0) *
    ((2 * (o : K) + 1) * legendreP o (binCoord n r) / (n : K)) *
    (1 / 2 : K) ^ (if (r : Int) = 0 ∨ (r : Int) = (n : Int) - 1 then 1 else 0)

/-! ## `AngleCV::Evaluate`, `CVs/AngleCV.h` lines 84-128 -/

/-- Three-component vector `Vector3` with the operations `Evaluate` uses. -/
structure Vector3 (K : Type) where
  x : K
  y : K
  z : K
deriving Repr, DecidableEq

/-- Difference `a - b`. -/
def Vector3.sub {K : Type} [Field K] (a b : Vector3 K) : Vector3 K :=
  ⟨a.x - b.x, a.y - b.y, a.z - b.z⟩

/-- Negation `-a`. -/
def Vector3.neg {K : Type} [Field K] (a : Vector3 K) : Vector3 K :=
  ⟨-a.x, -a.y, -a.z⟩

/-- Product `s*a` with a scalar. -/
def Vector3.smul {K : Type} [Field K] (s : K) (a : Vector3 K) : Vector3 K :=
  ⟨s * a.x, s * a.y, s * a.z⟩

/-- Quotient `a/s` by a scalar. -/
def Vector3.sdiv {K : Type} [Field K] (a : Vector3 K) (s : K) : Vector3 K :=
  ⟨a.x / s, a.y / s, a.z / s⟩

/-- Scalar product `a.dot(b)`. -/
def Vector3.dot {K : Type} [Field K] (a b : Vector3 K) : K :=
  a.x * b.x + a.y * b.y + a.z * b.z

/-- Euclidean length `a.norm()`. -/
def Vector3.norm {K : Type} [Field K] (sqrt : K → K) (a : Vector3 K) : K :=
  sqrt (a.x * a.x + a.y * a.y + a.z * a.z)

/-- What `Evaluate` leaves in the CV: the value `_val` and the gradient entries
of the three atoms. -/
structure AngleEval (K : Type) where
  val : K
  gradI : Vector3 K
  gradJ : Vector3 K
  gradK : Vector3 K
deriving Repr

/-- `AngleCV::Evaluate` for the positions `xi`, `xj`, `xk` of the three atoms,
all of them held by this process (every local index differs from -1, and the
reductions over a communicator of one process return their argument).
`minimumImage` is `snapshot.ApplyMinimumImage`. -/
def AngleCV.Evaluate {K : Type} [Field K] (sqrt acos : K → K)
    (minimumImage : Vector3 K → Vector3 K) (xi xj xk : Vector3 K) : AngleEval K :=
  -- lines 111-112
  let rij := minimumImage (xi.sub xj)
  let rkj := minimumImage (xk.sub xj)
  -- lines 114-116
  let dotP := rij.dot rkj
  let nrij := rij.norm sqrt
  let nrkj := rkj.norm sqrt
  -- line 118
  let val := acos (dotP / (nrij * nrkj))
  -- line 121
  let prefactor := -1 / (sqrt (1 - dotP / (nrij * nrkj)) * nrij * nrkj)
  -- lines 123-127
  let gradI := Vector3.smul prefactor (rkj.sub ((Vector3.smul dotP rij).sdiv (nrij * nrij)))
  let gradK := Vector3.smul prefactor (rij.sub ((Vector3.smul dotP rkj).sdiv (nrkj * nrkj)))
  { val := val, gradI := gradI, gradJ := (gradI.neg).sub gradK, gradK := gradK }

/-- Gradient of the angle with respect to the end atom of the bond vector `a`,
the other bond vector being `b`:
`-(b - (a.b) a/|a|^2) / (sqrt(1 - cos^2(theta)) |a| |b|)` with
`cos(theta) = a.b/(|a||b|)`. -/
def angleGradient {K : Type} [Field K] (sqrt : K → K) (a b : Vector3 K) : Vector3 K :=
  let c := a.dot b / (a.norm sqrt * b.norm sqrt)
  Vector3.smul (-1 / (sqrt (1 - c ^ 2) * a.norm sqrt * b.norm sqrt))
    (b.sub ((Vector3.smul (a.dot b) a).sdiv (a.norm sqrt * a.norm sqrt)))

/-! ## `Swarm`, `Methods/Swarm.cpp`: the restrained phase -/

/-- Modelled from the spec: the members of `class Swarm` (declared in
`Swarm.h`) that the restrained phase of `Swarm.cpp` reads and writes, under
their names without the leading underscore: the step counter `_iterator`, the
trajectory counter `_index`, the configured `_initialize_steps`,
`_harvest_length`, `_number_trajectories` and `_swarm_length`, the derived
`_restrained_steps` and `_unrestrained_steps`, and the stored positions
`_traj_positions` (one list of atoms, each a list of components, per
trajectory). -/
structure Swarm (K : Type) where
  iterator : Nat
  index : Nat
  initialize_steps : Nat
  harvest_length : Nat
  number_trajectories : Nat
  swarm_length : Nat
  restrained_steps : Nat
  unrestrained_steps : Nat
  traj_positions : List (List (List K))
deriving Repr

/-- Lines 40-51 and 71-73 of `Swarm::PreSimulation`: `_traj_positions` gets
`_number_trajectories` entries, each with one vector per atom of the snapshot
(a new vector has three components, here 0), `_index` is set to 0 and the step
counts of the two phases are derived. -/
def Swarm.PreSimulation {K : Type} [Zero K] (positions : List (List K)) (s : Swarm K) :
    Swarm K :=
  let traj := resize s.traj_positions s.number_trajectories []
  let traj1 := loopFrom (fun k t => t.set k (resize (t.getD k []) positions.length [0, 0, 0]))
    0 traj.length traj
  { s with
    traj_positions := traj1
    index := 0
    restrained_steps := s.harvest_length * s.number_trajectories
    unrestrained_steps := s.swarm_length * s.number_trajectories }

/-- Line 123: the write `_traj_positions[i][k][l] = v`; `none` when one of the
three indices is outside its vector. -/
def trajWrite {K : Type} (traj : List (List (List K))) (i k l : Nat) (v : K) :
    Option (List (List (List K))) := do
  let snap ← traj[i]?
  let atom ← snap[k]?
  let atom1 ← store atom l v
  pure (traj.set i (snap.set k atom1))

/-- Lines 119-125: the positions of the snapshot are copied into
`_traj_positions[index]`. -/
def harvest {K : Type} (positions : List (List K)) (index : Nat)
    (traj : List (List (List K))) : Option (List (List (List K))) :=
  loopFromM (fun k t =>
      loopFromM (fun l t1 => do
          let v ← (positions.getD k [])[l]?
          trajWrite t1 index k l v)
        0 (positions.getD k []).length t)
    0 positions.length traj

/-- Line 144: the read `_traj_positions[i][k][l]`. -/
def trajRead {K : Type} (traj : List (List (List K))) (i k l : Nat) : Option K := do
  let snap ← traj[i]?
  let atom ← snap[k]?
  atom[l]?

/-- Lines 140-146: the positions of the snapshot are set back to
`_traj_positions[index]`. -/
def restore {K : Type} (traj : List (List (List K))) (index : Nat)
    (positions : List (List K)) : Option (List (List K)) :=
  loopFromM (fun k p =>
      loopFromM (fun l p1 => do
          let v ← trajRead traj index k l
          pure (p1.set k ((p1.getD k []).set l v)))
        0 (positions.getD k []).length p)
    0 positions.length positions

/-- Lines 86-157 of `Swarm::PostIntegration`: the branch taken while
`_iterator <= _initialize_steps + _restrained_steps`, for `numCVs = cvs.size()`
CVs and the positions of the snapshot. The result is `none` when an access to
`_traj_positions` is outside the array; otherwise it is the object and the
positions afterwards. The forces of the snapshot (lines 101-111 and 147-154)
are not part of the state. -/
def Swarm.PostIntegration_restrained {K : Type} (numCVs : Nat) (positions : List (List K))
    (s : Swarm K) : Option (Swarm K × List (List K)) := do
  -- lines 89-95
  let index0 := if 0 < numCVs ∧ s.iterator = 0 then 0 else s.index
  -- lines 113-135
  let h ←
    if s.iterator > s.initialize_steps ∧ s.iterator % 10 = 0 then
      (harvest positions index0 s.traj_positions).map (fun t => (t, index0 + 1))
    else some (s.traj_positions, index0)
  -- lines 136-155
  let r ←
    if s.iterator = s.initialize_steps + s.restrained_steps then
      (restore h.1 0 positions).map (fun p => (0, p))
    else some (h.2, positions)
  -- line 156
  pure ({ s with traj_positions := h.1, index := r.1, iterator := s.iterator + 1 }, r.2)

/-- Successive calls of `PostIntegration`, `n` of them, as far as they take the
branch of the restrained phase; the snapshot holds the positions `pos i` at the
call number `i`. A call after the end of the phase belongs to the other
branches and leaves the object here as it is. -/
def restrainedRun {K : Type} (numCVs : Nat) (pos : Nat → List (List K)) (n : Nat)
    (s : Swarm K) : Option (Swarm K) :=
  loopFromM (fun i t =>
      if t.iterator ≤ t.initialize_steps + t.restrained_steps then
        (Swarm.PostIntegration_restrained numCVs (pos i) t).map Prod.fst
      else some t)
    0 n s

/-- Example configuration: no initialization steps, harvest length 20, one
trajectory, before `PreSimulation`. -/
def swarmExample (K : Type) : Swarm K :=
  { iterator := 0
    index := 0
    initialize_steps := 0
    harvest_length := 20
    number_trajectories := 1
    swarm_length := 5
    restrained_steps := 0
    unrestrained_steps := 0
    traj_positions := [] }

/-! ## `Swarm::StringUpdate`, lines 295-310: the neighbours of the exchange -/

/-- The two `int` locals `sendneighbor` and `recvneighbor` of `StringUpdate`,
the ranks handed to `MPI_Sendrecv` (line 313) as destination and source. -/
structure Neighbors where
  sendneighbor : Int
  recvneighbor : Int
deriving Repr, DecidableEq

/-- Lines 296-310 of `Swarm::StringUpdate` for the process with `_mpiid = mpiid`
in a communicator of `worldSize = _world.size()` processes. For
`0 <= mpiid < worldSize` every value computed here lies between `-1` and
`worldSize`, inside the range of `int`. -/
def Swarm.StringUpdate_neighbors (mpiid worldSize : Int) : Neighbors :=
  if mpiid = 0 then
    { sendneighbor := 1
      recvneighbor := worldSize - 1 }
  else if mpiid = worldSize - 1 then
    { sendneighbor := 0
      recvneighbor := worldSize - 2 }
  else
    { sendneighbor := mpiid + 1
      recvneighbor := mpiid - 1 }

/-! ## Underflow of `exp` in double precision -/

/-- The function `exp` of line 280 as far as underflow goes: in double precision
the result is 0 for every argument below a threshold (about -745.13) and follows
the exponential `exp` elsewhere; rounding is not modelled. -/
def flushToZero {K : Type} [LinearOrderedField K] (exp : K → K) (threshold : K) (x : K) : K :=
  if x < threshold then 0 else exp x

/-- Example object with a large negative bias in one bin: the grid, the counts,
the tables, the weight and the update period of `flatExample`, with the
coefficients 1000 and 4000 in the slots of order 1 and 2, so that the bias is
`1000*(-1/2) + 4000*(-1/8) = -1000` in bin 0 and `1000*(1/2) + 4000*(-1/8) = 0`
in bin 1. -/
def underflowExample (K : Type) [Field K] : Basis K :=
  { flatExample K with
    coeff_arr := [0, 1000, 4000]
    coeff := [⟨[0], 0⟩, ⟨[1], 1000⟩, ⟨[2], 4000⟩] }

/-! # Theorems -/

/-! ## General lemmas -/

theorem loopFrom_inv {σ : Type} (body : Nat → σ → σ) (P : Nat → σ → Prop) :
    ∀ (k a : Nat) (s : σ), P a s →
      (∀ i t, a ≤ i → i < a + k → P i t → P (i + 1) (body i t)) →
      P (a + k) (loopFrom body a k s) := by
  intro k
  induction k with
  | zero => intro a s h _; simpa [loopFrom] using h
  | succ k ih =>
    intro a s h hstep
    have h1 : P (a + 1) (body a s) := hstep a s (le_refl _) (by omega) h
    have h2 := ih (a + 1) (body a s) h1
      (fun i t hi hlt hp => hstep i t (by omega) (by omega) hp)
    have e : a + (k + 1) = a + 1 + k := by omega
    rw [e]
    simpa [loopFrom] using h2

theorem getD_set_eq {α : Type} (l : List α) (i : Nat) (a d : α) (h : i < l.length) :
    (l.set i a).getD i d = a := by
  simp [List.getD_eq_getElem?_getD, List.getElem?_set, h]

theorem getD_set_ne {α : Type} (l : List α) (i j : Nat) (a d : α) (h : i ≠ j) :
    (l.set i a).getD j d = l.getD j d := by
  simp [List.getD_eq_getElem?_getD, List.getElem?_set, h]

theorem getD_replicate_self {α : Type} (n i : Nat) (a : α) :
    (List.replicate n a).getD i a = a := by
  simp [List.getD_eq_getElem?_getD, List.getElem?_replicate]
  split <;> simp

/-! ## Mixed-radix arithmetic -/

theorem radix_pos (p : List Nat) (k : Nat) : 0 < radix p k := by
  unfold radix
  exact Finset.prod_pos (fun m _ => Nat.succ_pos _)

theorem radix_succ (p : List Nat) (k : Nat) :
    radix p (k + 1) = radix p k * (p.getD k 0 + 1) := by
  unfold radix
  exact Finset.prod_range_succ _ _

theorem coeffSize_eq_radix (D : Nat) (p : List Nat) : coeffSize D p = radix p D := by
  unfold coeffSize
  have h := loopFrom_inv (fun i sz => sz * (p.getD i 0 + 1)) (fun i sz => sz = radix p i)
    D 0 1 (by simp [radix])
    (by
      intro i t _ _ ht
      rw [radix_succ, ht])
  simpa using h

/-- Carry into a dimension that is not the last: the source's test
`jdx[j] > 0 && jdx[j] % (p+1) == 0` fires exactly when the next weight divides
the new number, and the digit left behind is the digit of the new number. -/
theorem carry_arith (i R r : Nat) (hR : 0 < R) (hr : 0 < r) (e : Bool) :
    let v := (i / R) % r + (if e = true ∧ R ∣ i + 1 then 1 else 0)
    ((0 < v ∧ v % r = 0) ↔ (e = true ∧ R * r ∣ i + 1)) ∧
    (if 0 < v ∧ v % r = 0 then 0 else v) = ((i + (if e = true then 1 else 0)) / R) % r := by
  intro v
  have hlt : (i / R) % r < r := Nat.mod_lt _ hr
  cases e with
  | false =>
    have hv : v = (i / R) % r := by simp [v]
    have hnc : ¬ (0 < v ∧ v % r = 0) := by
      rw [hv]
      rintro ⟨h1, h2⟩
      rw [Nat.mod_mod] at h2
      omega
    refine ⟨⟨fun h => absurd h hnc, fun h => by simp at h⟩, ?_⟩
    rw [if_neg hnc, hv]
    simp
  | true =>
    by_cases hd : R ∣ i + 1
    · have hv : v = (i / R) % r + 1 := by simp [v, hd]
      have hdiv : (i + 1) / R = i / R + 1 := by rw [Nat.succ_div, if_pos hd]
      have hmod : ((i + 1) / R) % r = v % r := by
        rw [hdiv, hv, Nat.add_mod (i / R) 1 r, Nat.add_mod ((i / R) % r) 1 r, Nat.mod_mod]
      have hiff : (R * r ∣ i + 1) ↔ v % r = 0 := by
        rw [← hmod]
        obtain ⟨q, hq⟩ := hd
        rw [hq, Nat.mul_div_cancel_left _ hR, Nat.mul_dvd_mul_iff_left hR]
        exact Nat.dvd_iff_mod_eq_zero
      have hvpos : 0 < v := by omega
      refine ⟨⟨fun h => ⟨rfl, hiff.2 h.2⟩, fun h => ⟨hvpos, hiff.1 h.2⟩⟩, ?_⟩
      simp only [if_true]
      by_cases hc : v % r = 0
      · rw [if_pos ⟨hvpos, hc⟩, hmod, hc]
      · rw [if_neg (fun h => hc h.2), hmod]
        have hvr : v ≠ r := by
          intro h
          apply hc
          rw [h, Nat.mod_self]
        have : v < r := by omega
        exact (Nat.mod_eq_of_lt this).symm
    · have hv : v = (i / R) % r := by simp [v, hd]
      have hnc : ¬ (0 < v ∧ v % r = 0) := by
        rw [hv]
        rintro ⟨h1, h2⟩
        rw [Nat.mod_mod] at h2
        omega
      have hdiv : (i + 1) / R = i / R := by rw [Nat.succ_div, if_neg hd]; rfl
      refine ⟨⟨fun h => absurd h hnc, fun h => absurd (dvd_of_mul_right_dvd h.2) hd⟩, ?_⟩
      rw [if_neg hnc, hv]
      simp only [if_true]
      rw [hdiv]

/-- Last dimension: the counter is never reduced, it holds the quotient. -/
theorem last_arith (i R : Nat) (e : Bool) :
    i / R + (if e = true ∧ R ∣ i + 1 then 1 else 0) = (i + (if e = true then 1 else 0)) / R := by
  cases e with
  | false => simp
  | true => simp [Nat.succ_div]

/-! ## The carry pass of `Basis::PreSimulation` -/

theorem carryBody_inv {K : Type} [Zero K] (D : Nat) (p : List Nat) (m : Nat) (e : Bool)
    (c0 : List (Map K)) (j : Nat) (s : SlotState K) (hj : j < D)
    (h : CarryInv D p m e c0 j s) : CarryInv D p m e c0 (j + 1) (carryBody D p j s) := by
  obtain ⟨hlen, hmlen, hc, hlow, hhigh⟩ := h
  have hv := hhigh j (le_refl _) hj
  simp only [true_and] at hv
  by_cases hlast : j + 1 = D
  · -- last dimension: no carry whatever the test says
    have hjD : ¬ (j ≠ D - 1) := by omega
    have hjdx : (carryBody D p j s).jdx = s.jdx := by
      simp only [carryBody, hjD, if_false, ite_self]
    have hmap : (carryBody D p j s).temp_map.map = s.temp_map.map.set j (s.jdx.getD j 0) := by
      simp only [carryBody, hjD, if_false, ite_self]
    have hval : s.jdx.getD j 0 = digit D p (m + (if e = true then 1 else 0)) j := by
      rw [hv]
      simp only [digit, hlast, if_true]
      exact last_arith m (radix p j) e
    refine ⟨by rw [hjdx]; exact hlen, by rw [hmap, List.length_set]; exact hmlen,
      by simpa [carryBody] using hc, ?_, ?_⟩
    · intro k hk
      rw [hjdx, hmap]
      by_cases hkj : k = j
      · subst hkj
        exact ⟨hval, by rw [getD_set_eq _ _ _ _ (by omega)]; exact hval⟩
      · rw [getD_set_ne _ _ _ _ _ (Ne.symm hkj)]
        exact hlow k (by omega)
    · intro k hk1 hk2
      omega
  · have hjD : j ≠ D - 1 := by omega
    have hdig : digit D p m j = (m / radix p j) % (p.getD j 0 + 1) := by
      simp [digit, hlast]
    have hdig1 : digit D p (m + (if e = true then 1 else 0)) j =
        ((m + (if e = true then 1 else 0)) / radix p j) % (p.getD j 0 + 1) := by
      simp [digit, hlast]
    obtain ⟨hiff, hvalue⟩ := carry_arith m (radix p j) (p.getD j 0 + 1) (radix_pos p j)
      (Nat.succ_pos _) e
    rw [← hdig, ← hv] at hiff hvalue
    rw [← hdig1] at hvalue
    rw [← radix_succ] at hiff
    by_cases hcond : 0 < s.jdx.getD j 0 ∧ s.jdx.getD j 0 % (p.getD j 0 + 1) = 0
    · have hjdx : (carryBody D p j s).jdx =
          (s.jdx.set (j + 1) (s.jdx.getD (j + 1) 0 + 1)).set j 0 := by
        simp only [carryBody, hcond, hjD, and_self, if_true, ne_eq, not_false_eq_true]
      have hj0 : (carryBody D p j s).jdx.getD j 0 = 0 := by
        rw [hjdx, getD_set_eq _ _ _ _ (by rw [List.length_set]; omega)]
      have hmap : (carryBody D p j s).temp_map.map = s.temp_map.map.set j 0 := by
        have : (carryBody D p j s).temp_map.map =
            s.temp_map.map.set j ((carryBody D p j s).jdx.getD j 0) := by
          simp only [carryBody]
        rw [this, hj0]
      rw [if_pos hcond] at hvalue
      refine ⟨by rw [hjdx, List.length_set, List.length_set]; exact hlen,
        by rw [hmap, List.length_set]; exact hmlen, by simpa [carryBody] using hc, ?_, ?_⟩
      · intro k hk
        by_cases hkj : k = j
        · subst hkj
          rw [hj0, hmap, getD_set_eq _ _ _ _ (by omega)]
          exact ⟨hvalue, hvalue⟩
        · rw [hjdx, hmap, getD_set_ne _ _ _ _ _ (Ne.symm hkj), getD_set_ne _ _ _ _ _ (Ne.symm hkj),
            getD_set_ne _ _ _ _ _ (by omega)]
          exact hlow k (by omega)
      · intro k hk1 hk2
        rw [hjdx, getD_set_ne _ _ _ _ _ (by omega)]
        by_cases hkj : k = j + 1
        · subst hkj
          rw [getD_set_eq _ _ _ _ (by omega), hhigh (j + 1) (by omega) hk2]
          have h2 := hiff.1 hcond
          simp [h2.1, h2.2]
        · rw [getD_set_ne _ _ _ _ _ (Ne.symm hkj), hhigh k (by omega) hk2]
          have h1 : ¬ (k = j) := by omega
          simp [h1, hkj]
    · have hjdx : (carryBody D p j s).jdx = s.jdx := by
        simp only [carryBody, hcond, if_false]
      have hmap : (carryBody D p j s).temp_map.map = s.temp_map.map.set j (s.jdx.getD j 0) := by
        simp only [carryBody, hcond, if_false]
      rw [if_neg hcond] at hvalue
      refine ⟨by rw [hjdx]; exact hlen, by rw [hmap, List.length_set]; exact hmlen,
        by simpa [carryBody] using hc, ?_, ?_⟩
      · intro k hk
        rw [hjdx, hmap]
        by_cases hkj : k = j
        · subst hkj
          exact ⟨hvalue, by rw [getD_set_eq _ _ _ _ (by omega)]; exact hvalue⟩
        · rw [getD_set_ne _ _ _ _ _ (Ne.symm hkj)]
          exact hlow k (by omega)
      · intro k hk1 hk2
        rw [hjdx, hhigh k (by omega) hk2]
        have h1 : ¬ (k = j) := by omega
        have h2 : ¬ (e = true ∧ radix p (j + 1) ∣ m + 1) := fun h => hcond (hiff.2 h)
        have h3 : ¬ (k = j + 1 ∧ e = true ∧ radix p (j + 1) ∣ m + 1) := fun h => h2 h.2
        simp only [h1, false_and, if_false, h3]

theorem carryPass {K : Type} [Zero K] (D : Nat) (p : List Nat) (m : Nat) (e : Bool)
    (s : SlotState K) (hlen : s.jdx.length = D) (hmlen : s.temp_map.map.length = D)
    (h0 : ∀ k, k < D → s.jdx.getD k 0 =
      digit D p m k + (if k = 0 ∧ e = true then 1 else 0)) :
    CarryInv D p m e s.coeff D (loopFrom (carryBody D p) 0 D s) := by
  have h := loopFrom_inv (carryBody D p) (CarryInv D p m e s.coeff) D 0 s
    (by
      refine ⟨hlen, hmlen, rfl, fun k hk => absurd hk (Nat.not_lt_zero k), ?_⟩
      intro k _ hk
      rw [h0 k hk]
      simp [radix])
    (by
      intro i t _ hi ht
      exact carryBody_inv D p m e s.coeff i t (by omega) ht)
  simpa using h

theorem slotBody_inv {K : Type} [Zero K] (D : Nat) (hD : 1 ≤ D) (p : List Nat)
    (coeff_arr : List K) (i : Nat) (s : SlotState K) (h : SlotInv D p coeff_arr i s) :
    SlotInv D p coeff_arr (i + 1) (slotBody D p coeff_arr i s) := by
  obtain ⟨hlen, hmlen, hclen, hslots, hjdx⟩ := h
  have hpass := carryPass D p (i - 1) (decide (0 < i)) s hlen hmlen hjdx
  have hi : i - 1 + (if decide (0 < i) = true then 1 else 0) = i := by
    by_cases h0 : 0 < i
    · simp [h0]; omega
    · simp [h0]; omega
  unfold CarryInv at hpass
  rw [hi] at hpass
  obtain ⟨hlen1, hmlen1, hc1, hdig1, _⟩ := hpass
  set st1 := loopFrom (carryBody D p) 0 D s with hst1
  have hbody : slotBody D p coeff_arr i s =
      { st1 with
        coeff := (st1.coeff ++ [st1.temp_map]).set i
          { ((st1.coeff ++ [st1.temp_map]).getD i st1.temp_map) with
            value := coeff_arr.getD i 0 }
        jdx := st1.jdx.set 0 (st1.jdx.getD 0 0 + 1) } := by
    simp only [slotBody, hlen, hst1]
  have hclen1 : st1.coeff.length = i := by rw [hc1]; exact hclen
  have hget : (st1.coeff ++ [st1.temp_map]).getD i st1.temp_map = st1.temp_map := by
    rw [List.getD_append_right _ _ _ _ (by omega), hclen1]
    simp
  have hset : (st1.coeff ++ [st1.temp_map]).set i
      { ((st1.coeff ++ [st1.temp_map]).getD i st1.temp_map) with value := coeff_arr.getD i 0 } =
      s.coeff ++ [{ st1.temp_map with value := coeff_arr.getD i 0 }] := by
    rw [hget, hc1, ← hclen]
    simp
  rw [hbody, hset]
  refine ⟨by simp only [List.length_set]; exact hlen1, hmlen1, by simp [hclen], ?_, ?_⟩
  · intro t ht
    by_cases hti : t < i
    · obtain ⟨slot, hs1, hs2⟩ := hslots t hti
      refine ⟨slot, ?_, hs2⟩
      simp only
      rw [List.getElem?_append_left (by omega)]
      exact hs1
    · have : t = i := by omega
      subst this
      refine ⟨{ st1.temp_map with value := coeff_arr.getD t 0 }, ?_, rfl, hmlen1, ?_⟩
      · simp only
        rw [List.getElem?_append_right (by omega), hclen]
        simp
      · intro k hk
        exact (hdig1 k hk).2
  · intro k hk
    simp only
    by_cases hk0 : k = 0
    · subst hk0
      rw [getD_set_eq _ _ _ _ (by omega), (hdig1 0 hk).1]
      simp
    · rw [getD_set_ne _ _ _ _ _ (Ne.symm hk0), (hdig1 k hk).1]
      simp [hk0]

theorem digit_zero (D : Nat) (p : List Nat) (k : Nat) : digit D p 0 k = 0 := by
  unfold digit
  split <;> simp

/-- The slots built by `PreSimulation`: there are `coeffSize D p` of them and
slot `t` holds the digits of `t` and the configured coefficient. -/
theorem PreSimulation_coeff_spec {K : Type} [Zero K] (D : Nat) (hD : 1 ≤ D) (p : List Nat)
    (coeff_arr0 : List K) :
    (PreSimulation_coeff D p coeff_arr0).length = radix p D ∧
    ∀ t, t < radix p D → ∃ slot, (PreSimulation_coeff D p coeff_arr0)[t]? = some slot ∧
      slot.value = (resize coeff_arr0 (radix p D) 0).getD t 0 ∧
      slot.map.length = D ∧ ∀ k, k < D → slot.map.getD k 0 = digit D p t k := by
  have h := loopFrom_inv (slotBody D p (resize coeff_arr0 (radix p D) 0))
    (SlotInv D p (resize coeff_arr0 (radix p D) 0)) (radix p D) 0
    { jdx := List.replicate D 0, temp_map := { map := List.replicate D 0, value := 0 },
      coeff := [] }
    (by
      refine ⟨by simp, by simp, by simp, fun t ht => absurd ht (Nat.not_lt_zero t), ?_⟩
      intro k _
      simp [getD_replicate_self, digit_zero])
    (by
      intro i t _ _ ht
      exact slotBody_inv D hD p _ i t ht)
  simp only [Nat.zero_add] at h
  obtain ⟨_, _, h3, h4, _⟩ := h
  unfold PreSimulation_coeff
  simp only [coeffSize_eq_radix]
  exact ⟨h3, h4⟩

theorem digit_eq_mod (D : Nat) (p : List Nat) (t k : Nat) (_hk : k < D) (ht : t < radix p D) :
    digit D p t k = (t / radix p k) % (p.getD k 0 + 1) := by
  unfold digit
  split
  · next h =>
    have hlt : t < radix p k * (p.getD k 0 + 1) := by
      rw [← radix_succ, h]
      exact ht
    exact (Nat.mod_eq_of_lt (Nat.div_lt_of_lt_mul hlt)).symm
  · rfl

/-- Two numbers with the same digits below `D` and the same quotient by the
weight of `D` are equal. -/
theorem digits_inj (p : List Nat) (D : Nat) : ∀ i j : Nat,
    (∀ k, k < D → (i / radix p k) % (p.getD k 0 + 1) = (j / radix p k) % (p.getD k 0 + 1)) →
    i / radix p D = j / radix p D → i = j := by
  induction D with
  | zero =>
    intro i j _ h
    simpa [radix] using h
  | succ D ih =>
    intro i j hd hq
    apply ih i j (fun k hk => hd k (by omega))
    rw [radix_succ, ← Nat.div_div_eq_div_mul, ← Nat.div_div_eq_div_mul] at hq
    have h1 := Nat.mod_add_div (i / radix p D) (p.getD D 0 + 1)
    have h2 := Nat.mod_add_div (j / radix p D) (p.getD D 0 + 1)
    rw [← h1, ← h2, hd D (by omega), hq]

/-- C2. For every number of CVs `D >= 1`, every list of `D` polynomial orders
and every slot index `i` below the product of the `p_k + 1`, the slot that
`Basis::PreSimulation` stores at position `i` has a multi-index of length `D`
whose component `k` is `(i div prod_(m<k) (p_m + 1)) mod (p_k + 1)`: the
mixed-radix expansion of `i`, dimension 0 varying fastest. -/
theorem C2_slot_is_mixed_radix_expansion {K : Type} [Zero K] (D : Nat) (hD : 1 ≤ D)
    (p : List Nat) (_hp : p.length = D) (coeff_arr : List K) (i : Nat)
    (hi : i < ∏ k in Finset.range D, (p.getD k 0 + 1)) :
    ∃ slot, (PreSimulation_coeff D p coeff_arr)[i]? = some slot ∧ slot.map.length = D ∧
      ∀ k, k < D → slot.map.getD k 0 =
        (i / ∏ m in Finset.range k, (p.getD m 0 + 1)) % (p.getD k 0 + 1) := by
  obtain ⟨_, hslots⟩ := PreSimulation_coeff_spec D hD p coeff_arr
  obtain ⟨slot, h1, _, h3, h4⟩ := hslots i hi
  refine ⟨slot, h1, h3, fun k hk => ?_⟩
  rw [h4 k hk, digit_eq_mod D p i k hk hi]
  rfl

theorem C2_slot_is_mixed_radix_expansion_witness :
    ∃ slot, (PreSimulation_coeff 2 [2, 1] ([] : List ℚ))[5]? = some slot ∧ slot.map.length = 2 ∧
      ∀ k, k < 2 → slot.map.getD k 0 =
        (5 / ∏ m in Finset.range k, (([2, 1] : List Nat).getD m 0 + 1)) %
          (([2, 1] : List Nat).getD k 0 + 1) :=
  C2_slot_is_mixed_radix_expansion 2 (by decide) [2, 1] rfl [] 5 (by decide)

/-- C1. For every number of CVs `D >= 1` and every list of `D` polynomial
orders, the slot vector built by `Basis::PreSimulation` has exactly
`prod_k (p_k + 1)` slots, the multi-indices of the slots are pairwise distinct,
every multi-index has length `D` with component `k` at most `p_k`, and slot 0
holds the all-zero multi-index. -/
theorem C1_slot_enumeration {K : Type} [Zero K] (D : Nat) (hD : 1 ≤ D)
    (p : List Nat) (_hp : p.length = D) (coeff_arr : List K) :
    (PreSimulation_coeff D p coeff_arr).length = ∏ k in Finset.range D, (p.getD k 0 + 1) ∧
    ((PreSimulation_coeff D p coeff_arr).map Map.map).Nodup ∧
    (∀ slot, slot ∈ PreSimulation_coeff D p coeff_arr →
      slot.map.length = D ∧ ∀ k, k < D → slot.map.getD k 0 ≤ p.getD k 0) ∧
    ((PreSimulation_coeff D p coeff_arr).map Map.map)[0]? = some (List.replicate D 0) := by
  obtain ⟨hlen, hslots⟩ := PreSimulation_coeff_spec D hD p coeff_arr
  refine ⟨hlen, ?_, ?_, ?_⟩
  · rw [List.nodup_iff_getElem?_ne_getElem?]
    intro i j hij hj heq
    rw [List.length_map, hlen] at hj
    obtain ⟨si, hi1, _, _, hi4⟩ := hslots i (by omega)
    obtain ⟨sj, hj1, _, _, hj4⟩ := hslots j hj
    rw [List.getElem?_map, List.getElem?_map, hi1, hj1] at heq
    simp only [Option.map_some', Option.some.injEq] at heq
    have : i = j := by
      apply digits_inj p D i j
      · intro k hk
        rw [← digit_eq_mod D p i k hk (by omega), ← digit_eq_mod D p j k hk hj,
          ← hi4 k hk, ← hj4 k hk, heq]
      · rw [Nat.div_eq_of_lt (by omega), Nat.div_eq_of_lt hj]
    omega
  · intro slot hmem
    obtain ⟨t, ht⟩ := List.mem_iff_getElem?.1 hmem
    have htlt : t < radix p D := by
      rw [← hlen]
      obtain ⟨h, _⟩ := List.getElem?_eq_some.1 ht
      exact h
    obtain ⟨s2, h1, _, h3, h4⟩ := hslots t htlt
    rw [ht] at h1
    cases h1
    refine ⟨h3, fun k hk => ?_⟩
    rw [h4 k hk, digit_eq_mod D p t k hk htlt]
    exact Nat.lt_succ_iff.1 (Nat.mod_lt _ (Nat.succ_pos _))
  · obtain ⟨s0, h1, _, h3, h4⟩ := hslots 0 (radix_pos p D)
    rw [List.getElem?_map, h1]
    simp only [Option.map_some', Option.some.injEq]
    apply List.ext_getElem
    · simp [h3]
    · intro n hn1 hn2
      have := h4 n (by omega)
      rw [digit_zero] at this
      simp only [List.getElem_replicate]
      rw [← this, List.getD_eq_getElem _ _ hn1]

theorem C1_slot_enumeration_witness :
    (PreSimulation_coeff 3 [1, 0, 2] ([] : List ℚ)).length =
      ∏ k in Finset.range 3, (([1, 0, 2] : List Nat).getD k 0 + 1) ∧
    ((PreSimulation_coeff 3 [1, 0, 2] ([] : List ℚ)).map Map.map).Nodup ∧
    (∀ slot, slot ∈ PreSimulation_coeff 3 [1, 0, 2] ([] : List ℚ) →
      slot.map.length = 3 ∧ ∀ k, k < 3 → slot.map.getD k 0 ≤ ([1, 0, 2] : List Nat).getD k 0) ∧
    ((PreSimulation_coeff 3 [1, 0, 2] ([] : List ℚ)).map Map.map)[0]? =
      some (List.replicate 3 0) :=
  C1_slot_enumeration 3 (by decide) [1, 0, 2] rfl []

/-! ## `BasisInit`: the tables -/

theorem loopFromM_inv {σ : Type} (body : Nat → σ → Option σ) (P : Nat → σ → Prop) :
    ∀ (k a : Nat) (s : σ), P a s →
      (∀ i t, a ≤ i → i < a + k → P i t → ∃ t', body i t = some t' ∧ P (i + 1) t') →
      ∃ s', loopFromM body a k s = some s' ∧ P (a + k) s' := by
  intro k
  induction k with
  | zero => intro a s h _; exact ⟨s, rfl, by simpa using h⟩
  | succ k ih =>
    intro a s h hstep
    obtain ⟨t', ht', hP⟩ := hstep a s (le_refl _) (by omega) h
    obtain ⟨s', hs', hP'⟩ := ih (a + 1) t' hP
      (fun i t hi hlt hp => hstep i t (by omega) (by omega) hp)
    refine ⟨s', ?_, ?_⟩
    · simp [loopFromM, ht', hs']
    · have e : a + (k + 1) = a + 1 + k := by omega
      rw [e]
      exact hP'

theorem store_of_lt {α : Type} (v : List α) (i : Nat) (a : α) (h : i < v.length) :
    store v i a = some (v.set i a) := by
  simp [store, h]

theorem store_of_le {α : Type} (v : List α) (i : Nat) (a : α) (h : v.length ≤ i) :
    store v i a = none := by
  simp [store, Nat.not_lt.2 h]

theorem cell_inj (n b b' j j' : Nat) (hb : b < n) (hb' : b' < n)
    (h : b + j * n = b' + j' * n) : b = b' ∧ j = j' := by
  have h1 : (b + j * n) % n = (b' + j' * n) % n := by rw [h]
  rw [Nat.add_mul_mod_self_right, Nat.add_mul_mod_self_right, Nat.mod_eq_of_lt hb,
    Nat.mod_eq_of_lt hb'] at h1
  subst h1
  have hn : 0 < n := by omega
  have h2 : j * n = j' * n := by omega
  exact ⟨rfl, Nat.eq_of_mul_eq_mul_right hn h2⟩

theorem cell_lt (n rows b j : Nat) (hb : b < n) (hj : j < rows) : b + j * n < n * rows := by
  have h1 : (j + 1) * n ≤ rows * n := Nat.mul_le_mul_right n hj
  have h2 : (j + 1) * n = j * n + n := by ring
  have h3 : rows * n = n * rows := by ring
  omega

theorem initOrder0_inv {K : Type} [Field K] (n N i : Nat) (s : TableState K)
    (hi : i < n) (hN : n ≤ N) (h : SeedInv n N i s) :
    ∃ s', initOrder0 n i s = some s' ∧ SeedInv n N (i + 1) s' := by
  obtain ⟨hx, hv, hd, hrow⟩ := h
  refine ⟨{ x := s.x.set i (binCoord n i), vals := s.vals.set i 1, dervs := s.dervs.set i 0 },
    ?_, ?_⟩
  · simp [initOrder0, store_of_lt s.x i _ (by omega), store_of_lt s.vals i _ (by omega),
      store_of_lt s.dervs i _ (by omega)]
  · refine ⟨by simp [hx], by simp [hv], by simp [hd], ?_⟩
    intro b hb
    by_cases hbi : b = i
    · subst hbi
      simp only
      rw [List.getElem?_set_self (by omega), List.getElem?_set_self (by omega),
        List.getElem?_set_self (by omega)]
      exact ⟨rfl, rfl, rfl⟩
    · simp only
      rw [List.getElem?_set_ne (Ne.symm hbi), List.getElem?_set_ne (Ne.symm hbi),
        List.getElem?_set_ne (Ne.symm hbi)]
      exact hrow b (by omega)

theorem seed_filled {K : Type} [Field K] (n N : Nat) (s : TableState K)
    (h : SeedInv n N n s) : Filled n N 1 0 s := by
  obtain ⟨hx, hv, hd, hrow⟩ := h
  refine ⟨hx, hv, hd, fun b hb => (hrow b hb).1, ?_⟩
  intro j b hb hj
  have hj0 : j = 0 := by omega
  subst hj0
  simp only [Nat.zero_mul, Nat.add_zero, legendreP, legendreD]
  exact (hrow b hb).2

theorem filled_next_row {K : Type} [Field K] (n N r : Nat) (s : TableState K)
    (h : Filled n N r n s) : Filled n N (r + 1) 0 s := by
  obtain ⟨hx, hv, hd, hxs, hcells⟩ := h
  refine ⟨hx, hv, hd, hxs, ?_⟩
  intro j b hb hj
  apply hcells j b hb
  by_cases h1 : j < r
  · exact Or.inl h1
  · exact Or.inr ⟨by omega, hb⟩

theorem initOrder1_inv {K : Type} [Field K] (n N i : Nat) (s : TableState K)
    (hi : i < n) (hN : n * 2 ≤ N) (h : Filled n N 1 i s) :
    ∃ s', initOrder1 n i s = some s' ∧ Filled n N 1 (i + 1) s' := by
  obtain ⟨hx, hv, hd, hxs, hcells⟩ := h
  refine ⟨{ s with vals := s.vals.set (i + n) (binCoord n i),
                   dervs := s.dervs.set (i + n) 1 }, ?_, ?_⟩
  · simp [initOrder1, hxs i hi, store_of_lt s.vals (i + n) _ (by omega),
      store_of_lt s.dervs (i + n) _ (by omega)]
  · refine ⟨hx, by simp [hv], by simp [hd], hxs, ?_⟩
    intro j b hb hj
    by_cases hcell : j = 1 ∧ b = i
    · obtain ⟨rfl, rfl⟩ := hcell
      simp only [Nat.one_mul]
      rw [List.getElem?_set_self (by omega), List.getElem?_set_self (by omega)]
      simp [legendreP, legendreD]
    · have hne : i + n ≠ b + j * n := by
        intro heq
        have := cell_inj n i b 1 j hi hb (by simpa using heq)
        exact hcell ⟨this.2.symm, this.1.symm⟩
      simp only
      rw [List.getElem?_set_ne hne, List.getElem?_set_ne hne]
      apply hcells j b hb
      rcases hj with h1 | ⟨h1, h2⟩
      · exact Or.inl h1
      · exact Or.inr ⟨h1, by
          have : b ≠ i := fun hbi => hcell ⟨h1, hbi⟩
          omega⟩

theorem recurBody_inv {K : Type} [Field K] (n N j i : Nat) (s : TableState K)
    (hj : 2 ≤ j) (hi : i < n) (hN : n * (j + 1) ≤ N) (h : Filled n N j i s) :
    ∃ s', recurBody n j i s = some s' ∧ Filled n N j (i + 1) s' := by
  obtain ⟨hx, hv, hd, hxs, hcells⟩ := h
  obtain ⟨j0, rfl⟩ : ∃ j0, j = j0 + 2 := ⟨j - 2, by omega⟩
  have hc1 := hcells (j0 + 1) i hi (Or.inl (by omega))
  have hc2 := hcells j0 i hi (Or.inl (by omega))
  have hlt : i + (j0 + 2) * n < N := by
    have := cell_lt n (j0 + 2 + 1) i (j0 + 2) hi (by omega)
    omega
  have hne1 : i + (j0 + 2) * n ≠ i + (j0 + 1) * n := by
    intro heq
    have := cell_inj n i i (j0 + 2) (j0 + 1) hi hi heq
    omega
  refine ⟨{ s with
      vals := s.vals.set (i + (j0 + 2) * n) (legendreP (j0 + 2) (binCoord n i)),
      dervs := s.dervs.set (i + (j0 + 2) * n) (legendreD (j0 + 2) (binCoord n i)) }, ?_, ?_⟩
  · have e1 : j0 + 2 - 1 = j0 + 1 := by omega
    have e2 : j0 + 2 - 2 = j0 := by omega
    simp only [recurBody, e1, e2, hxs i hi, hc1.1, hc1.2, hc2.1, hc2.2,
      store_of_lt s.vals _ _ (hv ▸ hlt), store_of_lt s.dervs _ _ (hd ▸ hlt),
      List.getElem?_set_ne hne1, Option.bind_eq_bind, Option.some_bind, Option.pure_def,
      bind_pure_comp, Option.map_some', legendreP, legendreD]
  · refine ⟨hx, by simp [hv], by simp [hd], hxs, ?_⟩
    intro j b hb hjb
    by_cases hcell : j = j0 + 2 ∧ b = i
    · obtain ⟨rfl, rfl⟩ := hcell
      simp only
      rw [List.getElem?_set_self (by omega), List.getElem?_set_self (by omega)]
      exact ⟨rfl, rfl⟩
    · have hne : i + (j0 + 2) * n ≠ b + j * n := by
        intro heq
        have := cell_inj n i b (j0 + 2) j hi hb heq
        exact hcell ⟨this.2.symm, this.1.symm⟩
      simp only
      rw [List.getElem?_set_ne hne, List.getElem?_set_ne hne]
      apply hcells j b hb
      rcases hjb with h1 | ⟨h1, h2⟩
      · exact Or.inl h1
      · exact Or.inr ⟨h1, by
          have : b ≠ i := fun hbi => hcell ⟨h1, hbi⟩
          omega⟩

/-- Tables of one dimension: for an order of at least 1 `BasisInit` completes,
both tables have length `n * (p + 1)` and row `j <= p` holds `P_j` and the
derivative recurrence at the bin coordinates. -/
theorem BasisInit_table_spec {K : Type} [Field K] (p n : Nat) (hp : 1 ≤ p) :
    ∃ lut : BasisLUT K, BasisInit_table p n = some lut ∧
      lut.values.length = n * (p + 1) ∧ lut.derivs.length = n * (p + 1) ∧
      ∀ j b, b < n → j ≤ p →
        lut.values[b + j * n]? = some (legendreP j (binCoord n b)) ∧
        lut.derivs[b + j * n]? = some (legendreD j (binCoord n b)) := by
  have hN1 : n ≤ n * (p + 1) := Nat.le_mul_of_pos_right n (by omega)
  have hN2 : n * 2 ≤ n * (p + 1) := Nat.mul_le_mul_left n (by omega)
  obtain ⟨s1, hs1, hP1⟩ := loopFromM_inv (initOrder0 (K := K) n) (SeedInv n (n * (p + 1))) n 0
    { x := List.replicate n 0, vals := List.replicate (n * (p + 1)) 0,
      dervs := List.replicate (n * (p + 1)) 0 }
    ⟨by simp, by simp, by simp, fun b hb => absurd hb (Nat.not_lt_zero b)⟩
    (fun i t _ hi ht => initOrder0_inv n _ i t (by omega) hN1 ht)
  rw [Nat.zero_add] at hP1
  obtain ⟨s2, hs2, hP2⟩ := loopFromM_inv (initOrder1 (K := K) n) (Filled n (n * (p + 1)) 1) n 0
    s1 (seed_filled n _ s1 hP1)
    (fun i t _ hi ht => initOrder1_inv n _ i t (by omega) hN2 ht)
  rw [Nat.zero_add] at hP2
  obtain ⟨s3, hs3, hP3⟩ := loopFromM_inv
    (fun j => loopFromM (recurBody (K := K) n j) 0 n)
    (fun j s => Filled n (n * (p + 1)) j 0 s) (p + 1 - 2) 2 s2
    (filled_next_row n _ 1 s2 hP2)
    (by
      intro j t hj2 hjp ht
      obtain ⟨t', ht', hQ⟩ := loopFromM_inv (recurBody (K := K) n j) (Filled n (n * (p + 1)) j)
        n 0 t ht
        (fun i u _ hi hu => recurBody_inv n _ j i u hj2 (by omega)
          (Nat.mul_le_mul_left n (by omega)) hu)
      rw [Nat.zero_add] at hQ
      exact ⟨t', ht', filled_next_row n _ j t' hQ⟩)
  have e : 2 + (p + 1 - 2) = p + 1 := by omega
  rw [e] at hP3
  obtain ⟨_, hv, hd, _, hcells⟩ := hP3
  refine ⟨{ values := s3.vals, derivs := s3.dervs }, ?_, hv, hd, ?_⟩
  · simp only [BasisInit_table, hs1, hs2, hs3, Option.bind_eq_bind, Option.some_bind,
      Option.pure_def]
  · intro j b hb hj
    exact hcells j b hb (Or.inl (by omega))

/-- With order 0 and at least one bin the order-1 row is written past the end
of the tables: the first write `vals[0 + nbins]` is at index `nbins`, the
length of the table. -/
theorem BasisInit_table_order_zero {K : Type} [Field K] (n : Nat) (hn : 1 ≤ n) :
    BasisInit_table (K := K) 0 n = none := by
  obtain ⟨s1, hs1, hP1⟩ := loopFromM_inv (initOrder0 (K := K) n) (SeedInv n (n * (0 + 1))) n 0
    { x := List.replicate n 0, vals := List.replicate (n * (0 + 1)) 0,
      dervs := List.replicate (n * (0 + 1)) 0 }
    ⟨by simp, by simp, by simp, fun b hb => absurd hb (Nat.not_lt_zero b)⟩
    (fun i t _ hi ht => initOrder0_inv n _ i t (by omega) (by omega) ht)
  obtain ⟨hx, hv, _, hrow⟩ := hP1
  obtain ⟨m, rfl⟩ : ∃ m, n = m + 1 := ⟨n - 1, by omega⟩
  have hfail : initOrder1 (m + 1) 0 s1 = none := by
    simp only [initOrder1, (hrow 0 (by omega)).1, store_of_le s1.vals (0 + (m + 1)) _ (by omega),
      Option.bind_eq_bind, Option.some_bind, Option.none_bind]
  have h2 : loopFromM (initOrder1 (K := K) (m + 1)) 0 (m + 1) s1 = none := by
    simp only [loopFromM, hfail, Option.none_bind]
  simp only [BasisInit_table, hs1, h2, Option.bind_eq_bind, Option.some_bind, Option.none_bind]

theorem loopFromM_inv_of_some {σ : Type} (body : Nat → σ → Option σ) (P : Nat → σ → Prop) :
    ∀ (k a : Nat) (s s' : σ), P a s →
      (∀ i t t', a ≤ i → i < a + k → P i t → body i t = some t' → P (i + 1) t') →
      loopFromM body a k s = some s' → P (a + k) s' := by
  intro k
  induction k with
  | zero =>
    intro a s s' h _ hs
    simp only [loopFromM, Option.some.injEq] at hs
    subst hs
    simpa using h
  | succ k ih =>
    intro a s s' h hstep hs
    simp only [loopFromM] at hs
    obtain ⟨t, ht, hs'⟩ := Option.bind_eq_some.1 hs
    have hP := hstep a s t (le_refl _) (by omega) h ht
    have := ih (a + 1) t s' hP (fun i u u' hi hlt hp hb => hstep i u u' (by omega) (by omega) hp hb) hs'
    have e : a + (k + 1) = a + 1 + k := by omega
    rw [e]
    exact this

/-- Order-0 row of a table that `BasisInit` completed. -/
theorem BasisInit_table_order0_row {K : Type} [Field K] (p n : Nat) (t : BasisLUT K)
    (h : BasisInit_table p n = some t) (i : Nat) (hi : i < n) :
    t.values[i]? = some 1 ∧ t.derivs[i]? = some 0 := by
  by_cases hp : 1 ≤ p
  · obtain ⟨lut, hlut, _, _, hcells⟩ := BasisInit_table_spec (K := K) p n hp
    rw [h] at hlut
    cases hlut
    have := hcells 0 i hi (Nat.zero_le p)
    simpa [legendreP, legendreD] using this
  · have hp0 : p = 0 := by omega
    subst hp0
    rw [BasisInit_table_order_zero n (by omega)] at h
    cases h

/-- What `BasisInit` leaves in `LUT_`: one table per dimension. -/
theorem BasisInit_tables {K : Type} [Field K] (D : Nat) (polyords numPoints : List Nat)
    (LUT : List (BasisLUT K)) (h : BasisInit D polyords numPoints = some LUT) :
    LUT.length = D ∧ ∀ k, k < D → ∃ t, LUT[k]? = some t ∧
      BasisInit_table (polyords.getD k 0) (numPoints.getD k 0) = some t := by
  have := loopFromM_inv_of_some
    (fun k (LUT : List (BasisLUT K)) => do
      let pk ← polyords[k]?
      let t ← BasisInit_table pk (numPoints.getD k 0)
      pure (LUT ++ [t]))
    (fun k LUT => LUT.length = k ∧ ∀ k', k' < k → ∃ t, LUT[k']? = some t ∧
      BasisInit_table (polyords.getD k' 0) (numPoints.getD k' 0) = some t)
    D 0 [] LUT ⟨rfl, fun k' hk' => absurd hk' (Nat.not_lt_zero k')⟩
    (by
      intro i u u' _ _ hu hbody
      obtain ⟨hlen, hprev⟩ := hu
      simp only [Option.bind_eq_bind, Option.pure_def] at hbody
      obtain ⟨pk, hpk, hrest⟩ := Option.bind_eq_some.1 hbody
      obtain ⟨t, ht, hu'⟩ := Option.bind_eq_some.1 hrest
      simp only [Option.some.injEq] at hu'
      subst hu'
      have hpk' : polyords.getD i 0 = pk := by simp [List.getD_eq_getElem?_getD, hpk]
      refine ⟨by simp [hlen], ?_⟩
      intro k' hk'
      by_cases hlt : k' < i
      · obtain ⟨t', h1, h2⟩ := hprev k' hlt
        exact ⟨t', by rw [List.getElem?_append_left (by omega)]; exact h1, h2⟩
      · have hki : k' = i := by omega
        subst hki
        refine ⟨t, ?_, by rw [hpk']; exact ht⟩
        rw [List.getElem?_append_right (by omega), hlen]
        simp)
    h
  simpa using this

theorem BasisInit_completes {K : Type} [Field K] (D : Nat) (polyords numPoints : List Nat)
    (hlen : polyords.length = D) (hord : ∀ k, k < D → 1 ≤ polyords.getD k 0) :
    ∃ LUT : List (BasisLUT K), BasisInit D polyords numPoints = some LUT := by
  obtain ⟨LUT, h, _⟩ := loopFromM_inv
    (fun k (LUT : List (BasisLUT K)) => do
      let pk ← polyords[k]?
      let t ← BasisInit_table pk (numPoints.getD k 0)
      pure (LUT ++ [t]))
    (fun _ _ => True) D 0 [] trivial
    (by
      intro i u _ hi _
      have hi' : i < polyords.length := by omega
      obtain ⟨lut, hlut, _⟩ := BasisInit_table_spec (K := K) (polyords.getD i 0)
        (numPoints.getD i 0) (hord i (by omega))
      rw [List.getD_eq_getElem _ _ hi'] at hlut
      refine ⟨u ++ [lut], ?_, trivial⟩
      simp only [List.getElem?_eq_getElem hi', hlut, Option.bind_eq_bind, Option.some_bind,
        Option.pure_def])
  exact ⟨LUT, h⟩

theorem legendreP_hasDerivAt : ∀ (j : Nat) (x : ℝ),
    HasDerivAt (fun y => legendreP j y) (legendreD j x) x ∧
    HasDerivAt (fun y => legendreP (j + 1) y) (legendreD (j + 1) x) x := by
  intro j
  induction j with
  | zero =>
    intro x
    refine ⟨?_, ?_⟩
    · simpa [legendreP, legendreD] using hasDerivAt_const x (1 : ℝ)
    · simpa [legendreP, legendreD] using hasDerivAt_id x
  | succ j ih =>
    intro x
    obtain ⟨h0, h1⟩ := ih x
    refine ⟨h1, ?_⟩
    have hx : HasDerivAt (fun y : ℝ => y) 1 x := hasDerivAt_id x
    have hmul := (hx.mul h1).const_mul (2 * ((j + 2 : Nat) : ℝ) - 1)
    have hsub := (hmul.sub (h0.const_mul (((j + 2 : Nat) : ℝ) - 1))).div_const ((j + 2 : Nat) : ℝ)
    have hfun : (fun y => legendreP (j + 1 + 1) y) = (fun y : ℝ =>
        ((2 * ((j + 2 : Nat) : ℝ) - 1) * (y * legendreP (j + 1) y)
          - (((j + 2 : Nat) : ℝ) - 1) * legendreP j y) / ((j + 2 : Nat) : ℝ)) := by
      funext y
      simp only [legendreP]
      ring
    rw [hfun]
    convert hsub using 1
    simp only [legendreD]
    ring

/-- C3 (failing input). With one bin and polynomial order 0 the tables have
length `1 * (0 + 1) = 1`. The first loop of `BasisInit` fills them (`x = [0]`,
`vals = [1]`, `dervs = [0]`); the unconditional order-1 loop then writes
`vals[0 + nbins]`, index 1, which is not below the length 1: the write is past
the end of the table and `BasisInit` does not complete. -/
theorem C3_order_zero_writes_past_the_table :
    loopFromM (initOrder0 1) 0 1
        ({ x := List.replicate 1 0, vals := List.replicate (1 * (0 + 1)) 0,
           dervs := List.replicate (1 * (0 + 1)) 0 } : TableState ℚ) =
      some { x := [0], vals := [1], dervs := [0] } ∧
    store ([1] : List ℚ) (0 + 1) 0 = none ∧
    BasisInit_table (K := ℚ) 0 1 = none := by
  refine ⟨?_, ?_, BasisInit_table_order_zero 1 (le_refl 1)⟩
  · simp [loopFromM, initOrder0, store, binCoord]
  · simp [store]

/-- C4. For every order `p >= 2`, every bin count `n` and every bin `i < n`
(so `n >= 1`), `BasisInit` completes and the order-2 entry `values[i + 2n]` is
`(3 x^2 - 1) / 2` at `x = (2i+1)/n - 1`, in exact arithmetic. -/
theorem C4_order_two_closed_form {K : Type} [Field K] (n p i : Nat) (hp : 2 ≤ p)
    (hi : i < n) :
    ∃ lut : BasisLUT K, BasisInit_table p n = some lut ∧
      lut.values[i + 2 * n]? = some ((3 * (binCoord n i) ^ 2 - 1) / 2) := by
  obtain ⟨lut, hlut, _, _, hcells⟩ := BasisInit_table_spec (K := K) p n (by omega)
  refine ⟨lut, hlut, ?_⟩
  rw [(hcells 2 i hi hp).1]
  simp only [legendreP, Option.some.injEq]
  norm_num
  ring

theorem C4_order_two_closed_form_witness :
    ∃ lut : BasisLUT ℚ, BasisInit_table 2 4 = some lut ∧
      lut.values[0 + 2 * 4]? = some ((3 * (binCoord 4 0) ^ 2 - 1) / 2) :=
  C4_order_two_closed_form 4 2 0 (by decide) (by decide)

/-- C5. For every order `p >= 1`, every `j <= p`, every bin count `n` and every
bin `i < n`, `BasisInit` completes, row `j` of the value table holds the values
of the polynomial `P_j` of the value recurrence at the bin coordinates, and the
entry `derivs[i + j n]` is the derivative of `P_j` with respect to `x` at
`x_i = (2i+1)/n - 1`. -/
theorem C5_derivative_table_is_derivative (n p j i : Nat) (hp : 1 ≤ p) (hj : j ≤ p)
    (hi : i < n) :
    ∃ lut : BasisLUT ℝ, BasisInit_table p n = some lut ∧
      (∀ b, b < n → lut.values[b + j * n]? = some (legendreP j (binCoord n b))) ∧
      ∃ d : ℝ, lut.derivs[i + j * n]? = some d ∧
        HasDerivAt (fun x : ℝ => legendreP j x) d (binCoord n i) := by
  obtain ⟨lut, hlut, _, _, hcells⟩ := BasisInit_table_spec (K := ℝ) p n hp
  refine ⟨lut, hlut, fun b hb => (hcells j b hb hj).1, legendreD j (binCoord n i),
    (hcells j i hi hj).2, (legendreP_hasDerivAt j _).1⟩

theorem C5_derivative_table_is_derivative_witness :
    ∃ lut : BasisLUT ℝ, BasisInit_table 3 2 = some lut ∧
      (∀ b, b < 2 → lut.values[b + 3 * 2]? = some (legendreP 3 (binCoord 2 b))) ∧
      ∃ d : ℝ, lut.derivs[1 + 3 * 2]? = some d ∧
        HasDerivAt (fun x : ℝ => legendreP 3 x) d (binCoord 2 1) :=
  C5_derivative_table_is_derivative 2 3 3 1 (by decide) (by decide) (by decide)

/-- C6. For every bin count `n` and every bin `i < n` (so `n >= 1`) the
internal coordinate `x_i = (2i+1)/n - 1` of `BasisInit` lies strictly between
-1 and 1, and the next coordinate is exactly `2/n` further. -/
theorem C6_bin_coordinate_range_and_spacing {K : Type} [LinearOrderedField K] (n i : Nat)
    (hi : i < n) :
    (-1 : K) < binCoord n i ∧ binCoord n i < (1 : K) ∧
      binCoord n (i + 1) - binCoord n i = (2 : K) / (n : K) := by
  have hn : (0 : K) < (n : K) := by exact_mod_cast (by omega : 0 < n)
  have hi' : (i : K) + 1 ≤ (n : K) := by exact_mod_cast hi
  have hpos : (0 : K) < (2 * (i : K) + 1) / (n : K) := by positivity
  have hlt : (2 * (i : K) + 1) / (n : K) < 2 := by
    rw [div_lt_iff₀ hn]
    linarith
  refine ⟨?_, ?_, ?_⟩
  · unfold binCoord
    linarith
  · unfold binCoord
    linarith
  · unfold binCoord
    push_cast
    field_simp
    ring

theorem C6_bin_coordinate_range_and_spacing_witness :
    (-1 : ℚ) < binCoord 10 9 ∧ binCoord 10 9 < (1 : ℚ) ∧
      binCoord 10 (9 + 1) - binCoord 10 9 = (2 : ℚ) / ((10 : Nat) : ℚ) :=
  C6_bin_coordinate_range_and_spacing 10 9 (by decide)

/-- C7. With one polynomial order per CV: `BasisInit` completes whenever every
order is at least 1, and whenever it completes it leaves one table per
dimension `k` whose order-0 entries are `values[i] = 1` and `derivs[i] = 0`
for every bin `i < n_k`. -/
theorem C7_order_zero_row_constant {K : Type} [Field K] (D : Nat)
    (polyords numPoints : List Nat) (hlen : polyords.length = D) :
    ((∀ k, k < D → 1 ≤ polyords.getD k 0) →
      ∃ LUT : List (BasisLUT K), BasisInit D polyords numPoints = some LUT) ∧
    ∀ LUT : List (BasisLUT K), BasisInit D polyords numPoints = some LUT →
      LUT.length = D ∧ ∀ k, k < D → ∃ t, LUT[k]? = some t ∧
        ∀ i, i < numPoints.getD k 0 → t.values[i]? = some 1 ∧ t.derivs[i]? = some 0 := by
  refine ⟨BasisInit_completes D polyords numPoints hlen, ?_⟩
  intro LUT h
  obtain ⟨h1, h2⟩ := BasisInit_tables D polyords numPoints LUT h
  refine ⟨h1, fun k hk => ?_⟩
  obtain ⟨t, ht, htab⟩ := h2 k hk
  exact ⟨t, ht, fun i hi => BasisInit_table_order0_row _ _ t htab i hi⟩

theorem C7_order_zero_row_constant_witness :
    ∃ LUT : List (BasisLUT ℚ), BasisInit 2 [1, 2] [2, 1] = some LUT ∧
      LUT.length = 2 ∧ ∀ k, k < 2 → ∃ t, LUT[k]? = some t ∧
        ∀ i, i < ([2, 1] : List Nat).getD k 0 → t.values[i]? = some 1 ∧ t.derivs[i]? = some 0 :=
  (((C7_order_zero_row_constant 2 [1, 2] [2, 1] rfl).1 (by decide)).imp
    (fun LUT h => ⟨h, (C7_order_zero_row_constant 2 [1, 2] [2, 1] rfl).2 LUT h⟩))

/-! ## `UpdateBias`: the reweighting pass -/

theorem loopFrom_mul {K : Type} [Field K] (f : Nat → K) (n : Nat) (init : K) :
    loopFrom (fun l bs => bs * f l) 0 n init = init * ∏ l in Finset.range n, f l := by
  have h := loopFrom_inv (fun l bs => bs * f l)
    (fun i bs => bs = init * ∏ l in Finset.range i, f l) n 0 init (by simp)
    (by
      intro i t _ _ ht
      show t * f i = _
      rw [ht, Finset.prod_range_succ, mul_assoc])
  simpa using h

theorem interiorRank_succ (bins : List HistBin) (t : Nat) (b : HistBin)
    (hb : bins[t]? = some b) :
    interiorRank bins (t + 1) = interiorRank bins t + (if b.isUnderOverflowBin then 0 else 1) := by
  unfold interiorRank
  rw [List.take_succ, hb]
  cases h : b.isUnderOverflowBin <;> simp [List.filter_append, h]

theorem interiorRank_mono (bins : List HistBin) (u t : Nat) (h : u ≤ t) :
    interiorRank bins u ≤ interiorRank bins t := by
  unfold interiorRank
  have hsub : (bins.take u).Sublist (bins.take t) := by
    have : bins.take u = (bins.take t).take u := by
      rw [List.take_take, Nat.min_eq_left h]
    rw [this]
    exact List.take_sublist _ _
  exact (hsub.filter _).length_le

theorem interiorRank_lt (bins : List HistBin) (u t : Nat) (b : HistBin) (h : u < t)
    (hb : bins[u]? = some b) (hint : b.isUnderOverflowBin = false) :
    interiorRank bins u < interiorRank bins t := by
  have h1 := interiorRank_succ bins u b hb
  rw [hint] at h1
  have h2 := interiorRank_mono bins (u + 1) t h
  simp at h1
  omega

theorem interiorRank_le (bins : List HistBin) (t : Nat) : interiorRank bins t ≤ t := by
  unfold interiorRank
  calc ((bins.take t).filter _).length ≤ (bins.take t).length := List.length_filter_le _ _
    _ ≤ t := by simp

theorem biasLoops_eq {K : Type} [Field K] (D : Nat) (hist : Histogram K)
    (LUT : List (BasisLUT K)) (coeff : List (Map K)) (b : HistBin) :
    biasLoops D hist LUT coeff b 0 1 = (biasAt D hist LUT coeff b, 1) := by
  unfold biasLoops
  have h := loopFrom_inv
    (fun k (acc : K × K) =>
      let c := coeff.getD k { map := [], value := 0 }
      let basis1 := loopFrom (fun l bs => bs * lutValue LUT l (lutIndex hist b c l)) 0 D acc.2
      (acc.1 + c.value * basis1, 1))
    (fun k acc => acc.2 = 1 ∧ acc.1 = ∑ s in Finset.Ico 1 k,
      (coeff.getD s { map := [], value := 0 }).value *
        ∏ l in Finset.range D,
          lutValue LUT l (lutIndex hist b (coeff.getD s { map := [], value := 0 }) l))
    (coeff.length - 1) 1 (0, 1) (by simp)
    (by
      intro i t hi _ ht
      obtain ⟨h1, h2⟩ := ht
      refine ⟨rfl, ?_⟩
      simp only
      rw [Finset.sum_Ico_succ_top hi, h2, h1, loopFrom_mul, one_mul])
  obtain ⟨h1, h2⟩ := h
  have hIco : Finset.Ico 1 (1 + (coeff.length - 1)) = Finset.Ico 1 coeff.length := by
    by_cases hl : coeff.length = 0
    · simp [hl]
    · have : 1 + (coeff.length - 1) = coeff.length := by omega
      rw [this]
  rw [hIco] at h2
  exact Prod.ext h2 h1

theorem clampBin_interior (b : HistBin) (h : b.isUnderOverflowBin = false) :
    (if b.value = 0 then { b with value := 1 } else b) = clampBin b := by
  simp [clampBin, h]

theorem biasAt_clampBin {K : Type} [Field K] (D : Nat) (hist : Histogram K)
    (LUT : List (BasisLUT K)) (coeff : List (Map K)) (b : HistBin) :
    biasAt D hist LUT coeff (clampBin b) = biasAt D hist LUT coeff b := by
  unfold clampBin
  split
  · rfl
  · split <;> rfl

theorem reweightBody_inv {K : Type} [Field K] (exp : K → K) (D : Nat) (st : Basis K)
    (hlen : st.unbias.length = st.hist.bins.length) (t : Nat) (s : ReweightState K)
    (ht : t < st.hist.bins.length) (h : ReweightInv exp D st t s) :
    ReweightInv exp D st (t + 1)
      (reweightBody exp D st.hist st.LUT st.coeff st.weight st.cyclefreq t s) := by
  obtain ⟨hi, hbias, hbasis, hbl, hul, hrest, hdone, hacc, hhigh⟩ := h
  obtain ⟨b, hb⟩ : ∃ b, st.hist.bins[t]? = some b :=
    ⟨st.hist.bins[t], List.getElem?_eq_getElem ht⟩
  have hsb : s.bins[t]? = some b := by rw [hrest t (le_refl _)]; exact hb
  have hrank := interiorRank_succ st.hist.bins t b hb
  cases hint : b.isUnderOverflowBin with
  | true =>
    have hbody : reweightBody exp D st.hist st.LUT st.coeff st.weight st.cyclefreq t s = s := by
      simp only [reweightBody, hsb, hint, if_true]
    rw [hbody]
    rw [hint] at hrank
    simp only [if_true, Nat.add_zero] at hrank
    refine ⟨by rw [hrank]; exact hi, hbias, hbasis, hbl, hul,
      fun u hu => hrest u (by omega), ?_, ?_, hhigh⟩
    · intro u hu
      by_cases hut : u = t
      · subst hut
        rw [hsb, hb]
        simp [clampBin, hint]
      · exact hdone u (by omega)
    · intro u b' hu hb' hint'
      by_cases hut : u = t
      · subst hut
        rw [hb] at hb'
        cases hb'
        rw [hint] at hint'
        cases hint'
      · exact hacc u b' (by omega) hb' hint'
  | false =>
    have hloops : biasLoops D st.hist st.LUT st.coeff (clampBin b) s.bias s.basis =
        (biasAt D st.hist st.LUT st.coeff b, 1) := by
      rw [hbias, hbasis, biasLoops_eq, biasAt_clampBin]
    have hbody : reweightBody exp D st.hist st.LUT st.coeff st.weight st.cyclefreq t s =
        { i := s.i + 1
          bins := s.bins.set t (clampBin b)
          unbias := s.unbias.set s.i
            (s.unbias.getD s.i 0 + ((clampBin b).value : K) *
              exp (biasAt D st.hist st.LUT st.coeff b) * st.weight / (st.cyclefreq : K))
          bias := 0
          basis := 1 } := by
      simp only [reweightBody, hsb]
      rw [if_neg (by rw [hint]; exact Bool.false_ne_true), clampBin_interior b hint, hloops]
    rw [hbody]
    rw [hint] at hrank
    simp only [Bool.false_eq_true, if_false] at hrank
    have hilt : s.i < s.unbias.length := by
      have := interiorRank_le st.hist.bins t
      omega
    refine ⟨by rw [hrank, hi], rfl, rfl, by simp [hbl], by simp [hul], ?_, ?_, ?_, ?_⟩
    · intro u hu
      simp only
      rw [List.getElem?_set_ne (by omega)]
      exact hrest u (by omega)
    · intro u hu
      simp only
      by_cases hut : u = t
      · subst hut
        rw [List.getElem?_set_self (by omega), hb]
        rfl
      · rw [List.getElem?_set_ne (Ne.symm hut)]
        exact hdone u (by omega)
    · intro u b' hu hb' hint'
      simp only
      by_cases hut : u = t
      · subst hut
        rw [hb] at hb'
        cases hb'
        rw [← hi, getD_set_eq _ _ _ _ hilt, hhigh s.i (le_refl _)]
      · have hlt := interiorRank_lt st.hist.bins u t b' (by omega) hb' hint'
        rw [getD_set_ne _ _ _ _ _ (by omega)]
        exact hacc u b' (by omega) hb' hint'
    · intro r hr
      simp only at hr ⊢
      rw [getD_set_ne _ _ _ _ _ (by omega)]
      exact hhigh r (by omega)

/-- The loop of lines 253-283 run over the whole histogram. -/
theorem reweight_spec {K : Type} [Field K] (exp : K → K) (D : Nat) (st : Basis K)
    (hlen : st.unbias.length = st.hist.bins.length) :
    ReweightInv exp D st st.hist.bins.length
      (loopFrom (reweightBody exp D st.hist st.LUT st.coeff st.weight st.cyclefreq)
        0 st.hist.bins.length
        { i := 0, bins := st.hist.bins, unbias := st.unbias, bias := 0, basis := 1 }) := by
  have h := loopFrom_inv (reweightBody exp D st.hist st.LUT st.coeff st.weight st.cyclefreq)
    (ReweightInv exp D st) st.hist.bins.length 0
    { i := 0, bins := st.hist.bins, unbias := st.unbias, bias := 0, basis := 1 }
    ⟨by simp [interiorRank], rfl, rfl, rfl, rfl, fun _ _ => rfl,
      fun u hu => absurd hu (Nat.not_lt_zero u),
      fun u _ hu => absurd hu (Nat.not_lt_zero u), fun _ _ => rfl⟩
    (fun i t _ hi ht => reweightBody_inv exp D st hlen i t (by omega) ht)
  simpa using h

/-! ## `UpdateBias`: the coefficient integration -/

theorem trapWeight_eq {K : Type} [Field K] (D : Nat) (cond : Nat → Prop) [DecidablePred cond]
    (w0 : K) :
    loopFrom (fun k w => if cond k then w / 2 else w) 0 D w0 =
      w0 * (1 / 2 : K) ^ ((Finset.range D).filter cond).card := by
  have h := loopFrom_inv (fun k (w : K) => if cond k then w / 2 else w)
    (fun i w => w = w0 * (1 / 2 : K) ^ ((Finset.range i).filter cond).card) D 0 w0 (by simp)
    (by
      intro i t _ _ ht
      simp only
      rw [Finset.range_succ, Finset.filter_insert]
      by_cases hc : cond i
      · rw [if_pos hc, if_pos hc, Finset.card_insert_of_not_mem (by simp), ht, pow_succ]
        ring
      · rw [if_neg hc, if_neg hc, ht])
  simpa using h

theorem basisLoop_eq {K : Type} [Field K] (f g : Nat → K) (n : Nat) :
    loopFrom (fun l bs => (bs * f l) * g l) 0 n 1 = ∏ l in Finset.range n, g l * f l := by
  have h := loopFrom_inv (fun l (bs : K) => (bs * f l) * g l)
    (fun i bs => bs = ∏ l in Finset.range i, g l * f l) n 0 1 (by simp)
    (by
      intro i t _ _ ht
      show (t * f i) * g i = _
      rw [ht, Finset.prod_range_succ]
      ring)
  simpa using h

theorem integrateBody_inv {K : Type} [Field K] [CharZero K] (log : K → K) (D : Nat)
    (hist : Histogram K) (LUT : List (BasisLUT K)) (unbias : List K) (c : Map K) (v0 : K)
    (t : Nat) (s : IntegrateState K) (ht : t < hist.bins.length)
    (h : IntegrateInv log D hist LUT unbias c v0 t s) :
    IntegrateInv log D hist LUT unbias c v0 (t + 1)
      (integrateBody log D hist LUT unbias c t s) := by
  obtain ⟨hj, hbasis, hval⟩ := h
  obtain ⟨b, hb⟩ : ∃ b, hist.bins[t]? = some b := ⟨hist.bins[t], List.getElem?_eq_getElem ht⟩
  have hrank := interiorRank_succ hist.bins t b hb
  cases hint : b.isUnderOverflowBin with
  | true =>
    have hbody : integrateBody log D hist LUT unbias c t s = s := by
      simp only [integrateBody, hb, hint, if_true]
    rw [hbody]
    rw [hint] at hrank
    simp only [if_true, Nat.add_zero] at hrank
    refine ⟨by rw [hrank]; exact hj, hbasis, ?_⟩
    rw [Finset.sum_range_succ, hval]
    simp [quadTermAt, hb, hint]
  | false =>
    rw [hint] at hrank
    simp only [Bool.false_eq_true, if_false] at hrank
    have h2 : (2 : K) ^ D ≠ 0 := pow_ne_zero D two_ne_zero
    refine ⟨?_, ?_, ?_⟩
    · simp only [integrateBody, hb, hint, Bool.false_eq_true, if_false]
      rw [hrank, hj]
    · simp only [integrateBody, hb, hint, Bool.false_eq_true, if_false]
    · simp only [integrateBody, hb, hint, Bool.false_eq_true, if_false]
      rw [Finset.sum_range_succ, hval, hbasis, trapWeight_eq, basisLoop_eq, hj]
      simp only [quadTermAt, hb, hint, Bool.false_eq_true, if_false, quadTerm, boundaryCount]
      have hprod : ∏ l in Finset.range D, (2 * (c.map.getD l 0 : K) + 1) *
            (lutValue LUT l (lutIndex hist b c l) / (hist.GetNumPoints l : K)) =
          ∏ k in Finset.range D, (2 * (c.map.getD k 0 : K) + 1) *
            lutValue LUT k (lutIndex hist b c k) / (hist.GetNumPoints k : K) := by
        apply Finset.prod_congr rfl
        intro k _
        rw [mul_div_assoc]
      have key : ∀ P L W T : K, T ≠ 0 → P * L * (T * W) / T = L * P * W := by
        intro P L W T hT
        field_simp
        ring
      rw [hprod, key _ _ _ _ h2, add_assoc]

/-- The loop of lines 304-332 run over the whole histogram for one slot. -/
theorem integrate_spec {K : Type} [Field K] [CharZero K] (log : K → K) (D : Nat)
    (hist : Histogram K) (LUT : List (BasisLUT K)) (unbias : List K) (c : Map K) (v0 : K) :
    IntegrateInv log D hist LUT unbias c v0 hist.bins.length
      (loopFrom (integrateBody log D hist LUT unbias c) 0 hist.bins.length
        { j := 0, value := v0, basis := 1 }) := by
  have h := loopFrom_inv (integrateBody log D hist LUT unbias c)
    (IntegrateInv log D hist LUT unbias c v0) hist.bins.length 0
    { j := 0, value := v0, basis := 1 }
    ⟨by simp [interiorRank], rfl, by simp⟩
    (fun i t _ hi ht => integrateBody_inv log D hist LUT unbias c v0 i t (by omega) ht)
  simpa using h

theorem resetBody_inv {K : Type} [Field K] (coeff : List (Map K)) (i : Nat)
    (s : List (Map K) × List K) (hi : i < coeff.length) (h : ResetInv coeff i s) :
    ResetInv coeff (i + 1) (resetBody i s) := by
  obtain ⟨h1, h2, hdone, hrest⟩ := h
  have hc : coeff[i]? = some coeff[i] := List.getElem?_eq_getElem hi
  have hsi : s.1[i]? = some coeff[i] := by rw [hrest i (le_refl _)]; exact hc
  have hget : s.1.getD i { map := [], value := 0 } = coeff[i] := by
    simp [List.getD_eq_getElem?_getD, hsi]
  refine ⟨by simp [resetBody, h1], by simp [resetBody, h2], ?_, ?_⟩
  · intro u hu
    simp only [resetBody, hget]
    by_cases hui : u = i
    · subst hui
      rw [List.getElem?_set_self (by omega), List.getElem?_set_self (by omega), hc]
      exact ⟨rfl, rfl⟩
    · rw [List.getElem?_set_ne (Ne.symm hui), List.getElem?_set_ne (Ne.symm hui)]
      exact hdone u (by omega)
  · intro u hu
    simp only [resetBody]
    rw [List.getElem?_set_ne (by omega)]
    exact hrest u (by omega)

/-- The loop of lines 286-290: every coefficient is zeroed, the multi-indices
are kept. -/
theorem reset_spec {K : Type} [Field K] (coeff : List (Map K)) :
    (loopFrom resetBody 0 coeff.length (coeff, List.replicate coeff.length (0 : K))).1 =
      coeff.map (fun c => { c with value := 0 }) := by
  have h := loopFrom_inv resetBody (ResetInv coeff) coeff.length 0
    (coeff, List.replicate coeff.length (0 : K))
    ⟨rfl, by simp, fun u hu => absurd hu (Nat.not_lt_zero u), fun _ _ => rfl⟩
    (fun i t _ hi ht => resetBody_inv coeff i t (by omega) ht)
  rw [Nat.zero_add] at h
  obtain ⟨h1, _, hdone, hrest⟩ := h
  apply List.ext_getElem?
  intro u
  rw [List.getElem?_map]
  by_cases hu : u < coeff.length
  · exact (hdone u hu).1
  · rw [hrest u (by omega), List.getElem?_eq_none (by omega)]
    rfl

theorem slotUpdateBody_inv {K : Type} [Field K] [CharZero K] (log : K → K) (D : Nat)
    (hist : Histogram K) (LUT : List (BasisLUT K)) (unbias : List K) (coeff : List (Map K))
    (i : Nat) (s : UpdateState K) (hi1 : 1 ≤ i) (hi : i < coeff.length)
    (h : SlotUpdateInv log D hist LUT unbias coeff i s) :
    SlotUpdateInv log D hist LUT unbias coeff (i + 1)
      (slotUpdateBody log D hist LUT unbias i s) := by
  obtain ⟨hbasis, hlen, hdone, hrest⟩ := h
  have hc : coeff[i]? = some coeff[i] := List.getElem?_eq_getElem hi
  have hsi : s.coeff[i]? = some { coeff[i] with value := 0 } := by
    rw [hrest i (Or.inr (le_refl _)), hc]
    rfl
  have hget : s.coeff.getD i { map := [], value := 0 } = { coeff[i] with value := 0 } := by
    simp [List.getD_eq_getElem?_getD, hsi]
  obtain ⟨_, hb1, hval⟩ := integrate_spec log D hist LUT unbias { coeff[i] with value := 0 } 0
  rw [zero_add] at hval
  have hcoeff : (slotUpdateBody log D hist LUT unbias i s).coeff =
      s.coeff.set i (Map.mk coeff[i].map
        (∑ t in Finset.range hist.bins.length,
          quadTermAt log D hist LUT unbias coeff[i] t)) := by
    simp only [slotUpdateBody, hget, hbasis, hval]
    rfl
  refine ⟨?_, ?_, ?_, ?_⟩
  · simp only [slotUpdateBody, hget, hbasis, hb1]
  · rw [hcoeff, List.length_set]
    exact hlen
  · intro u c hu1 hu hcu
    rw [hcoeff]
    by_cases hui : u = i
    · subst hui
      rw [List.getElem?_set_self (by omega)]
      rw [hc] at hcu
      cases hcu
      rfl
    · rw [List.getElem?_set_ne (Ne.symm hui)]
      exact hdone u c hu1 (by omega) hcu
  · intro u hu
    rw [hcoeff, List.getElem?_set_ne (by omega)]
    exact hrest u (by omega)

/-- The loop of lines 298-336 run over the slots `1 .. size-1`, started from
the zeroed coefficients. -/
theorem slotUpdate_spec {K : Type} [Field K] [CharZero K] (log : K → K) (D : Nat)
    (hist : Histogram K) (LUT : List (BasisLUT K)) (unbias : List K) (coeff : List (Map K))
    (coeffTemp coeff_arr : List K) (u : Nat) (c : Map K) (hu : 1 ≤ u)
    (hc : coeff[u]? = some c) :
    (loopFrom (slotUpdateBody log D hist LUT unbias) 1 (coeff.length - 1)
      { coeff := coeff.map (fun c => { c with value := 0 }), coeffTemp := coeffTemp,
        coeff_arr := coeff_arr, sum := 0, basis := 1 }).coeff[u]? =
      some (Map.mk c.map
        (∑ t in Finset.range hist.bins.length, quadTermAt log D hist LUT unbias c t)) := by
  have hlt : u < coeff.length := (List.getElem?_eq_some.1 hc).1
  have h := loopFrom_inv (slotUpdateBody log D hist LUT unbias)
    (SlotUpdateInv log D hist LUT unbias coeff) (coeff.length - 1) 1
    { coeff := coeff.map (fun c => { c with value := 0 }), coeffTemp := coeffTemp,
      coeff_arr := coeff_arr, sum := 0, basis := 1 }
    ⟨rfl, by simp, fun v _ hv1 hv => absurd hv (by omega),
      fun v _ => by simp only [List.getElem?_map]⟩
    (fun i t hi1 hi ht => slotUpdateBody_inv log D hist LUT unbias coeff i t hi1 (by omega) ht)
  have e : 1 + (coeff.length - 1) = coeff.length := by omega
  rw [e] at h
  exact h.2.2.1 u c hu hlt hc

/-! ## `UpdateBias`: putting the passes together -/

theorem interiorRank_map (bins : List HistBin) (f : HistBin → HistBin)
    (hf : ∀ b, (f b).isUnderOverflowBin = b.isUnderOverflowBin) (t : Nat) :
    interiorRank (bins.map f) t = interiorRank bins t := by
  unfold interiorRank
  rw [← List.map_take, List.filter_map, List.length_map]
  congr 1
  apply List.filter_congr
  intro b _
  simp [hf b]

theorem reweight_bins {K : Type} [Field K] (exp : K → K) (D : Nat) (st : Basis K)
    (hlen : st.unbias.length = st.hist.bins.length) :
    (loopFrom (reweightBody exp D st.hist st.LUT st.coeff st.weight st.cyclefreq)
        0 st.hist.bins.length
        { i := 0, bins := st.hist.bins, unbias := st.unbias, bias := 0, basis := 1 }).bins =
      st.hist.bins.map clampBin := by
  obtain ⟨_, _, _, hbl, _, hrest, hdone, _, _⟩ := reweight_spec exp D st hlen
  apply List.ext_getElem?
  intro u
  rw [List.getElem?_map]
  by_cases hu : u < st.hist.bins.length
  · exact hdone u hu
  · rw [hrest u (by omega), List.getElem?_eq_none (by omega)]
    rfl

theorem zero_clampBin (b : HistBin) :
    ({ clampBin b with value := 0 } : HistBin) = { b with value := 0 } := by
  unfold clampBin
  split
  · rfl
  · split <;> rfl

theorem quadTermAt_reset {K : Type} [Field K] (log : K → K) (D : Nat) (hist : Histogram K)
    (LUT : List (BasisLUT K)) (unbias : List K) (c : Map K) (t : Nat) :
    quadTermAt log D { hist with bins := hist.bins.map (fun b => { b with value := 0 }) }
        LUT unbias c t =
      quadTermAt log D hist LUT unbias c t := by
  unfold quadTermAt
  simp only [List.getElem?_map]
  cases hb : hist.bins[t]? with
  | none => rfl
  | some b =>
    simp only [Option.map_some']
    cases hint : b.isUnderOverflowBin with
    | true => simp
    | false =>
      simp only [Bool.false_eq_true, if_false]
      rw [interiorRank_map hist.bins (fun b => { b with value := 0 }) (fun _ => rfl)]
      rfl

theorem sum_quadTermAt {K : Type} [Field K] (log : K → K) (D : Nat) (hist : Histogram K)
    (LUT : List (BasisLUT K)) (unbias : List K) (c : Map K) :
    ∑ t in Finset.range hist.bins.length, quadTermAt log D hist LUT unbias c t =
      ∑ t in (Finset.range hist.bins.length).filter
          (fun t => (hist.binAt t).isUnderOverflowBin = false),
        quadTerm log D hist LUT unbias c (hist.binAt t) (interiorRank hist.bins t) := by
  rw [Finset.sum_filter]
  apply Finset.sum_congr rfl
  intro t ht
  have hlt : t < hist.bins.length := Finset.mem_range.1 ht
  have hb : hist.bins[t]? = some hist.bins[t] := List.getElem?_eq_getElem hlt
  have hat : hist.binAt t = hist.bins[t] := by
    simp [Histogram.binAt, List.getD_eq_getElem?_getD, hb]
  rw [hat]
  simp only [quadTermAt, hb]
  cases hint : hist.bins[t].isUnderOverflowBin <;> simp

theorem UpdateBias_unbias {K : Type} [LinearOrderedField K] (exp log : K → K) (D : Nat)
    (st : Basis K) :
    (UpdateBias exp log D st).state.unbias =
      (loopFrom (reweightBody exp D st.hist st.LUT st.coeff st.weight st.cyclefreq)
        0 st.hist.bins.length
        { i := 0, bins := st.hist.bins, unbias := st.unbias, bias := 0, basis := 1 }).unbias :=
  rfl

theorem UpdateBias_coeff {K : Type} [LinearOrderedField K] (exp log : K → K) (D : Nat)
    (st : Basis K) (hlen : st.unbias.length = st.hist.bins.length) (u : Nat) (c : Map K)
    (hu : 1 ≤ u) (hc : st.coeff[u]? = some c) :
    (UpdateBias exp log D st).state.coeff[u]? =
      some (Map.mk c.map
        (∑ t in Finset.range st.hist.bins.length,
          quadTermAt log D st.hist st.LUT (UpdateBias exp log D st).state.unbias c t)) := by
  obtain ⟨_, _, hbasis, _⟩ := reweight_spec exp D st hlen
  have hbins := reweight_bins exp D st hlen
  have hmap : (st.hist.bins.map clampBin).map (fun b => ({ b with value := 0 } : HistBin)) =
      st.hist.bins.map (fun b => { b with value := 0 }) := by
    rw [List.map_map]
    apply List.map_congr_left
    intro b _
    exact zero_clampBin b
  have h := slotUpdate_spec log D
    { st.hist with bins := st.hist.bins.map (fun b => { b with value := 0 }) }
    st.LUT (UpdateBias exp log D st).state.unbias st.coeff
    (loopFrom resetBody 0 st.coeff.length (st.coeff, List.replicate st.coeff.length (0 : K))).2
    st.coeff_arr u c hu hc
  simp only [quadTermAt_reset, List.length_map] at h
  rw [← h]
  simp only [UpdateBias, hbins, hmap, hbasis, reset_spec]

/-- C8. Let the unbias accumulator have the length of the histogram. For every
interior position `b` of the histogram (position `t` of the iterator, the
source addressing `unbias_` by the running count of interior positions),
`UpdateBias` increases the unbias entry of `b` by exactly
`c * exp(B) * weight / cyclefreq`, where `c` is the merged count of `b` with 0
replaced by 1 and `B` is the sum over the slots `s >= 1` of `coefficient_s`
times the product over the dimensions `k` of
`values_k[index_k(b) + o_(s,k) * n_k]`. -/
theorem C8_reweighting_increment {K : Type} [LinearOrderedField K] (exp log : K → K) (D : Nat)
    (st : Basis K) (hlen : st.unbias.length = st.hist.bins.length) (t : Nat) (b : HistBin)
    (hb : st.hist.bins[t]? = some b) (hint : b.isUnderOverflowBin = false) :
    (UpdateBias exp log D st).state.unbias.getD (interiorRank st.hist.bins t) 0 =
      st.unbias.getD (interiorRank st.hist.bins t) 0 +
        (((if b.value = 0 then 1 else b.value : Int) : K) *
          exp (∑ s in Finset.Ico 1 st.coeff.length,
            (st.coeff.getD s { map := [], value := 0 }).value *
              ∏ k in Finset.range D,
                lutValue st.LUT k
                  (b.idx k + ((st.coeff.getD s { map := [], value := 0 }).map.getD k 0 : Int)
                    * (st.hist.GetNumPoints k : Int))) *
          st.weight / (st.cyclefreq : K)) := by
  obtain ⟨_, _, _, _, _, _, _, hacc, _⟩ := reweight_spec exp D st hlen
  have h := hacc t b (List.getElem?_eq_some.1 hb).1 hb hint
  rw [UpdateBias_unbias, h]
  have hc : (clampBin b).value = (if b.value = 0 then 1 else b.value) := by
    unfold clampBin
    rw [if_neg (by rw [hint]; exact Bool.false_ne_true)]
    split <;> simp_all
  rw [hc]
  rfl

theorem C8_reweighting_increment_witness :
    (UpdateBias Real.exp Real.log 1 (exampleBasis ℝ)).state.unbias.getD
        (interiorRank (exampleBasis ℝ).hist.bins 1) 0 =
      (exampleBasis ℝ).unbias.getD (interiorRank (exampleBasis ℝ).hist.bins 1) 0 +
        (((if (⟨[0], false, 0⟩ : HistBin).value = 0 then 1
            else (⟨[0], false, 0⟩ : HistBin).value : Int) : ℝ) *
          Real.exp (∑ s in Finset.Ico 1 (exampleBasis ℝ).coeff.length,
            ((exampleBasis ℝ).coeff.getD s { map := [], value := 0 }).value *
              ∏ k in Finset.range 1,
                lutValue (exampleBasis ℝ).LUT k
                  ((⟨[0], false, 0⟩ : HistBin).idx k +
                    (((exampleBasis ℝ).coeff.getD s { map := [], value := 0 }).map.getD k 0 : Int)
                    * ((exampleBasis ℝ).hist.GetNumPoints k : Int))) *
          (exampleBasis ℝ).weight / ((exampleBasis ℝ).cyclefreq : ℝ)) :=
  C8_reweighting_increment Real.exp Real.log 1 (exampleBasis ℝ) rfl 1 ⟨[0], false, 0⟩ rfl rfl

theorem getD_nonneg {K : Type} [LinearOrderedField K] (l : List K) (h : ∀ x, x ∈ l → 0 ≤ x)
    (r : Nat) : 0 ≤ l.getD r 0 := by
  by_cases hr : r < l.length
  · rw [List.getD_eq_getElem _ _ hr]
    exact h _ (List.getElem_mem _)
  · rw [List.getD_eq_default _ _ (by omega)]

/-- Where `exp` returns a positive number for the bias of an interior position
(and the products are exact), a positive walker weight and update period,
non-negative counts and non-negative unbias entries give a positive unbias
entry for that position after `UpdateBias`. -/
theorem unbias_positive_of_exp_pos {K : Type} [LinearOrderedField K] (exp log : K → K)
    (D : Nat) (st : Basis K)
    (hlen : st.unbias.length = st.hist.bins.length) (hw : 0 < st.weight)
    (hf : 0 < st.cyclefreq) (hcount : ∀ b, b ∈ st.hist.bins → 0 ≤ b.value)
    (hun : ∀ x, x ∈ st.unbias → 0 ≤ x) (t : Nat) (b : HistBin)
    (hb : st.hist.bins[t]? = some b) (hint : b.isUnderOverflowBin = false)
    (hexp : 0 < exp (biasAt D st.hist st.LUT st.coeff b)) :
    0 < (UpdateBias exp log D st).state.unbias.getD (interiorRank st.hist.bins t) 0 := by
  obtain ⟨_, _, _, _, _, _, _, hacc, _⟩ := reweight_spec exp D st hlen
  have h := hacc t b (List.getElem?_eq_some.1 hb).1 hb hint
  rw [UpdateBias_unbias, h]
  have h0 := getD_nonneg st.unbias hun (interiorRank st.hist.bins t)
  have hmem : b ∈ st.hist.bins := List.mem_iff_getElem?.2 ⟨t, hb⟩
  have hbv := hcount b hmem
  have hc : (1 : Int) ≤ (clampBin b).value := by
    unfold clampBin
    rw [if_neg (by rw [hint]; exact Bool.false_ne_true)]
    split
    · exact le_refl _
    · omega
  have hc' : (0 : K) < ((clampBin b).value : K) := by
    exact_mod_cast (by omega : 0 < (clampBin b).value)
  have hf' : (0 : K) < (st.cyclefreq : K) := by exact_mod_cast hf
  have hpos : 0 < ((clampBin b).value : K) * exp (biasAt D st.hist st.LUT st.coeff b) *
      st.weight / (st.cyclefreq : K) :=
    div_pos (mul_pos (mul_pos hc' hexp) hw) hf'
  linarith

/-- Where `exp` returns 0 for the bias of an interior position, `UpdateBias`
leaves the unbias entry of that position as it was. -/
theorem unbias_unchanged_of_exp_zero {K : Type} [LinearOrderedField K] (exp log : K → K)
    (D : Nat) (st : Basis K)
    (hlen : st.unbias.length = st.hist.bins.length) (t : Nat) (b : HistBin)
    (hb : st.hist.bins[t]? = some b) (hint : b.isUnderOverflowBin = false)
    (hexp : exp (biasAt D st.hist st.LUT st.coeff b) = 0) :
    (UpdateBias exp log D st).state.unbias.getD (interiorRank st.hist.bins t) 0 =
      st.unbias.getD (interiorRank st.hist.bins t) 0 := by
  obtain ⟨_, _, _, _, _, _, _, hacc, _⟩ := reweight_spec exp D st hlen
  have h := hacc t b (List.getElem?_eq_some.1 hb).1 hb hint
  rw [UpdateBias_unbias, h, hexp]
  simp

theorem underflowExample_bias :
    biasAt 1 (underflowExample ℝ).hist (underflowExample ℝ).LUT (underflowExample ℝ).coeff
      ⟨[0], false, 1⟩ = -1000 := by
  simp [biasAt, underflowExample, flatExample, Finset.sum_Ico_eq_sum_range,
    Finset.sum_range_succ, lutValue, lutIndex, HistBin.idx, Histogram.GetNumPoints]
  norm_num

/-- C9 (failing input). One CV with two bins, one visit in each, walker weight
2, update period 1, unbias accumulator 0 everywhere, coefficients 1000 and 4000
in the slots of order 1 and 2: the walker weight and the period are positive,
the counts and the unbias entries are non-negative, and the bias of the interior
bin 0 is -1000. With an `exp` that underflows to 0 below -746, as `exp` does in
double precision, `UpdateBias` leaves the unbias entry of that bin at 0: it is
not positive, and it is the entry whose logarithm line 330 takes. -/
theorem C9_exp_underflow_leaves_zero :
    0 < (underflowExample ℝ).weight ∧ 0 < (underflowExample ℝ).cyclefreq ∧
    (∀ b, b ∈ (underflowExample ℝ).hist.bins → 0 ≤ b.value) ∧
    (∀ x, x ∈ (underflowExample ℝ).unbias → 0 ≤ x) ∧
    (underflowExample ℝ).hist.bins[1]? = some ⟨[0], false, 1⟩ ∧
    biasAt 1 (underflowExample ℝ).hist (underflowExample ℝ).LUT (underflowExample ℝ).coeff
      ⟨[0], false, 1⟩ = -1000 ∧
    flushToZero Real.exp (-746) (-1000) = 0 ∧
    (UpdateBias (flushToZero Real.exp (-746)) Real.log 1 (underflowExample ℝ)).state.unbias.getD
      (interiorRank (underflowExample ℝ).hist.bins 1) 0 = 0 := by
  have hflush : flushToZero Real.exp (-746) (-1000) = 0 := by
    unfold flushToZero
    rw [if_pos (by norm_num)]
  refine ⟨by simp [underflowExample, flatExample], by simp [underflowExample, flatExample],
    by simp [underflowExample, flatExample], by simp [underflowExample, flatExample], rfl,
    underflowExample_bias, hflush, ?_⟩
  rw [unbias_unchanged_of_exp_zero (flushToZero Real.exp (-746)) Real.log 1
    (underflowExample ℝ) rfl 1 ⟨[0], false, 1⟩ rfl rfl
    (by rw [underflowExample_bias]; exact hflush)]
  simp [underflowExample, flatExample, interiorRank]

/-- C10. Let the unbias accumulator have the length of the histogram. For every
slot `s >= 1`, `UpdateBias` keeps the multi-index `o_s` of the slot and leaves
in it the coefficient
`sum over the interior positions b of log(unbias[b]) *
 prod_k [(2 o_(s,k) + 1) * values_k[index_k(b) + o_(s,k) n_k] / n_k] * (1/2)^h(b)`,
with `unbias` the accumulator after the reweighting pass and `h(b)` the number
of dimensions `k` in which `index_k(b)` is 0 or `n_k - 1`. -/
theorem C10_coefficient_quadrature {K : Type} [LinearOrderedField K] (exp log : K → K)
    (D : Nat) (st : Basis K) (hlen : st.unbias.length = st.hist.bins.length) (s : Nat)
    (c : Map K) (hs : 1 ≤ s) (hc : st.coeff[s]? = some c) :
    ∃ c' : Map K, (UpdateBias exp log D st).state.coeff[s]? = some c' ∧ c'.map = c.map ∧
      c'.value =
        ∑ t in (Finset.range st.hist.bins.length).filter
            (fun t => (st.hist.binAt t).isUnderOverflowBin = false),
          log ((UpdateBias exp log D st).state.unbias.getD (interiorRank st.hist.bins t) 0) *
            (∏ k in Finset.range D,
              (2 * (c.map.getD k 0 : K) + 1) *
                lutValue st.LUT k
                  ((st.hist.binAt t).idx k + (c.map.getD k 0 : Int) * (st.hist.GetNumPoints k : Int))
                / (st.hist.GetNumPoints k : K)) *
            (1 / 2 : K) ^ ((Finset.range D).filter
              (fun k => (st.hist.binAt t).idx k = 0 ∨
                (st.hist.binAt t).idx k = (st.hist.GetNumPoints k : Int) - 1)).card := by
  refine ⟨_, UpdateBias_coeff exp log D st hlen s c hs hc, rfl, ?_⟩
  simp only
  rw [sum_quadTermAt]
  rfl

theorem C10_coefficient_quadrature_witness :
    ∃ c' : Map ℝ, (UpdateBias Real.exp Real.log 1 (exampleBasis ℝ)).state.coeff[1]? = some c' ∧
      c'.map = (⟨[1], 2⟩ : Map ℝ).map ∧
      c'.value =
        ∑ t in (Finset.range (exampleBasis ℝ).hist.bins.length).filter
            (fun t => ((exampleBasis ℝ).hist.binAt t).isUnderOverflowBin = false),
          Real.log ((UpdateBias Real.exp Real.log 1 (exampleBasis ℝ)).state.unbias.getD
              (interiorRank (exampleBasis ℝ).hist.bins t) 0) *
            (∏ k in Finset.range 1,
              (2 * (((⟨[1], 2⟩ : Map ℝ).map.getD k 0 : Nat) : ℝ) + 1) *
                lutValue (exampleBasis ℝ).LUT k
                  (((exampleBasis ℝ).hist.binAt t).idx k +
                    (((⟨[1], 2⟩ : Map ℝ).map.getD k 0 : Nat) : Int) *
                      ((exampleBasis ℝ).hist.GetNumPoints k : Int))
                / ((exampleBasis ℝ).hist.GetNumPoints k : ℝ)) *
            (1 / 2 : ℝ) ^ ((Finset.range 1).filter
              (fun k => ((exampleBasis ℝ).hist.binAt t).idx k = 0 ∨
                ((exampleBasis ℝ).hist.binAt t).idx k =
                  ((exampleBasis ℝ).hist.GetNumPoints k : Int) - 1)).card :=
  C10_coefficient_quadrature Real.exp Real.log 1 (exampleBasis ℝ) rfl 1 ⟨[1], 2⟩ (le_refl 1) rfl

/-! ## `UpdateBias`: the convergence metric -/

/-- The loop of lines 286-290 saves the coefficients in `coeffTemp`. -/
theorem reset_spec_temp {K : Type} [Field K] (coeff : List (Map K)) :
    (loopFrom resetBody 0 coeff.length (coeff, List.replicate coeff.length (0 : K))).2 =
      coeff.map (fun c => c.value) := by
  have h := loopFrom_inv resetBody (ResetInv coeff) coeff.length 0
    (coeff, List.replicate coeff.length (0 : K))
    ⟨rfl, by simp, fun u hu => absurd hu (Nat.not_lt_zero u), fun _ _ => rfl⟩
    (fun i t _ hi ht => resetBody_inv coeff i t (by omega) ht)
  rw [Nat.zero_add] at h
  obtain ⟨_, h2, hdone, _⟩ := h
  apply List.ext_getElem?
  intro u
  rw [List.getElem?_map]
  by_cases hu : u < coeff.length
  · exact (hdone u hu).2
  · rw [List.getElem?_eq_none (by omega), List.getElem?_eq_none (by omega)]
    rfl

theorem slotUpdateBody_sum {K : Type} [Field K] (log : K → K) (D : Nat) (hist : Histogram K)
    (LUT : List (BasisLUT K)) (unbias : List K) (n : Nat) (temp0 : List K) (i : Nat)
    (s : UpdateState K) (hi1 : 1 ≤ i) (hi : i < n) (h : SumInv n temp0 i s) :
    SumInv n temp0 (i + 1) (slotUpdateBody log D hist LUT unbias i s) := by
  obtain ⟨hc, ht, hrest, hsum⟩ := h
  refine ⟨by simp [slotUpdateBody, hc], by simp [slotUpdateBody, ht], ?_, ?_⟩
  · intro u hu
    simp only [slotUpdateBody]
    rw [getD_set_ne _ _ _ _ _ (by omega)]
    exact hrest u (by omega)
  · simp only [slotUpdateBody]
    rw [Finset.sum_Ico_succ_top hi1, hsum, getD_set_eq _ _ _ _ (by omega), hrest i (le_refl _)]
    have hprev : ∀ u, u ∈ Finset.Ico 1 i →
        (temp0.getD u 0 - ((s.coeff.set i
          { map := (s.coeff.getD i { map := [], value := 0 }).map
            value := (loopFrom (integrateBody log D hist LUT unbias
              (s.coeff.getD i { map := [], value := 0 })) 0 hist.bins.length
              { j := 0, value := (s.coeff.getD i { map := [], value := 0 }).value,
                basis := s.basis }).value }).getD u { map := [], value := 0 }).value) ^ 2 =
        (temp0.getD u 0 - (s.coeff.getD u { map := [], value := 0 }).value) ^ 2 := by
      intro u hu
      have hlt : u < i := (Finset.mem_Ico.1 hu).2
      rw [getD_set_ne _ _ _ _ _ (by omega)]
    rw [Finset.sum_congr rfl hprev]
    ring

/-- The loop of lines 298-336: `sum` is the sum over the slots `s >= 1` of the
squared difference between the saved and the new coefficient. -/
theorem slotUpdate_sum {K : Type} [Field K] (log : K → K) (D : Nat) (hist : Histogram K)
    (LUT : List (BasisLUT K)) (unbias : List K) (coeff0 : List (Map K)) (temp0 arr : List K)
    (basis0 : K) (n : Nat) (hc : coeff0.length = n) (hlen : temp0.length = n) :
    (loopFrom (slotUpdateBody log D hist LUT unbias) 1 (n - 1)
      { coeff := coeff0, coeffTemp := temp0, coeff_arr := arr, sum := 0, basis := basis0 }).sum =
    ∑ u in Finset.Ico 1 n,
      (temp0.getD u 0 -
        ((loopFrom (slotUpdateBody log D hist LUT unbias) 1 (n - 1)
          { coeff := coeff0, coeffTemp := temp0, coeff_arr := arr, sum := 0,
            basis := basis0 }).coeff.getD u { map := [], value := 0 }).value) ^ 2 := by
  have h := loopFrom_inv (slotUpdateBody log D hist LUT unbias)
    (SumInv n temp0) (n - 1) 1
    { coeff := coeff0, coeffTemp := temp0, coeff_arr := arr, sum := 0, basis := basis0 }
    ⟨hc, hlen, fun _ _ => rfl, by simp⟩
    (fun i t hi1 hi ht => slotUpdateBody_sum log D hist LUT unbias _ temp0 i t hi1 (by omega) ht)
  obtain ⟨_, _, _, hsum⟩ := h
  have hIco : Finset.Ico 1 (1 + (n - 1)) = Finset.Ico 1 n := by
    by_cases hl : n = 0
    · simp [hl]
    · have : 1 + (n - 1) = n := by omega
      rw [this]
  rw [hIco] at hsum
  exact hsum

/-- The metric of `UpdateBias` as a sum over the slots `s >= 1`. -/
theorem UpdateBias_sum {K : Type} [LinearOrderedField K] (exp log : K → K) (D : Nat)
    (st : Basis K) :
    (UpdateBias exp log D st).sum =
      ∑ s in Finset.Ico 1 st.coeff.length,
        ((st.coeff.getD s { map := [], value := 0 }).value -
          ((UpdateBias exp log D st).state.coeff.getD s { map := [], value := 0 }).value) ^ 2 := by
  refine Eq.trans (slotUpdate_sum log D _ _ _ _ _ _ _ st.coeff.length ?_ ?_) ?_
  · rw [reset_spec, List.length_map]
  · rw [reset_spec_temp, List.length_map]
  · apply Finset.sum_congr rfl
    intro s hs
    have hs2 : s < st.coeff.length := (Finset.mem_Ico.1 hs).2
    have hprev : (loopFrom resetBody 0 st.coeff.length
        (st.coeff, List.replicate st.coeff.length (0 : K))).2.getD s 0 =
        (st.coeff.getD s { map := [], value := 0 }).value := by
      rw [reset_spec_temp, List.getD_eq_getElem _ _ (by simpa using hs2),
        List.getD_eq_getElem _ _ hs2]
      simp
    rw [hprev]
    rfl

theorem UpdateBias_coeff_length {K : Type} [LinearOrderedField K] (exp log : K → K) (D : Nat)
    (st : Basis K) : (UpdateBias exp log D st).state.coeff.length = st.coeff.length := by
  have h := loopFrom_inv
    (slotUpdateBody log D
      { st.hist with bins := (loopFrom
          (reweightBody exp D st.hist st.LUT st.coeff st.weight st.cyclefreq)
          0 st.hist.bins.length
          { i := 0, bins := st.hist.bins, unbias := st.unbias, bias := 0,
            basis := 1 }).bins.map (fun b => { b with value := 0 }) }
      st.LUT (UpdateBias exp log D st).state.unbias)
    (fun _ s => s.coeff.length = st.coeff.length) (st.coeff.length - 1) 1
    { coeff := (loopFrom resetBody 0 st.coeff.length
        (st.coeff, List.replicate st.coeff.length (0 : K))).1
      coeffTemp := (loopFrom resetBody 0 st.coeff.length
        (st.coeff, List.replicate st.coeff.length (0 : K))).2
      coeff_arr := st.coeff_arr
      sum := 0
      basis := (loopFrom (reweightBody exp D st.hist st.LUT st.coeff st.weight st.cyclefreq)
        0 st.hist.bins.length
        { i := 0, bins := st.hist.bins, unbias := st.unbias, bias := 0, basis := 1 }).basis }
    (by simp only [reset_spec, List.length_map])
    (fun i t _ _ ht => by simp only [slotUpdateBody, List.length_set]; exact ht)
  exact h

/-- C12. The convergence metric that `UpdateBias` computes is the sum over the
slots `s >= 1` of `(previous_s - new_s)^2`, slot 0 left out; convergence is
reported exactly when the metric is strictly below the tolerance `tol_`, and
the process leaves through `exit(EXIT_SUCCESS)` exactly when convergence is
reported and `converge_exit_` is set. -/
theorem C12_convergence_metric {K : Type} [LinearOrderedField K] (exp log : K → K) (D : Nat)
    (st : Basis K) :
    (UpdateBias exp log D st).sum =
      ∑ s in Finset.Ico 1 st.coeff.length,
        ((st.coeff.getD s { map := [], value := 0 }).value -
          ((UpdateBias exp log D st).state.coeff.getD s { map := [], value := 0 }).value) ^ 2 ∧
    ((UpdateBias exp log D st).converged = true ↔ (UpdateBias exp log D st).sum < st.tol) ∧
    ((UpdateBias exp log D st).exited = true ↔
      ((UpdateBias exp log D st).converged = true ∧ st.converge_exit = true)) := by
  exact ⟨UpdateBias_sum exp log D st, by simp [UpdateBias], by simp [UpdateBias]⟩

/-! ## `UpdateBias` on a flat weighted histogram -/

/-- With a flat accumulator (the value `u` at every interior position) the
new coefficient of a slot `s >= 1` is `log u` times the quadrature sum of its
basis function. -/
theorem UpdateBias_flat_coeff {K : Type} [LinearOrderedField K] (exp log : K → K) (D : Nat)
    (st : Basis K) (hlen : st.unbias.length = st.hist.bins.length) (u : K)
    (hflat : ∀ t b, st.hist.bins[t]? = some b → b.isUnderOverflowBin = false →
      (UpdateBias exp log D st).state.unbias.getD (interiorRank st.hist.bins t) 0 = u)
    (s : Nat) (c : Map K) (hs : 1 ≤ s) (hc : st.coeff[s]? = some c) :
    (UpdateBias exp log D st).state.coeff[s]? =
      some (Map.mk c.map (log u * basisQuadrature D st.hist st.LUT c)) := by
  rw [UpdateBias_coeff exp log D st hlen s c hs hc, sum_quadTermAt]
  congr 2
  unfold basisQuadrature
  rw [Finset.mul_sum]
  apply Finset.sum_congr rfl
  intro t ht
  obtain ⟨ht1, ht2⟩ := Finset.mem_filter.1 ht
  have hlt : t < st.hist.bins.length := Finset.mem_range.1 ht1
  have hb : st.hist.bins[t]? = some (st.hist.binAt t) := by
    simp [Histogram.binAt, List.getD_eq_getElem?_getD, List.getElem?_eq_getElem hlt]
  unfold quadTerm
  rw [hflat t _ hb ht2]
  ring

theorem getD_of_getElem? {α : Type} (l : List α) (i : Nat) (a d : α) (h : l[i]? = some a) :
    l.getD i d = a := by
  simp [List.getD_eq_getElem?_getD, h]

/-- C11 (as amended). Let the unbias accumulator have the length of the
histogram, every coefficient be 0 before the update and the accumulator hold
one and the same value `u` at every interior position after the reweighting
pass. Then `UpdateBias` leaves in every slot `s >= 1` the coefficient
`log(u) * Q_s`, with `Q_s` the quadrature sum of the basis function of the slot,
and the convergence metric is the sum over `s >= 1` of `(log(u) * Q_s)^2`; when
`log(u) = 0` the metric is 0 and every non-constant coefficient is 0. -/
theorem C11_flat_histogram_update {K : Type} [LinearOrderedField K] (exp log : K → K) (D : Nat)
    (st : Basis K) (hlen : st.unbias.length = st.hist.bins.length) (u : K)
    (hzero : ∀ c, c ∈ st.coeff → c.value = 0)
    (hflat : ∀ t b, st.hist.bins[t]? = some b → b.isUnderOverflowBin = false →
      (UpdateBias exp log D st).state.unbias.getD (interiorRank st.hist.bins t) 0 = u) :
    (∀ s c, 1 ≤ s → st.coeff[s]? = some c →
      ∃ c', (UpdateBias exp log D st).state.coeff[s]? = some c' ∧
        c'.value = log u * basisQuadrature D st.hist st.LUT c) ∧
    (UpdateBias exp log D st).sum =
      ∑ s in Finset.Ico 1 st.coeff.length,
        (log u * basisQuadrature D st.hist st.LUT
          (st.coeff.getD s { map := [], value := 0 })) ^ 2 ∧
    (log u = 0 →
      (UpdateBias exp log D st).sum = 0 ∧
      ∀ s c', 1 ≤ s → (UpdateBias exp log D st).state.coeff[s]? = some c' → c'.value = 0) := by
  have hnew : ∀ s, 1 ≤ s → s < st.coeff.length →
      (UpdateBias exp log D st).state.coeff[s]? =
        some (Map.mk (st.coeff.getD s { map := [], value := 0 }).map
          (log u * basisQuadrature D st.hist st.LUT
            (st.coeff.getD s { map := [], value := 0 }))) := by
    intro s hs hlt
    have hc : st.coeff[s]? = some st.coeff[s] := List.getElem?_eq_getElem hlt
    rw [getD_of_getElem? _ _ _ _ hc]
    exact UpdateBias_flat_coeff exp log D st hlen u hflat s _ hs hc
  have hsum : (UpdateBias exp log D st).sum =
      ∑ s in Finset.Ico 1 st.coeff.length,
        (log u * basisQuadrature D st.hist st.LUT
          (st.coeff.getD s { map := [], value := 0 })) ^ 2 := by
    rw [UpdateBias_sum]
    apply Finset.sum_congr rfl
    intro s hs
    obtain ⟨hs1, hs2⟩ := Finset.mem_Ico.1 hs
    have hprev : (st.coeff.getD s { map := [], value := 0 }).value = 0 := by
      apply hzero
      rw [List.getD_eq_getElem _ _ hs2]
      exact List.getElem_mem _
    rw [hprev, getD_of_getElem? _ _ _ _ (hnew s hs1 hs2)]
    ring
  refine ⟨?_, hsum, ?_⟩
  · intro s c hs hc
    exact ⟨_, UpdateBias_flat_coeff exp log D st hlen u hflat s c hs hc, rfl⟩
  · intro hlog
    refine ⟨?_, ?_⟩
    · rw [hsum, hlog]
      simp
    · intro s c' hs hc'
      have hlt : s < st.coeff.length := by
        rw [← UpdateBias_coeff_length exp log D st]
        exact (List.getElem?_eq_some.1 hc').1
      rw [hnew s hs hlt] at hc'
      cases hc'
      simp [hlog]

theorem flatExample_unbias :
    (UpdateBias Real.exp Real.log 1 (flatExample ℝ)).state.unbias = [2, 2, 0, 0] := by
  simp [UpdateBias, loopFrom, flatExample, reweightBody, biasLoops, lutValue, lutIndex,
    HistBin.idx, Histogram.GetNumPoints]

theorem flatExample_coeff :
    (UpdateBias Real.exp Real.log 1 (flatExample ℝ)).state.coeff =
      [⟨[0], 0⟩, ⟨[1], 0⟩, ⟨[2], -(5 / 16) * Real.log 2⟩] := by
  simp [UpdateBias, loopFrom, flatExample, reweightBody, biasLoops, lutValue, lutIndex,
    HistBin.idx, Histogram.GetNumPoints, resetBody, slotUpdateBody, integrateBody]
  constructor <;> ring

theorem flatExample_flat (t : Nat) (b : HistBin)
    (hb : (flatExample ℝ).hist.bins[t]? = some b) (hint : b.isUnderOverflowBin = false) :
    (UpdateBias Real.exp Real.log 1 (flatExample ℝ)).state.unbias.getD
      (interiorRank (flatExample ℝ).hist.bins t) 0 = 2 := by
  rw [flatExample_unbias]
  rcases t with _ | _ | _ | _ | t
  · simp [flatExample] at hb
    rw [← hb] at hint
    simp at hint
  · simp [interiorRank, flatExample]
  · simp [interiorRank, flatExample]
  · simp [flatExample] at hb
    rw [← hb] at hint
    simp at hint
  · simp [flatExample] at hb

theorem C11_flat_histogram_update_witness :
    (∀ s c, 1 ≤ s → (flatExample ℝ).coeff[s]? = some c →
      ∃ c', (UpdateBias Real.exp Real.log 1 (flatExample ℝ)).state.coeff[s]? = some c' ∧
        c'.value = Real.log 2 * basisQuadrature 1 (flatExample ℝ).hist (flatExample ℝ).LUT c) ∧
    (UpdateBias Real.exp Real.log 1 (flatExample ℝ)).sum =
      ∑ s in Finset.Ico 1 (flatExample ℝ).coeff.length,
        (Real.log 2 * basisQuadrature 1 (flatExample ℝ).hist (flatExample ℝ).LUT
          ((flatExample ℝ).coeff.getD s { map := [], value := 0 })) ^ 2 ∧
    (Real.log 2 = 0 →
      (UpdateBias Real.exp Real.log 1 (flatExample ℝ)).sum = 0 ∧
      ∀ s c', 1 ≤ s →
        (UpdateBias Real.exp Real.log 1 (flatExample ℝ)).state.coeff[s]? = some c' →
          c'.value = 0) :=
  C11_flat_histogram_update Real.exp Real.log 1 (flatExample ℝ) rfl 2
    (by simp [flatExample]) flatExample_flat

/-- C11 (counterexample). One CV with two bins and order 2, every coefficient 0,
one visit in each interior bin, weight 2 and period 1: after the reweighting
pass the accumulator holds the positive value 2 at both interior positions,
yet `UpdateBias` leaves the coefficient `-(5/16) * log 2` in the slot of order
2, which is not 0. -/
theorem C11_flat_histogram_counterexample :
    (∀ c, c ∈ (flatExample ℝ).coeff → c.value = 0) ∧
    (∀ t b, (flatExample ℝ).hist.bins[t]? = some b → b.isUnderOverflowBin = false →
      (UpdateBias Real.exp Real.log 1 (flatExample ℝ)).state.unbias.getD
        (interiorRank (flatExample ℝ).hist.bins t) 0 = 2) ∧
    (0 : ℝ) < 2 ∧
    ¬ ((UpdateBias Real.exp Real.log 1 (flatExample ℝ)).sum = 0 ∧
      ∀ s c, 1 ≤ s →
        (UpdateBias Real.exp Real.log 1 (flatExample ℝ)).state.coeff[s]? = some c →
          c.value = 0) := by
  refine ⟨by simp [flatExample], flatExample_flat, by norm_num, ?_⟩
  rintro ⟨_, h⟩
  have h2 := h 2 ⟨[2], -(5 / 16) * Real.log 2⟩ (by decide) (by rw [flatExample_coeff]; rfl)
  have hlog : 0 < Real.log 2 := Real.log_pos (by norm_num)
  simp only at h2
  linarith

/-! ## Slot 0 takes no part in the bias -/

theorem loopFrom_congr {σ : Type} (body1 body2 : Nat → σ → σ) :
    ∀ (k a : Nat) (s : σ), (∀ i t, a ≤ i → i < a + k → body1 i t = body2 i t) →
      loopFrom body1 a k s = loopFrom body2 a k s := by
  intro k
  induction k with
  | zero => intro a s _; rfl
  | succ k ih =>
    intro a s h
    simp only [loopFrom]
    rw [h a s (le_refl _) (by omega)]
    exact ih (a + 1) _ (fun i t hi hlt => h i t (by omega) (by omega))

theorem loopFrom_rel {σ τ : Type} (body1 : Nat → σ → σ) (body2 : Nat → τ → τ)
    (R : σ → τ → Prop) :
    ∀ (k a : Nat) (s : σ) (t : τ), R s t →
      (∀ i s t, a ≤ i → i < a + k → R s t → R (body1 i s) (body2 i t)) →
      R (loopFrom body1 a k s) (loopFrom body2 a k t) := by
  intro k
  induction k with
  | zero => intro a s t h _; simpa [loopFrom] using h
  | succ k ih =>
    intro a s t h hstep
    simp only [loopFrom]
    exact ih (a + 1) _ _ (hstep a s t (le_refl _) (by omega) h)
      (fun i s t hi hlt hr => hstep i s t (by omega) (by omega) hr)

theorem biasLoops_set0 {K : Type} [Field K] (D : Nat) (hist : Histogram K)
    (LUT : List (BasisLUT K)) (coeff : List (Map K)) (c0 : Map K) (b : HistBin)
    (bias basis : K) :
    biasLoops D hist LUT (coeff.set 0 c0) b bias basis = biasLoops D hist LUT coeff b bias basis := by
  unfold biasLoops
  rw [List.length_set]
  apply loopFrom_congr
  intro i t hi _
  simp only
  rw [getD_set_ne _ _ _ _ _ (by omega)]

theorem reweightBody_set0 {K : Type} [Field K] (exp : K → K) (D : Nat) (hist : Histogram K)
    (LUT : List (BasisLUT K)) (coeff : List (Map K)) (c0 : Map K) (weight : K)
    (cyclefreq : Nat) :
    reweightBody exp D hist LUT (coeff.set 0 c0) weight cyclefreq =
      reweightBody exp D hist LUT coeff weight cyclefreq := by
  funext t s
  simp only [reweightBody, biasLoops_set0]

theorem CalcBiasForce_basis_set0 {K : Type} [LinearOrderedField K] (D : Nat)
    (hist : Histogram K) (LUT : List (BasisLUT K)) (coeff : List (Map K)) (c0 : Map K)
    (ind : List Int) (bounds : Bool) (d : List K) :
    CalcBiasForce_basis D hist LUT (coeff.set 0 c0) ind bounds d =
      CalcBiasForce_basis D hist LUT coeff ind bounds d := by
  unfold CalcBiasForce_basis
  rw [List.length_set]
  split
  · apply loopFrom_congr
    intro i t hi _
    rw [getD_set_ne _ _ _ _ _ (by omega)]
  · rfl

theorem slotUpdateBody_rel {K : Type} [Field K] (log : K → K) (D : Nat) (hist : Histogram K)
    (LUT : List (BasisLUT K)) (unbias : List K) (i : Nat) (s1 s2 : UpdateState K)
    (hi : 1 ≤ i) (h : SameButTemp0 s1 s2) :
    SameButTemp0 (slotUpdateBody log D hist LUT unbias i s1)
      (slotUpdateBody log D hist LUT unbias i s2) := by
  obtain ⟨hc, ha, hs, hb, hl, ht⟩ := h
  have hti := ht i hi
  refine ⟨?_, ?_, ?_, ?_, ?_, ?_⟩
  · simp only [slotUpdateBody, hc, hb]
  · simp only [slotUpdateBody, hc, hb, ha]
  · simp only [slotUpdateBody, hc, hb, hs, hti]
  · simp only [slotUpdateBody, hc, hb]
  · simp only [slotUpdateBody, List.length_set, hl]
  · intro u hu
    simp only [slotUpdateBody, hc, hb, hti]
    by_cases hui : u = i
    · subst hui
      by_cases hlt : u < s1.coeffTemp.length
      · rw [getD_set_eq _ _ _ _ hlt, getD_set_eq _ _ _ _ (by omega)]
      · rw [List.getD_eq_default _ _ (by simp only [List.length_set]; omega),
          List.getD_eq_default _ _ (by simp only [List.length_set]; omega)]
    · rw [getD_set_ne _ _ _ _ _ (Ne.symm hui), getD_set_ne _ _ _ _ _ (Ne.symm hui)]
      exact ht u hu

theorem map_zero_set0 {K : Type} [Field K] (coeff : List (Map K)) (v : K) :
    (coeff.set 0 { (coeff.getD 0 { map := [], value := 0 }) with value := v }).map
        (fun c => ({ c with value := 0 } : Map K)) =
      coeff.map (fun c => { c with value := 0 }) := by
  cases coeff with
  | nil => rfl
  | cons a l => simp

theorem map_value_set0 {K : Type} [Field K] (coeff : List (Map K)) (c0 : Map K) (u : Nat)
    (hu : 1 ≤ u) :
    ((coeff.set 0 c0).map (fun c => c.value)).getD u 0 = (coeff.map (fun c => c.value)).getD u 0 := by
  cases coeff with
  | nil => rfl
  | cons a l =>
    obtain ⟨w, rfl⟩ : ∃ w, u = w + 1 := ⟨u - 1, by omega⟩
    simp

/-- The loop of lines 298-336 run from two objects that differ in the value
of slot 0 only. -/
theorem UpdateBias_withSlot0 {K : Type} [LinearOrderedField K] (exp log : K → K) (D : Nat)
    (st : Basis K) (v : K) :
    (UpdateBias exp log D (withSlot0 st v)).state.unbias = (UpdateBias exp log D st).state.unbias ∧
    (UpdateBias exp log D (withSlot0 st v)).state.coeff = (UpdateBias exp log D st).state.coeff ∧
    (UpdateBias exp log D (withSlot0 st v)).sum = (UpdateBias exp log D st).sum := by
  have hrel := loopFrom_rel
    (slotUpdateBody log D
      { st.hist with bins := (loopFrom
          (reweightBody exp D st.hist st.LUT st.coeff st.weight st.cyclefreq)
          0 st.hist.bins.length
          { i := 0, bins := st.hist.bins, unbias := st.unbias, bias := 0,
            basis := 1 }).bins.map (fun b => { b with value := 0 }) }
      st.LUT (UpdateBias exp log D st).state.unbias)
    (slotUpdateBody log D
      { st.hist with bins := (loopFrom
          (reweightBody exp D st.hist st.LUT st.coeff st.weight st.cyclefreq)
          0 st.hist.bins.length
          { i := 0, bins := st.hist.bins, unbias := st.unbias, bias := 0,
            basis := 1 }).bins.map (fun b => { b with value := 0 }) }
      st.LUT (UpdateBias exp log D st).state.unbias)
    SameButTemp0 (st.coeff.length - 1) 1
    { coeff := (withSlot0 st v).coeff.map (fun c => { c with value := 0 })
      coeffTemp := (withSlot0 st v).coeff.map (fun c => c.value)
      coeff_arr := st.coeff_arr
      sum := 0
      basis := (loopFrom (reweightBody exp D st.hist st.LUT st.coeff st.weight st.cyclefreq)
        0 st.hist.bins.length
        { i := 0, bins := st.hist.bins, unbias := st.unbias, bias := 0, basis := 1 }).basis }
    { coeff := st.coeff.map (fun c => { c with value := 0 })
      coeffTemp := st.coeff.map (fun c => c.value)
      coeff_arr := st.coeff_arr
      sum := 0
      basis := (loopFrom (reweightBody exp D st.hist st.LUT st.coeff st.weight st.cyclefreq)
        0 st.hist.bins.length
        { i := 0, bins := st.hist.bins, unbias := st.unbias, bias := 0, basis := 1 }).basis }
    ⟨map_zero_set0 st.coeff v, rfl, rfl, rfl, by simp [withSlot0],
      fun u hu => map_value_set0 st.coeff _ u hu⟩
    (fun i s t hi _ hr => slotUpdateBody_rel log D _ st.LUT _ i s t hi hr)
  have e1 := reset_spec (withSlot0 st v).coeff
  have e2 := reset_spec_temp (withSlot0 st v).coeff
  simp only [withSlot0, List.length_set] at e1 e2
  have hunfold1 : (UpdateBias exp log D (withSlot0 st v)).state.unbias =
      (UpdateBias exp log D st).state.unbias := by
    simp only [UpdateBias, withSlot0, reweightBody_set0]
  refine ⟨hunfold1, ?_, ?_⟩
  · have := hrel.1
    simp only [UpdateBias, withSlot0, reweightBody_set0, List.length_set, e1, e2, reset_spec,
      reset_spec_temp] at this ⊢
    exact this
  · have := hrel.2.2.1
    simp only [UpdateBias, withSlot0, reweightBody_set0, List.length_set, e1, e2, reset_spec,
      reset_spec_temp] at this ⊢
    exact this

theorem UpdateBias_slot0 {K : Type} [LinearOrderedField K] (exp log : K → K) (D : Nat)
    (st : Basis K) :
    (UpdateBias exp log D st).state.coeff[0]? =
      (st.coeff[0]?).map (fun c => { c with value := 0 }) := by
  have h := loopFrom_inv
    (slotUpdateBody log D
      { st.hist with bins := (loopFrom
          (reweightBody exp D st.hist st.LUT st.coeff st.weight st.cyclefreq)
          0 st.hist.bins.length
          { i := 0, bins := st.hist.bins, unbias := st.unbias, bias := 0,
            basis := 1 }).bins.map (fun b => { b with value := 0 }) }
      st.LUT (UpdateBias exp log D st).state.unbias)
    (fun _ s => s.coeff[0]? = (st.coeff[0]?).map (fun c => { c with value := 0 }))
    (st.coeff.length - 1) 1
    { coeff := (loopFrom resetBody 0 st.coeff.length
        (st.coeff, List.replicate st.coeff.length (0 : K))).1
      coeffTemp := (loopFrom resetBody 0 st.coeff.length
        (st.coeff, List.replicate st.coeff.length (0 : K))).2
      coeff_arr := st.coeff_arr
      sum := 0
      basis := (loopFrom (reweightBody exp D st.hist st.LUT st.coeff st.weight st.cyclefreq)
        0 st.hist.bins.length
        { i := 0, bins := st.hist.bins, unbias := st.unbias, bias := 0, basis := 1 }).basis }
    (by simp only [reset_spec, List.getElem?_map])
    (fun i t hi _ ht => by
      simp only [slotUpdateBody]
      rw [List.getElem?_set_ne (by omega)]
      exact ht)
  exact h

/-- C13. For two objects that differ only in the coefficient value held by
slot 0 (`withSlot0 st v` against `st`), `CalcBiasForce` computes the same
derivative vector, and `UpdateBias` produces the same unbias accumulator, the
same new slots `s >= 1` and the same convergence metric; the only value that
`UpdateBias` leaves in slot 0 is 0. -/
theorem C13_slot_zero_noninterference {K : Type} [LinearOrderedField K] (exp log : K → K)
    (D : Nat) (GetIndices : List K → List Int) (x : List K) (st : Basis K) (v : K) :
    (CalcBiasForce D GetIndices x (withSlot0 st v)).derivatives =
      (CalcBiasForce D GetIndices x st).derivatives ∧
    (UpdateBias exp log D (withSlot0 st v)).state.unbias =
      (UpdateBias exp log D st).state.unbias ∧
    (∀ s, 1 ≤ s → (UpdateBias exp log D (withSlot0 st v)).state.coeff[s]? =
      (UpdateBias exp log D st).state.coeff[s]?) ∧
    (UpdateBias exp log D (withSlot0 st v)).sum = (UpdateBias exp log D st).sum ∧
    (∀ c, (UpdateBias exp log D st).state.coeff[0]? = some c → c.value = 0) := by
  obtain ⟨h1, h2, h3⟩ := UpdateBias_withSlot0 exp log D st v
  refine ⟨?_, h1, fun s _ => by rw [h2], h3, ?_⟩
  · simp only [CalcBiasForce, CalcBiasForce_beforeWalls, withSlot0, CalcBiasForce_basis_set0]
  · intro c hc
    rw [UpdateBias_slot0] at hc
    cases h0 : st.coeff[0]? with
    | none => rw [h0] at hc; cases hc
    | some c0 =>
      rw [h0] at hc
      simp only [Option.map_some', Option.some.injEq] at hc
      rw [← hc]

theorem C13_slot_zero_noninterference_witness :
    (CalcBiasForce 1 (fun _ => [1]) [3 / 4] (withSlot0 (exampleBasis ℝ) 7)).derivatives =
      (CalcBiasForce 1 (fun _ => [1]) [3 / 4] (exampleBasis ℝ)).derivatives ∧
    (UpdateBias Real.exp Real.log 1 (withSlot0 (exampleBasis ℝ) 7)).state.unbias =
      (UpdateBias Real.exp Real.log 1 (exampleBasis ℝ)).state.unbias ∧
    (∀ s, 1 ≤ s → (UpdateBias Real.exp Real.log 1 (withSlot0 (exampleBasis ℝ) 7)).state.coeff[s]? =
      (UpdateBias Real.exp Real.log 1 (exampleBasis ℝ)).state.coeff[s]?) ∧
    (UpdateBias Real.exp Real.log 1 (withSlot0 (exampleBasis ℝ) 7)).sum =
      (UpdateBias Real.exp Real.log 1 (exampleBasis ℝ)).sum ∧
    (∀ c, (UpdateBias Real.exp Real.log 1 (exampleBasis ℝ)).state.coeff[0]? = some c →
      c.value = 0) :=
  C13_slot_zero_noninterference Real.exp Real.log 1 (fun _ => [1]) [3 / 4] (exampleBasis ℝ) 7

/-! ## `CalcBiasForce`: the basis-derived derivatives -/

theorem forceDimBody_inv {K : Type} [LinearOrderedField K] (D : Nat) (hist : Histogram K)
    (LUT : List (BasisLUT K)) (ind : List Int) (c : Map K) (d0 : List K) (j : Nat)
    (d : List K) (hj : j < d0.length) (h : ForceDimInv D hist LUT ind c d0 j d) :
    ForceDimInv D hist LUT ind c d0 (j + 1) (forceDimBody D hist LUT ind c j d) := by
  obtain ⟨hlen, hcells⟩ := h
  have htemp : forceDimBody D hist LUT ind c j d =
      d.set j (d.getD j 0 - c.value * forceTerm D hist LUT ind c j) := by
    simp only [forceDimBody, forceTerm, loopFrom_mul, one_mul]
  rw [htemp]
  refine ⟨by rw [List.length_set]; exact hlen, fun m => ⟨?_, ?_⟩⟩
  · intro hm
    by_cases hmj : m = j
    · subst hmj
      rw [getD_set_eq _ _ _ _ (by omega), (hcells m).2 (le_refl _)]
    · rw [getD_set_ne _ _ _ _ _ (Ne.symm hmj)]
      exact (hcells m).1 (by omega)
  · intro hm
    rw [getD_set_ne _ _ _ _ _ (by omega)]
    exact (hcells m).2 (by omega)

theorem forceSlot_inv {K : Type} [LinearOrderedField K] (D : Nat) (hist : Histogram K)
    (LUT : List (BasisLUT K)) (coeff : List (Map K)) (ind : List Int) (d0 : List K)
    (hD : D ≤ d0.length) (i : Nat) (d : List K) (hi : 1 ≤ i)
    (h : ForceSlotInv D hist LUT coeff ind d0 i d) :
    ForceSlotInv D hist LUT coeff ind d0 (i + 1)
      (loopFrom (forceDimBody D hist LUT ind (coeff.getD i { map := [], value := 0 })) 0 D d) := by
  obtain ⟨hlen, hcells⟩ := h
  have hloop := loopFrom_inv
    (forceDimBody D hist LUT ind (coeff.getD i { map := [], value := 0 }))
    (ForceDimInv D hist LUT ind (coeff.getD i { map := [], value := 0 }) d) D 0 d
    ⟨rfl, fun m => ⟨fun hm => absurd hm (Nat.not_lt_zero m), fun _ => rfl⟩⟩
    (fun j t _ hj ht => forceDimBody_inv D hist LUT ind _ d j t (by omega) ht)
  rw [Nat.zero_add] at hloop
  obtain ⟨hlen', hcells'⟩ := hloop
  refine ⟨by rw [hlen', hlen], fun m hm => ?_⟩
  rw [(hcells' m).1 hm, hcells m hm, Finset.sum_Ico_succ_top hi]
  ring

/-- The loops of lines 478-494 when `bounds_` holds: each of the first `D`
derivatives loses the sum over the slots `s >= 1` of the coefficient times the
product built in `temp`. -/
theorem CalcBiasForce_basis_spec {K : Type} [LinearOrderedField K] (D : Nat)
    (hist : Histogram K) (LUT : List (BasisLUT K)) (coeff : List (Map K)) (ind : List Int)
    (d0 : List K) (hD : D ≤ d0.length) (m : Nat) (hm : m < D) :
    (CalcBiasForce_basis D hist LUT coeff ind true d0).getD m 0 =
      d0.getD m 0 - ∑ s in Finset.Ico 1 coeff.length,
        (coeff.getD s { map := [], value := 0 }).value *
          forceTerm D hist LUT ind (coeff.getD s { map := [], value := 0 }) m := by
  have h := loopFrom_inv
    (fun i d1 =>
      loopFrom (forceDimBody D hist LUT ind (coeff.getD i { map := [], value := 0 })) 0 D d1)
    (ForceSlotInv D hist LUT coeff ind d0) (coeff.length - 1) 1 d0
    ⟨rfl, fun m _ => by simp⟩
    (fun i t hi _ ht => forceSlot_inv D hist LUT coeff ind d0 hD i t hi ht)
  have hIco : Finset.Ico 1 (1 + (coeff.length - 1)) = Finset.Ico 1 coeff.length := by
    by_cases hl : coeff.length = 0
    · simp [hl]
    · have : 1 + (coeff.length - 1) = coeff.length := by omega
      rw [this]
  have h2 := h.2 m hm
  rw [hIco] at h2
  simpa [CalcBiasForce_basis] using h2

theorem forceTerm_eq {K : Type} [LinearOrderedField K] (D : Nat) (hist : Histogram K)
    (LUT : List (BasisLUT K)) (ind : List Int) (c : Map K) (j : Nat) (hj : j < D) :
    forceTerm D hist LUT ind c j =
      (∏ k in (Finset.range D).erase j, lutValue LUT k (forceIndex hist ind c k)) *
        lutDeriv LUT j (forceIndex hist ind c j) * (2 / (hist.GetUpper j - hist.GetLower j)) := by
  unfold forceTerm
  rw [← Finset.mul_prod_erase (Finset.range D) _ (Finset.mem_range.2 hj), if_pos rfl]
  have herase : ∏ k in (Finset.range D).erase j,
      (if j = k then
        lutDeriv LUT k (forceIndex hist ind c k) * 2 / (hist.GetUpper j - hist.GetLower j)
      else lutValue LUT k (forceIndex hist ind c k)) =
      ∏ k in (Finset.range D).erase j, lutValue LUT k (forceIndex hist ind c k) := by
    apply Finset.prod_congr rfl
    intro k hk
    rw [if_neg (fun h => (Finset.mem_erase.1 hk).1 h.symm)]
  rw [herase]
  ring

/-- C14. Let `derivatives_` have one entry per CV. Whenever the flag `bounds_`
holds after the boundary check and the CV vector `x` falls in the bin
`(b_0, ..., b_(D-1)) = GetIndices(x)`, the derivative that `CalcBiasForce`
computes for the dimension `j` before any wall term is
`- sum over the slots s >= 1 of coefficient_s *
 [prod over k != j of values_k[b_k + o_(s,k) n_k]] * derivs_j[b_j + o_(s,j) n_j] *
 2/(upper_j - lower_j)`. -/
theorem C14_basis_derived_force {K : Type} [LinearOrderedField K] (D : Nat)
    (GetIndices : List K → List Int) (x : List K) (st : Basis K)
    (hlen : st.derivatives.length = D) (j : Nat) (hj : j < D)
    (hin : CalcBiasForce_bounds D st.hist x st.bounds = true) :
    (CalcBiasForce_beforeWalls D GetIndices x st).getD j 0 =
      - ∑ s in Finset.Ico 1 st.coeff.length,
        (st.coeff.getD s { map := [], value := 0 }).value *
          (∏ k in (Finset.range D).erase j,
            lutValue st.LUT k ((GetIndices x).getD k 0 +
              ((st.coeff.getD s { map := [], value := 0 }).map.getD k 0 : Int) *
                (st.hist.GetNumPoints k : Int))) *
          lutDeriv st.LUT j ((GetIndices x).getD j 0 +
            ((st.coeff.getD s { map := [], value := 0 }).map.getD j 0 : Int) *
              (st.hist.GetNumPoints j : Int)) *
          (2 / (st.hist.GetUpper j - st.hist.GetLower j)) := by
  unfold CalcBiasForce_beforeWalls
  rw [hin, CalcBiasForce_basis_spec D st.hist st.LUT st.coeff (GetIndices x) _
    (by simp [hlen]) j hj]
  have h0 : (st.derivatives.map (fun _ => (0 : K))).getD j 0 = 0 := by
    rw [List.getD_eq_getElem _ _ (by simp [hlen, hj])]
    simp
  rw [h0, zero_sub]
  congr 1
  apply Finset.sum_congr rfl
  intro s _
  rw [forceTerm_eq D st.hist st.LUT (GetIndices x) _ j hj]
  simp only [forceIndex]
  ring

theorem C14_basis_derived_force_witness :
    (CalcBiasForce_beforeWalls 1 (fun _ => [1]) [3 / 4] (exampleBasis ℚ)).getD 0 0 =
      - ∑ s in Finset.Ico 1 (exampleBasis ℚ).coeff.length,
        ((exampleBasis ℚ).coeff.getD s { map := [], value := 0 }).value *
          (∏ k in (Finset.range 1).erase 0,
            lutValue (exampleBasis ℚ).LUT k (((fun _ => [1]) ([3 / 4] : List ℚ) : List Int).getD k 0 +
              (((exampleBasis ℚ).coeff.getD s { map := [], value := 0 }).map.getD k 0 : Int) *
                ((exampleBasis ℚ).hist.GetNumPoints k : Int))) *
          lutDeriv (exampleBasis ℚ).LUT 0 (((fun _ => [1]) ([3 / 4] : List ℚ) : List Int).getD 0 0 +
            (((exampleBasis ℚ).coeff.getD s { map := [], value := 0 }).map.getD 0 0 : Int) *
              ((exampleBasis ℚ).hist.GetNumPoints 0 : Int)) *
          (2 / ((exampleBasis ℚ).hist.GetUpper 0 - (exampleBasis ℚ).hist.GetLower 0)) :=
  C14_basis_derived_force 1 (fun _ => [1]) [3 / 4] (exampleBasis ℚ) rfl 0 (by decide)
    (by
      simp only [CalcBiasForce_bounds, loopFrom, boundsBody, exampleBasis, Histogram.GetPeriodic,
        Histogram.GetUpper, Histogram.GetLower, List.getD_cons_zero]
      norm_num)

/-! ## `CalcBiasForce`: the wall restraint -/

theorem wallBody_eq {K : Type} [LinearOrderedField K] (hist : Histogram K) (x restraint boundUp
    boundLow : List K) (j : Nat) (d : List K) (hj : j < d.length) :
    wallBody hist x restraint boundUp boundLow j d =
      d.set j (d.getD j 0 + wallTerm hist x restraint boundUp boundLow j) := by
  have hself : d.set j (d.getD j 0) = d := by
    apply List.ext_getElem?
    intro m
    by_cases hm : m = j
    · subst hm
      rw [List.getElem?_set_self hj, List.getD_eq_getElem _ _ hj, List.getElem?_eq_getElem hj]
    · rw [List.getElem?_set_ne (Ne.symm hm)]
  unfold wallBody wallTerm
  split
  · split
    · rw [sub_eq_add_neg]
    · split
      · rw [sub_eq_add_neg]
      · rw [add_zero, hself]
  · rw [add_zero, hself]

theorem wallBody_inv {K : Type} [LinearOrderedField K] (hist : Histogram K) (x restraint boundUp
    boundLow : List K) (d0 : List K) (j : Nat) (d : List K) (hj : j < d0.length)
    (h : WallInv hist x restraint boundUp boundLow d0 j d) :
    WallInv hist x restraint boundUp boundLow d0 (j + 1)
      (wallBody hist x restraint boundUp boundLow j d) := by
  obtain ⟨hlen, hcells⟩ := h
  rw [wallBody_eq hist x restraint boundUp boundLow j d (by omega)]
  refine ⟨by rw [List.length_set]; exact hlen, fun m => ⟨?_, ?_⟩⟩
  · intro hm
    by_cases hmj : m = j
    · subst hmj
      rw [getD_set_eq _ _ _ _ (by omega), (hcells m).2 (le_refl _)]
    · rw [getD_set_ne _ _ _ _ _ (Ne.symm hmj)]
      exact (hcells m).1 (by omega)
  · intro hm
    rw [getD_set_ne _ _ _ _ _ (by omega)]
    exact (hcells m).2 (by omega)

/-- The loop of lines 497-510: every one of the first `D` derivatives gains
its wall term. -/
theorem walls_spec {K : Type} [LinearOrderedField K] (D : Nat) (hist : Histogram K)
    (x restraint boundUp boundLow : List K) (d0 : List K) (hD : D ≤ d0.length) (m : Nat)
    (hm : m < D) :
    (loopFrom (wallBody hist x restraint boundUp boundLow) 0 D d0).getD m 0 =
      d0.getD m 0 + wallTerm hist x restraint boundUp boundLow m := by
  have h := loopFrom_inv (wallBody hist x restraint boundUp boundLow)
    (WallInv hist x restraint boundUp boundLow d0) D 0 d0
    ⟨rfl, fun m => ⟨fun hm => absurd hm (Nat.not_lt_zero m), fun _ => rfl⟩⟩
    (fun j t _ hj ht => wallBody_inv hist x restraint boundUp boundLow d0 j t (by omega) ht)
  rw [Nat.zero_add] at h
  exact (h.2 m).1 hm

theorem CalcBiasForce_beforeWalls_length {K : Type} [LinearOrderedField K] (D : Nat)
    (GetIndices : List K → List Int) (x : List K) (st : Basis K) :
    (CalcBiasForce_beforeWalls D GetIndices x st).length = st.derivatives.length := by
  unfold CalcBiasForce_beforeWalls CalcBiasForce_basis
  split
  · have h := loopFrom_inv
      (fun i d1 => loopFrom (forceDimBody D st.hist st.LUT (GetIndices x)
        (st.coeff.getD i { map := [], value := 0 })) 0 D d1)
      (fun _ d => d.length = st.derivatives.length) (st.coeff.length - 1) 1
      (st.derivatives.map (fun _ => 0)) (by simp)
      (fun i t _ _ ht => by
        have h2 := loopFrom_inv (forceDimBody D st.hist st.LUT (GetIndices x)
            (st.coeff.getD i { map := [], value := 0 }))
          (fun _ d => d.length = st.derivatives.length) D 0 t ht
          (fun j u _ _ hu => by simp only [forceDimBody, List.length_set]; exact hu)
        exact h2)
    exact h
  · simp

/-- C15. Let `derivatives_` have one entry per CV. For every non-periodic
dimension `j` and whatever the flag `bounds_`, the term that `CalcBiasForce`
adds to the basis-derived derivative of the dimension `j` is
`-restraint_j * (x_j - boundUp_j)` when `x_j > boundUp_j`,
`-restraint_j * (x_j - boundLow_j)` when `x_j < boundLow_j` (and `x_j` is not
above `boundUp_j`), and 0 otherwise; with a positive restraint constant it is
negative above the upper bound and positive below the lower bound. -/
theorem C15_wall_term {K : Type} [LinearOrderedField K] (D : Nat)
    (GetIndices : List K → List Int) (x : List K) (st : Basis K)
    (hlen : st.derivatives.length = D) (j : Nat) (hj : j < D)
    (hper : st.hist.GetPeriodic j = false) :
    (CalcBiasForce D GetIndices x st).derivatives.getD j 0 -
        (CalcBiasForce_beforeWalls D GetIndices x st).getD j 0 =
      (if x.getD j 0 > st.boundUp.getD j 0 then
        - (st.restraint.getD j 0 * (x.getD j 0 - st.boundUp.getD j 0))
      else if x.getD j 0 < st.boundLow.getD j 0 then
        - (st.restraint.getD j 0 * (x.getD j 0 - st.boundLow.getD j 0))
      else 0) ∧
    (0 < st.restraint.getD j 0 → x.getD j 0 > st.boundUp.getD j 0 →
      (CalcBiasForce D GetIndices x st).derivatives.getD j 0 -
        (CalcBiasForce_beforeWalls D GetIndices x st).getD j 0 < 0) ∧
    (0 < st.restraint.getD j 0 → ¬ x.getD j 0 > st.boundUp.getD j 0 →
      x.getD j 0 < st.boundLow.getD j 0 →
      0 < (CalcBiasForce D GetIndices x st).derivatives.getD j 0 -
        (CalcBiasForce_beforeWalls D GetIndices x st).getD j 0) := by
  have hw : (CalcBiasForce D GetIndices x st).derivatives.getD j 0 -
      (CalcBiasForce_beforeWalls D GetIndices x st).getD j 0 =
      wallTerm st.hist x st.restraint st.boundUp st.boundLow j := by
    simp only [CalcBiasForce]
    rw [walls_spec D st.hist x st.restraint st.boundUp st.boundLow _
      (by rw [CalcBiasForce_beforeWalls_length, hlen]) j hj]
    ring
  have hterm : wallTerm st.hist x st.restraint st.boundUp st.boundLow j =
      (if x.getD j 0 > st.boundUp.getD j 0 then
        - (st.restraint.getD j 0 * (x.getD j 0 - st.boundUp.getD j 0))
      else if x.getD j 0 < st.boundLow.getD j 0 then
        - (st.restraint.getD j 0 * (x.getD j 0 - st.boundLow.getD j 0))
      else 0) := by
    simp [wallTerm, hper]
  rw [hw, hterm]
  refine ⟨rfl, ?_, ?_⟩
  · intro hr hx
    rw [if_pos hx]
    have : 0 < st.restraint.getD j 0 * (x.getD j 0 - st.boundUp.getD j 0) :=
      mul_pos hr (sub_pos.2 hx)
    linarith
  · intro hr hnx hx
    rw [if_neg hnx, if_pos hx]
    have : st.restraint.getD j 0 * (x.getD j 0 - st.boundLow.getD j 0) < 0 :=
      mul_neg_of_pos_of_neg hr (sub_neg.2 hx)
    linarith

theorem C15_wall_term_witness :
    (CalcBiasForce 1 (fun _ => [1]) [3 / 2] { exampleBasis ℚ with restraint := [10] }).derivatives.getD
          0 0 -
        (CalcBiasForce_beforeWalls 1 (fun _ => [1]) [3 / 2]
          { exampleBasis ℚ with restraint := [10] }).getD 0 0 =
      (if ([3 / 2] : List ℚ).getD 0 0 > ({ exampleBasis ℚ with restraint := [10] } : Basis ℚ).boundUp.getD 0 0 then
        - (({ exampleBasis ℚ with restraint := [10] } : Basis ℚ).restraint.getD 0 0 *
          (([3 / 2] : List ℚ).getD 0 0 -
            ({ exampleBasis ℚ with restraint := [10] } : Basis ℚ).boundUp.getD 0 0))
      else if ([3 / 2] : List ℚ).getD 0 0 <
          ({ exampleBasis ℚ with restraint := [10] } : Basis ℚ).boundLow.getD 0 0 then
        - (({ exampleBasis ℚ with restraint := [10] } : Basis ℚ).restraint.getD 0 0 *
          (([3 / 2] : List ℚ).getD 0 0 -
            ({ exampleBasis ℚ with restraint := [10] } : Basis ℚ).boundLow.getD 0 0))
      else 0) :=
  (C15_wall_term 1 (fun _ => [1]) [3 / 2] { exampleBasis ℚ with restraint := [10] } rfl 0
    (by decide) rfl).1

/-! ## `CalcBiasForce`: the flag `bounds_` -/

/-- With a single non-periodic CV the flag holds after the check only if the
value lies in `[lower, upper]`. -/
theorem bounds_single_dimension {K : Type} [LinearOrderedField K] (hist : Histogram K)
    (x : List K) (b0 : Bool) (hper : hist.GetPeriodic 0 = false)
    (h : CalcBiasForce_bounds 1 hist x b0 = true) :
    hist.GetLower 0 ≤ x.getD 0 0 ∧ x.getD 0 0 ≤ hist.GetUpper 0 := by
  simp only [CalcBiasForce_bounds, loopFrom, boundsBody, hper, Bool.not_false, if_true] at h
  by_cases h1 : x.getD 0 0 > hist.GetUpper 0 ∧ b0 = true
  · rw [if_pos h1] at h
    cases h
  · rw [if_neg h1] at h
    by_cases h2 : x.getD 0 0 < hist.GetLower 0 ∧ b0 = true
    · rw [if_pos h2] at h
      cases h
    · rw [if_neg h2] at h
      by_cases h3 : x.getD 0 0 < hist.GetUpper 0 ∧ x.getD 0 0 > hist.GetLower 0 ∧ b0 = false
      · exact ⟨le_of_lt h3.2.1, le_of_lt h3.1⟩
      · rw [if_neg h3] at h
        subst h
        simp only [and_true, not_lt] at h1 h2
        exact ⟨h2, h1⟩

/-- C16 (failing input). Two non-periodic CVs on `[0, 1]` with the values
`x = (2, 1/2)`: dimension 0 is above its upper bound, and whatever the flag
`bounds_` was before, the check leaves it set, because the third branch of the
loop sets it again at dimension 1, which is inside. -/
theorem C16_flag_set_with_a_dimension_outside :
    CalcBiasForce_bounds 2 (twoDimGrid ℚ) [2, 1 / 2] true = true ∧
    CalcBiasForce_bounds 2 (twoDimGrid ℚ) [2, 1 / 2] false = true ∧
    ¬ ((twoDimGrid ℚ).GetLower 0 ≤ ([2, 1 / 2] : List ℚ).getD 0 0 ∧
      ([2, 1 / 2] : List ℚ).getD 0 0 ≤ (twoDimGrid ℚ).GetUpper 0) := by
  refine ⟨?_, ?_, ?_⟩
  · simp only [CalcBiasForce_bounds, loopFrom, boundsBody, twoDimGrid, Histogram.GetPeriodic,
      Histogram.GetUpper, Histogram.GetLower, List.getD_cons_zero, List.getD_cons_succ]
    norm_num
  · simp only [CalcBiasForce_bounds, loopFrom, boundsBody, twoDimGrid, Histogram.GetPeriodic,
      Histogram.GetUpper, Histogram.GetLower, List.getD_cons_zero, List.getD_cons_succ]
    norm_num
  · simp only [twoDimGrid, Histogram.GetUpper, Histogram.GetLower, List.getD_cons_zero]
    norm_num

/-! ## `PostIntegration` -/

theorem PostIntegration_bin_fields {K : Type} (pos : List K → Nat) (x : List K) (st : Basis K) :
    (PostIntegration_bin pos x st).cyclefreq = st.cyclefreq ∧
    (PostIntegration_bin pos x st).temperature = st.temperature ∧
    (PostIntegration_bin pos x st).coeff = st.coeff ∧
    (PostIntegration_bin pos x st).coeff_arr = st.coeff_arr ∧
    (PostIntegration_bin pos x st).unbias = st.unbias ∧
    (PostIntegration_bin pos x st).iteration = st.iteration ∧
    (PostIntegration_bin pos x st).bounds = st.bounds := by
  unfold PostIntegration_bin
  split <;> exact ⟨rfl, rfl, rfl, rfl, rfl, rfl, rfl⟩

/-- C17 (as amended). Whatever the flag `bounds_` is, the binning of
`PostIntegration` adds one to the count of the position that the grid selects
for `x` and leaves every other count, and every index and under/overflow flag,
as it was. -/
theorem C17_binning_ignores_the_flag {K : Type} (pos : List K → Nat) (x : List K)
    (st : Basis K) (flag : Bool) (t : Nat) :
    (PostIntegration_bin pos x { st with bounds := flag }).hist.bins[t]? =
      (st.hist.bins[t]?).map
        (fun b => { b with value := if t = pos x then b.value + 1 else b.value }) := by
  unfold PostIntegration_bin
  simp only
  cases hb : st.hist.bins[pos x]? with
  | none =>
    simp only
    cases ht : st.hist.bins[t]? with
    | none => rfl
    | some b =>
      have hne : t ≠ pos x := by
        intro h
        rw [h, hb] at ht
        cases ht
      simp [hne]
  | some b0 =>
    simp only
    have hlt : pos x < st.hist.bins.length := (List.getElem?_eq_some.1 hb).1
    by_cases htp : t = pos x
    · subst htp
      rw [List.getElem?_set_self hlt, hb]
      simp
    · rw [List.getElem?_set_ne (Ne.symm htp)]
      cases ht : st.hist.bins[t]? with
      | none => rfl
      | some b => simp [htp]

/-- C17 (counterexample). One CV on `[0, 1]` with the value `3/2`, the flag
`bounds_` unset before the step, a step that is not an update step (step 1,
period 2, so `exp` and `log` are never called): the grid selects the overflow
position 3, its count goes from 0 to 1, and the flag is still unset after the
step. -/
theorem C17_binning_counterexample :
    ({ exampleBasis ℚ with bounds := false } : Basis ℚ).bounds = false ∧
    (PostIntegration (fun x => x) (fun x => x) 1 (fun _ => 3) (fun _ => [2]) ⟨1, 1, 1⟩ [3 / 2]
      { exampleBasis ℚ with bounds := false }).state.bounds = false ∧
    (PostIntegration_bin (fun _ => 3) ([3 / 2] : List ℚ)
        { exampleBasis ℚ with bounds := false }).hist.bins.map (fun b => b.value) ≠
      ({ exampleBasis ℚ with bounds := false } : Basis ℚ).hist.bins.map (fun b => b.value) := by
  refine ⟨rfl, ?_, ?_⟩
  · simp only [PostIntegration, PostIntegration_bin, exampleBasis, CalcBiasForce,
      CalcBiasForce_bounds, loopFrom, boundsBody, Histogram.GetPeriodic, Histogram.GetUpper,
      Histogram.GetLower, List.getD_cons_zero]
    norm_num
  · simp [PostIntegration_bin, exampleBasis]

theorem PostIntegration_update_beta {K : Type} [LinearOrderedField K] (exp log : K → K)
    (D : Nat) (GetIndices : List K → List Int) (x : List K) (beta : K) (st : Basis K) :
    (PostIntegration_update exp log D GetIndices x beta st).beta = some beta ∧
    (PostIntegration_update exp log D GetIndices x beta st).exit ≠ some ExitCode.failure := by
  unfold PostIntegration_update
  simp only
  split
  · exact ⟨rfl, by simp⟩
  · exact ⟨rfl, by simp⟩

/-- The `beta` that an update step hands to `UpdateBias`: `1/(T*kB)` when the
snapshot temperature `T` is not 0, the member `temperature_` itself when `T`
is 0 and `temperature_` is not. -/
theorem PostIntegration_beta {K : Type} [LinearOrderedField K] (exp log : K → K) (D : Nat)
    (pos : List K → Nat) (GetIndices : List K → List Int) (snap : Snapshot K) (x : List K)
    (st : Basis K) (hstep : snap.iteration % st.cyclefreq = 0) :
    (snap.temperature ≠ 0 →
      (PostIntegration exp log D pos GetIndices snap x st).beta =
        some (1 / (snap.temperature * snap.kb))) ∧
    (snap.temperature = 0 → st.temperature ≠ 0 →
      (PostIntegration exp log D pos GetIndices snap x st).beta = some st.temperature) := by
  obtain ⟨hf, ht, _⟩ := PostIntegration_bin_fields pos x st
  refine ⟨?_, ?_⟩
  · intro hT
    simp only [PostIntegration, hf, hstep, if_true, if_neg hT]
    exact (PostIntegration_update_beta exp log D GetIndices x _ _).1
  · intro hT hTf
    simp only [PostIntegration, hf, ht, hstep, if_true, if_pos hT, if_neg hTf]
    exact (PostIntegration_update_beta exp log D GetIndices x _ _).1

/-- C18 (failing input). An update step (step 0, period 2) with the snapshot
temperature 0, the Boltzmann constant 1 and the configured temperature
`temperature_ = 2`: the `beta` handed to `UpdateBias` is 2, the configured
temperature itself, and not `1/(kB * temperature_) = 1/2`. -/
theorem C18_fallback_temperature_used_as_beta :
    (PostIntegration Real.exp Real.log 1 (fun _ => 1) (fun _ => [0]) ⟨0, 0, 1⟩ [1 / 4]
      { exampleBasis ℝ with temperature := 2 }).beta = some 2 ∧
    (2 : ℝ) ≠ 1 / (1 * 2) := by
  refine ⟨?_, by norm_num⟩
  exact (PostIntegration_beta Real.exp Real.log 1 (fun _ => 1) (fun _ => [0]) ⟨0, 0, 1⟩ [1 / 4]
    { exampleBasis ℝ with temperature := 2 } rfl).2 rfl (by norm_num)

/-- C19. On an update step (`GetIteration() % cyclefreq_ == 0`),
`PostIntegration` leaves through `exit(EXIT_FAILURE)` exactly when the snapshot
temperature is 0 and the configured temperature `temperature_` is 0; in that
case `UpdateBias` is not called (no `beta` is handed over; coefficients,
coefficient array and unbias accumulator are as before) and the iteration
counter is not incremented. -/
theorem C19_fatal_exit_without_temperature {K : Type} [LinearOrderedField K] (exp log : K → K)
    (D : Nat) (pos : List K → Nat) (GetIndices : List K → List Int) (snap : Snapshot K)
    (x : List K) (st : Basis K) (hstep : snap.iteration % st.cyclefreq = 0) :
    ((PostIntegration exp log D pos GetIndices snap x st).exit = some ExitCode.failure ↔
      (snap.temperature = 0 ∧ st.temperature = 0)) ∧
    ((snap.temperature = 0 ∧ st.temperature = 0) →
      (PostIntegration exp log D pos GetIndices snap x st).beta = none ∧
      (PostIntegration exp log D pos GetIndices snap x st).state.coeff = st.coeff ∧
      (PostIntegration exp log D pos GetIndices snap x st).state.coeff_arr = st.coeff_arr ∧
      (PostIntegration exp log D pos GetIndices snap x st).state.unbias = st.unbias ∧
      (PostIntegration exp log D pos GetIndices snap x st).state.iteration = st.iteration) := by
  obtain ⟨hf, ht, hc, ha, hu, hi, _⟩ := PostIntegration_bin_fields pos x st
  have hexit : (snap.temperature = 0 ∧ st.temperature = 0) →
      PostIntegration exp log D pos GetIndices snap x st =
        { state := PostIntegration_bin pos x st, beta := none, exit := some ExitCode.failure } := by
    rintro ⟨hT, hTf⟩
    simp only [PostIntegration, hf, ht, hstep, if_true, if_pos hT, if_pos hTf]
  refine ⟨⟨?_, fun h => by rw [hexit h]⟩, ?_⟩
  · intro h
    by_cases hT : snap.temperature = 0
    · by_cases hTf : st.temperature = 0
      · exact ⟨hT, hTf⟩
      · simp only [PostIntegration, hf, ht, hstep, if_true, if_pos hT, if_neg hTf] at h
        exact absurd h (PostIntegration_update_beta exp log D GetIndices x _ _).2
    · simp only [PostIntegration, hf, hstep, if_true, if_neg hT] at h
      exact absurd h (PostIntegration_update_beta exp log D GetIndices x _ _).2
  · intro h
    rw [hexit h]
    exact ⟨rfl, hc, ha, hu, hi⟩

theorem C19_fatal_exit_without_temperature_witness :
    ((PostIntegration Real.exp Real.log 1 (fun _ => 1) (fun _ => [0]) ⟨0, 0, 1⟩ [1 / 4]
        (exampleBasis ℝ)).exit = some ExitCode.failure ↔
      ((⟨0, 0, 1⟩ : Snapshot ℝ).temperature = 0 ∧ (exampleBasis ℝ).temperature = 0)) ∧
    (((⟨0, 0, 1⟩ : Snapshot ℝ).temperature = 0 ∧ (exampleBasis ℝ).temperature = 0) →
      (PostIntegration Real.exp Real.log 1 (fun _ => 1) (fun _ => [0]) ⟨0, 0, 1⟩ [1 / 4]
        (exampleBasis ℝ)).beta = none ∧
      (PostIntegration Real.exp Real.log 1 (fun _ => 1) (fun _ => [0]) ⟨0, 0, 1⟩ [1 / 4]
        (exampleBasis ℝ)).state.coeff = (exampleBasis ℝ).coeff ∧
      (PostIntegration Real.exp Real.log 1 (fun _ => 1) (fun _ => [0]) ⟨0, 0, 1⟩ [1 / 4]
        (exampleBasis ℝ)).state.coeff_arr = (exampleBasis ℝ).coeff_arr ∧
      (PostIntegration Real.exp Real.log 1 (fun _ => 1) (fun _ => [0]) ⟨0, 0, 1⟩ [1 / 4]
        (exampleBasis ℝ)).state.unbias = (exampleBasis ℝ).unbias ∧
      (PostIntegration Real.exp Real.log 1 (fun _ => 1) (fun _ => [0]) ⟨0, 0, 1⟩ [1 / 4]
        (exampleBasis ℝ)).state.iteration = (exampleBasis ℝ).iteration) :=
  C19_fatal_exit_without_temperature Real.exp Real.log 1 (fun _ => 1) (fun _ => [0]) ⟨0, 0, 1⟩
    [1 / 4] (exampleBasis ℝ) rfl

/-! ## `PreSimulation`: the polynomial orders -/

theorem length_resize {α : Type} (v : List α) (n : Nat) (fill : α) :
    (resize v n fill).length = n := by
  simp only [resize, List.length_append, List.length_take, List.length_replicate]
  omega

/-- Lines 61-66 on a non-empty order list: `D` copies of the first order. -/
theorem normalizeOrders_eq (D : Nat) (p0 : Nat) (rest : List Nat) (hD : 1 ≤ D) :
    normalizeOrders D (p0 :: rest) = List.replicate D p0 := by
  have h0 : (resize (p0 :: rest) D 0).getD 0 0 = p0 := by
    obtain ⟨d, rfl⟩ : ∃ d, D = d + 1 := ⟨D - 1, by omega⟩
    simp [resize]
  have h := loopFrom_inv (fun i (p : List Nat) => p.set i (p.getD 0 0))
    (fun i p => p.length = D ∧ p.getD 0 0 = p0 ∧ ∀ m, m < i → p.getD m 0 = p0) D 0
    (resize (p0 :: rest) D 0)
    ⟨length_resize _ _ _, h0, fun m hm => absurd hm (Nat.not_lt_zero m)⟩
    (by
      intro i t _ hi ht
      obtain ⟨hl, hfirst, hdone⟩ := ht
      refine ⟨by simp only [List.length_set]; exact hl, ?_, ?_⟩
      · by_cases hi0 : i = 0
        · subst hi0
          rw [getD_set_eq _ _ _ _ (by omega)]
          exact hfirst
        · rw [getD_set_ne _ _ _ _ _ hi0]
          exact hfirst
      · intro m hm
        by_cases hmi : m = i
        · subst hmi
          rw [getD_set_eq _ _ _ _ (by omega)]
          exact hfirst
        · rw [getD_set_ne _ _ _ _ _ (Ne.symm hmi)]
          exact hdone m (by omega))
  rw [Nat.zero_add] at h
  obtain ⟨hl, _, hall⟩ := h
  unfold normalizeOrders
  apply List.ext_getElem
  · rw [hl, List.length_replicate]
  · intro m hm1 hm2
    rw [List.getElem_replicate, ← List.getD_eq_getElem _ 0 hm1]
    exact hall m (by omega)

theorem coeffSize_replicate (D p0 : Nat) : coeffSize D (List.replicate D p0) = (p0 + 1) ^ D := by
  rw [coeffSize_eq_radix]
  unfold radix
  have : ∀ m, m ∈ Finset.range D → (List.replicate D p0).getD m 0 + 1 = p0 + 1 := by
    intro m hm
    have hlt : m < D := Finset.mem_range.1 hm
    rw [List.getD_eq_getElem _ _ (by simpa using hlt)]
    simp
  rw [Finset.prod_congr rfl this, Finset.prod_const, Finset.card_range]

/-- C20 (as amended). Let the grid have as many dimensions as there are CVs,
`D >= 1`, and let the configured order list be non-empty, of a length other
than `D`, with a first order of at least 1. Then `PreSimulation` returns (the
run is not aborted), the order list it leaves is `D` copies of the first
configured order, and the coefficient array has length `(p_0 + 1)^D`. -/
theorem C20_orders_replicated {K : Type} [Field K] (D : Nat) (p0 : Nat) (rest : List Nat)
    (st : Basis K) (hD : 1 ≤ D) (hlen : (p0 :: rest).length ≠ D)
    (hdim : st.hist.GetDimension = D) (hp0 : 1 ≤ p0) :
    ∃ r, PreSimulation D (p0 :: rest) st = Except.ok r ∧
      r.polyords = List.replicate D p0 ∧
      r.state.coeff_arr.length = (p0 + 1) ^ D := by
  obtain ⟨LUT, hLUT⟩ := BasisInit_completes (K := K) D (List.replicate D p0) st.hist.numPoints
    (List.length_replicate _ _)
    (by
      intro k hk
      rw [List.getD_eq_getElem _ _ (by simpa using hk)]
      simpa using hp0)
  have hne : D ≠ (p0 :: rest).length := fun h => hlen h.symm
  simp only [PreSimulation, hdim, ne_eq, not_true_eq_false, if_false, hne, not_false_eq_true,
    if_true, List.getElem?_cons_zero, normalizeOrders_eq D p0 rest hD, hLUT]
  exact ⟨_, rfl, rfl, by simp only [length_resize, coeffSize_replicate]⟩

theorem C20_orders_replicated_witness :
    ∃ r, PreSimulation 1 (3 :: [3]) (exampleBasis ℚ) = Except.ok r ∧
      r.polyords = List.replicate 1 3 ∧
      r.state.coeff_arr.length = (3 + 1) ^ 1 :=
  C20_orders_replicated 1 3 [3] (exampleBasis ℚ) (le_refl 1) (by decide) rfl (by decide)

/-- C20 (counterexample). One CV, the non-empty order list `[3, 3]` of length
2, and a grid of two dimensions: `PreSimulation` aborts the run. -/
theorem C20_orders_counterexample :
    (1 : Nat) ≤ 1 ∧ ([3, 3] : List Nat) ≠ [] ∧ ([3, 3] : List Nat).length ≠ 1 ∧
    PreSimulation 1 [3, 3] ({ exampleBasis ℚ with hist := twoDimGrid ℚ } : Basis ℚ) =
      Except.error Failure.abort := by
  refine ⟨le_refl 1, by simp, by simp, ?_⟩
  simp [PreSimulation, Histogram.GetDimension, twoDimGrid]


/-! ## `PreSimulation`: the abort, and the histogram after `UpdateBias` -/

/-- C21. `Basis::PreSimulation` aborts (`world_.abort(EXIT_FAILURE)`) exactly
when the dimensionality of the histogram differs from the number of CVs,
whatever orders are configured; when the two agree, a number of orders that
differs from the number of CVs never leads to the abort. -/
theorem C21_abort_iff_dimension_mismatch {K : Type} [Field K] (D : Nat) (polyords : List Nat)
    (st : Basis K) :
    (PreSimulation D polyords st = Except.error Failure.abort ↔ st.hist.GetDimension ≠ D) ∧
    (st.hist.GetDimension = D → polyords.length ≠ D →
      PreSimulation D polyords st ≠ Except.error Failure.abort) := by
  have key : st.hist.GetDimension = D →
      PreSimulation D polyords st ≠ Except.error Failure.abort := by
    intro hd
    unfold PreSimulation
    rw [if_neg (not_not.mpr hd)]
    by_cases hl : D ≠ polyords.length
    · rw [if_pos hl]
      cases h0 : polyords[0]? with
      | none => simp
      | some q =>
        simp only
        cases BasisInit (K := K) D (normalizeOrders D polyords) st.hist.numPoints with
        | none => simp
        | some LUT => simp
    · rw [if_neg hl]
      simp only
      cases BasisInit (K := K) D polyords st.hist.numPoints with
      | none => simp
      | some LUT => simp
  refine ⟨⟨?_, ?_⟩, fun hd _ => key hd⟩
  · intro h hd
    exact key hd h
  · intro hd
    unfold PreSimulation
    rw [if_pos hd]

theorem reweight_bins_zeroed {K : Type} [Field K] (exp : K → K) (D : Nat) (st : Basis K) :
    (loopFrom (reweightBody exp D st.hist st.LUT st.coeff st.weight st.cyclefreq)
        0 st.hist.bins.length
        { i := 0, bins := st.hist.bins, unbias := st.unbias, bias := 0, basis := 1 }).bins.map
        (fun b => { b with value := 0 }) =
      st.hist.bins.map (fun b => { b with value := 0 }) := by
  have h := loopFrom_inv (reweightBody exp D st.hist st.LUT st.coeff st.weight st.cyclefreq)
    (fun _ s => s.bins.map (fun b => ({ b with value := 0 } : HistBin)) =
      st.hist.bins.map (fun b => { b with value := 0 }))
    st.hist.bins.length 0
    { i := 0, bins := st.hist.bins, unbias := st.unbias, bias := 0, basis := 1 } rfl
    (by
      intro t s _ _ hs
      unfold reweightBody
      cases hb : s.bins[t]? with
      | none => exact hs
      | some b =>
        simp only
        by_cases hflag : b.isUnderOverflowBin = true
        · rw [if_pos hflag]; exact hs
        · rw [if_neg hflag]
          simp only
          rw [List.map_set, ← hs]
          apply List.ext_getElem?
          intro u
          by_cases hu : t = u
          · subst hu
            have ht : t < s.bins.length := by
              rcases List.getElem?_eq_some_iff.mp hb with ⟨h1, _⟩
              exact h1
            rw [List.getElem?_set_self (by rw [List.length_map]; exact ht), List.getElem?_map, hb]
            by_cases hv : b.value = 0
            · rw [if_pos hv]; rfl
            · rw [if_neg hv]; rfl
          · rw [List.getElem?_set_ne hu])
  simpa using h

/-- C22. After `Basis::UpdateBias` the histogram has the positions it had, each
with the count 0: the interior positions, those whose count 0 was clamped to 1
included, and the under/overflow positions. -/
theorem C22_histogram_reset {K : Type} [LinearOrderedField K] (exp log : K → K) (D : Nat)
    (st : Basis K) :
    (UpdateBias exp log D st).state.hist.bins =
      st.hist.bins.map (fun b => { b with value := 0 }) ∧
    (UpdateBias exp log D st).state.hist.bins.length = st.hist.bins.length ∧
    ∀ b, b ∈ (UpdateBias exp log D st).state.hist.bins → b.value = 0 := by
  have h : (UpdateBias exp log D st).state.hist.bins =
      st.hist.bins.map (fun b => { b with value := 0 }) := by
    simp only [UpdateBias]
    exact reweight_bins_zeroed exp D st
  refine ⟨h, ?_, ?_⟩
  · rw [h, List.length_map]
  · intro b hb
    rw [h, List.mem_map] at hb
    obtain ⟨a, _, rfl⟩ := hb
    rfl


/-! ## `PrintBias` -/

theorem loopFrom_append {α : Type} (f : Nat → α) (n : Nat) :
    loopFrom (fun k out => out ++ [f k]) 0 n [] = (List.range n).map f := by
  have h := loopFrom_inv (fun k (out : List α) => out ++ [f k])
    (fun i out => out = (List.range i).map f) n 0 [] (by simp)
    (by
      intro i t _ _ ht
      simp only
      rw [ht, List.range_succ, List.map_append]
      rfl)
  simpa using h

theorem printSlotBody_inv {K : Type} [Field K] (D : Nat) (hist : Histogram K)
    (LUT : List (BasisLUT K)) (coeff : List (Map K)) (b : HistBin) (bias0 : List K) (i : Nat)
    (hi : i < bias0.length) (j : Nat) (s : List K × K) (hj : 1 ≤ j)
    (h : PrintSlotInv D hist LUT coeff b bias0 i j s) :
    PrintSlotInv D hist LUT coeff b bias0 i (j + 1) (printSlotBody D hist LUT coeff b i j s) := by
  obtain ⟨h1, h2, h3, h4⟩ := h
  unfold printSlotBody
  refine ⟨rfl, by simp [h2], ?_, ?_⟩
  · simp only
    rw [getD_set_eq _ _ _ _ (by omega), h3, h1, loopFrom_mul, one_mul,
      Finset.sum_Ico_succ_top hj, add_assoc]
  · intro r hr
    simp only
    rw [getD_set_ne _ _ _ _ _ (Ne.symm hr)]
    exact h4 r hr

theorem printSlots_spec {K : Type} [Field K] (D : Nat) (hist : Histogram K)
    (LUT : List (BasisLUT K)) (coeff : List (Map K)) (b : HistBin) (bias0 : List K) (i : Nat)
    (hi : i < bias0.length) :
    PrintSlotInv D hist LUT coeff b bias0 i (1 + (coeff.length - 1))
      (loopFrom (printSlotBody D hist LUT coeff b i) 1 (coeff.length - 1) (bias0, 1)) :=
  loopFrom_inv (printSlotBody D hist LUT coeff b i) (PrintSlotInv D hist LUT coeff b bias0 i)
    (coeff.length - 1) 1 (bias0, 1) ⟨rfl, rfl, by simp, fun _ _ => rfl⟩
    (fun j t hj _ ht => printSlotBody_inv D hist LUT coeff b bias0 i hi j t hj ht)


theorem Ico_one_pred (n : Nat) : Finset.Ico 1 (1 + (n - 1)) = Finset.Ico 1 n := by
  cases n with
  | zero => rfl
  | succ n => rw [Nat.add_sub_cancel, Nat.add_comm]

theorem printBiasBody_inv {K : Type} [Field K] (D : Nat) (hist : Histogram K)
    (LUT : List (BasisLUT K)) (coeff : List (Map K)) (t : Nat) (s : PrintBiasState K)
    (ht : t < hist.bins.length) (h : PrintBiasInv D hist LUT coeff t s) :
    PrintBiasInv D hist LUT coeff (t + 1) (printBiasBody D hist LUT coeff t s) := by
  obtain ⟨hi, htemp, hlen, hacc, hhigh⟩ := h
  obtain ⟨b, hb⟩ : ∃ b, hist.bins[t]? = some b := ⟨hist.bins[t], List.getElem?_eq_getElem ht⟩
  have hrank := interiorRank_succ hist.bins t b hb
  cases hint : b.isUnderOverflowBin with
  | true =>
    have hbody : printBiasBody D hist LUT coeff t s = s := by
      simp only [printBiasBody, hb, hint, if_true]
    rw [hbody]
    rw [hint] at hrank
    simp only [if_true, Nat.add_zero] at hrank
    refine ⟨by rw [hrank]; exact hi, htemp, hlen, ?_, hhigh⟩
    intro u b' hu hb' hint'
    by_cases hut : u = t
    · subst hut
      rw [hb] at hb'
      cases hb'
      rw [hint] at hint'
      cases hint'
    · exact hacc u b' (by omega) hb' hint'
  | false =>
    rw [hint] at hrank
    simp only [Bool.false_eq_true, if_false] at hrank
    have hilt : s.i < s.bias.length := by
      have := interiorRank_le hist.bins t
      omega
    obtain ⟨h1, h2, h3, h4⟩ := printSlots_spec D hist LUT coeff b s.bias s.i hilt
    rw [Ico_one_pred] at h3
    have hbody : printBiasBody D hist LUT coeff t s =
        { i := s.i + 1
          bias := (loopFrom (printSlotBody D hist LUT coeff b s.i) 1 (coeff.length - 1)
            (s.bias, 1)).1
          temp := (loopFrom (printSlotBody D hist LUT coeff b s.i) 1 (coeff.length - 1)
            (s.bias, 1)).2 } := by
      simp only [printBiasBody, hb]
      rw [if_neg (by rw [hint]; exact Bool.false_ne_true), htemp]
    rw [hbody]
    refine ⟨by rw [hrank, hi], h1, by rw [h2, hlen], ?_, ?_⟩
    · intro u b' hu hb' hint'
      simp only
      by_cases hut : u = t
      · subst hut
        rw [hb] at hb'
        cases hb'
        rw [← hi, h3, hhigh s.i (le_refl _), zero_add]
        rfl
      · have hlt := interiorRank_lt hist.bins u t b' (by omega) hb' hint'
        rw [h4 _ (by omega)]
        exact hacc u b' (by omega) hb' hint'
    · intro r hr
      simp only at hr ⊢
      rw [h4 r (by omega)]
      exact hhigh r (by omega)

/-- The loop of lines 367-385 run over the whole histogram: the entry of `bias`
at the counter of an interior position is the bias at that position. -/
theorem printBias_spec {K : Type} [Field K] (D : Nat) (hist : Histogram K)
    (LUT : List (BasisLUT K)) (coeff : List (Map K)) :
    PrintBiasInv D hist LUT coeff hist.bins.length
      (loopFrom (printBiasBody D hist LUT coeff) 0 hist.bins.length
        { i := 0, bias := List.replicate hist.bins.length 0, temp := 1 }) := by
  have h := loopFrom_inv (printBiasBody D hist LUT coeff) (PrintBiasInv D hist LUT coeff)
    hist.bins.length 0 { i := 0, bias := List.replicate hist.bins.length 0, temp := 1 }
    ⟨by simp [interiorRank], rfl, by simp, fun u _ hu => absurd hu (Nat.not_lt_zero u),
      fun r _ => getD_replicate_self _ r 0⟩
    (fun i t _ hi ht => printBiasBody_inv D hist LUT coeff i t (by omega) ht)
  simpa using h

theorem interiorPositions_succ {K : Type} (hist : Histogram K) (t : Nat) :
    interiorPositions hist (t + 1) =
      interiorPositions hist t ++ (if (hist.binAt t).isUnderOverflowBin then [] else [t]) := by
  unfold interiorPositions
  rw [List.range_succ, List.filter_append]
  cases h : (hist.binAt t).isUnderOverflowBin <;> simp [List.filter, h]

theorem binAt_of_getElem {K : Type} (hist : Histogram K) (t : Nat) (b : HistBin)
    (hb : hist.bins[t]? = some b) : hist.binAt t = b := by
  unfold Histogram.binAt
  rw [List.getD_eq_getElem?_getD, hb]
  rfl

/-- The loop of lines 400-420: one row for every interior position, in the
order of the iterator. -/
theorem printRows_spec {K : Type} [LinearOrderedField K] (log : K → K) (D : Nat)
    (coordinate : Nat → Nat → K) (beta : K) (st : Basis K) (bias : List K)
    (hbias : ∀ u b, st.hist.bins[u]? = some b → b.isUnderOverflowBin = false →
      bias.getD (interiorRank st.hist.bins u) 0 = biasAt D st.hist st.LUT st.coeff b) :
    (loopFrom (printRowBody log D st.hist st.unbias bias coordinate beta)
        0 st.hist.bins.length { j := 0, rows := [] }).rows =
      (interiorPositions st.hist st.hist.bins.length).map
        (specRow log D coordinate beta st) := by
  have h := loopFrom_inv (printRowBody log D st.hist st.unbias bias coordinate beta)
    (fun t s => s.j = interiorRank st.hist.bins t ∧
      s.rows = (interiorPositions st.hist t).map (specRow log D coordinate beta st))
    st.hist.bins.length 0 { j := 0, rows := [] }
    ⟨by simp [interiorRank], by simp [interiorPositions]⟩
    (by
      intro t s _ ht hs
      obtain ⟨hj, hrows⟩ := hs
      have ht' : t < st.hist.bins.length := by omega
      obtain ⟨b, hb⟩ : ∃ b, st.hist.bins[t]? = some b :=
        ⟨st.hist.bins[t], List.getElem?_eq_getElem ht'⟩
      have hrank := interiorRank_succ st.hist.bins t b hb
      have hbin := binAt_of_getElem st.hist t b hb
      rw [interiorPositions_succ, hbin]
      cases hint : b.isUnderOverflowBin with
      | true =>
        have hbody : printRowBody log D st.hist st.unbias bias coordinate beta t s = s := by
          simp only [printRowBody, hb, hint, if_true]
        rw [hbody]
        rw [hint] at hrank
        simp only [if_true, Nat.add_zero] at hrank
        exact ⟨by rw [hrank]; exact hj, by simpa using hrows⟩
      | false =>
        rw [hint] at hrank
        simp only [Bool.false_eq_true, if_false] at hrank
        simp only [printRowBody, hb, hint, Bool.false_eq_true, if_false]
        refine ⟨by rw [hrank, hj], ?_⟩
        rw [hrows, List.map_append, loopFrom_append, hj, hbias t b hb hint]
        simp only [List.map_cons, List.map_nil, specRow, hbin])
  simpa using h.2


theorem PrintBias_rows {K : Type} [LinearOrderedField K] (log : K → K) (D : Nat)
    (coordinate : Nat → Nat → K) (beta : K) (st : Basis K) :
    (PrintBias log D coordinate beta st).rows =
      (interiorPositions st.hist st.hist.bins.length).map
        (specRow log D coordinate beta st) := by
  obtain ⟨_, _, _, hacc, _⟩ := printBias_spec D st.hist st.LUT st.coeff
  simp only [PrintBias]
  apply printRows_spec
  intro u b hb hint
  have hu : u < st.hist.bins.length := by
    rcases List.getElem?_eq_some_iff.mp hb with ⟨h1, _⟩
    exact h1
  exact hacc u b hu hb hint

theorem PrintBias_coeffValues {K : Type} [LinearOrderedField K] (log : K → K) (D : Nat)
    (coordinate : Nat → Nat → K) (beta : K) (st : Basis K) :
    (PrintBias log D coordinate beta st).coeffValues = st.coeff.map Map.value := by
  simp only [PrintBias]
  rw [loopFrom_append]
  apply List.ext_getElem?
  intro i
  rw [List.getElem?_map, List.getElem?_map]
  by_cases hi : i < st.coeff.length
  · rw [List.getElem?_range hi, List.getElem?_eq_getElem hi]
    simp only [Option.map_some', List.getD_eq_getElem _ _ hi]
  · rw [List.getElem?_eq_none (by simpa using hi), List.getElem?_eq_none (by omega)]
    rfl

theorem interiorPositions_length {K : Type} (hist : Histogram K) (t : Nat)
    (ht : t ≤ hist.bins.length) :
    (interiorPositions hist t).length = interiorRank hist.bins t := by
  induction t with
  | zero => simp [interiorPositions, interiorRank]
  | succ t ih =>
    have ht' : t < hist.bins.length := by omega
    have hb : hist.bins[t]? = some hist.bins[t] := List.getElem?_eq_getElem ht'
    rw [interiorPositions_succ, interiorRank_succ hist.bins t _ hb,
      binAt_of_getElem hist t _ hb, List.length_append, ih (by omega)]
    cases hist.bins[t].isUnderOverflowBin <;> simp

/-- C23. `Basis::PrintBias` writes one data row for every interior position of
the histogram, in the order of the iterator, and none for an under/overflow
position. In the row of an interior position the bias column is the negated sum
over the slots `s >= 1` of the coefficient times the product over the dimensions
of the basis values at the position, and the PMF column is `-log(unbias)/beta`
when the unbias entry is not zero and the literal `0` when it is (`specRow`). -/
theorem C23_basis_file_rows {K : Type} [LinearOrderedField K] (log : K → K) (D : Nat)
    (coordinate : Nat → Nat → K) (beta : K) (st : Basis K) :
    (PrintBias log D coordinate beta st).rows =
      (interiorPositions st.hist st.hist.bins.length).map
        (specRow log D coordinate beta st) ∧
    (PrintBias log D coordinate beta st).rows.length =
      (st.hist.bins.filter (fun b => !b.isUnderOverflowBin)).length := by
  refine ⟨PrintBias_rows log D coordinate beta st, ?_⟩
  rw [PrintBias_rows, List.length_map, interiorPositions_length st.hist _ (le_refl _)]
  unfold interiorRank
  rw [List.take_length]

/-- C24. After `PreSimulation` has built the slots for the orders `p_k`, and as
long as the slot vector keeps that size, the coefficient output of `PrintBias`
is the iteration count followed by exactly `prod_k (p_k + 1)` values, the
`i`-th of which is the coefficient value of slot `i`. -/
theorem C24_coefficient_file {K : Type} [LinearOrderedField K] (log : K → K) (D : Nat)
    (hD : 1 ≤ D) (polyords : List Nat) (st0 : Basis K) (r : PreSimulated K)
    (hpre : PreSimulation D polyords st0 = Except.ok r)
    (st : Basis K) (hst : st.coeff.length = r.state.coeff.length)
    (coordinate : Nat → Nat → K) (beta : K) :
    (PrintBias log D coordinate beta st).coeffIteration = st.iteration ∧
    (PrintBias log D coordinate beta st).coeffValues.length =
      ∏ k in Finset.range D, (r.polyords.getD k 0 + 1) ∧
    ∀ i : Nat, (PrintBias log D coordinate beta st).coeffValues[i]? =
      (st.coeff[i]?).map Map.value := by
  have hlen : r.state.coeff.length = ∏ k in Finset.range D, (r.polyords.getD k 0 + 1) := by
    unfold PreSimulation at hpre
    split at hpre
    · cases hpre
    · simp only at hpre
      split at hpre
      · cases hpre
      · split at hpre
        · cases hpre
        · cases hpre
          exact (PreSimulation_coeff_spec D hD _ _).1
  refine ⟨rfl, ?_, ?_⟩
  · rw [PrintBias_coeffValues, List.length_map, hst, hlen]
  · intro i
    rw [PrintBias_coeffValues, List.getElem?_map]

theorem C24_coefficient_file_witness :
    ∃ r, PreSimulation 1 [1] (exampleBasis ℚ) = Except.ok r ∧
      (PrintBias (fun x => x) 1 (fun _ _ => 0) 1 r.state).coeffIteration = r.state.iteration ∧
      (PrintBias (fun x => x) 1 (fun _ _ => 0) 1 r.state).coeffValues.length =
        ∏ k in Finset.range 1, (r.polyords.getD k 0 + 1) ∧
      ∀ i : Nat, (PrintBias (fun x => x) 1 (fun _ _ => 0) 1 r.state).coeffValues[i]? =
        (r.state.coeff[i]?).map Map.value := by
  obtain ⟨LUT, hLUT⟩ := BasisInit_completes (K := ℚ) 1 [1] [2] rfl (by
    intro k hk
    have : k = 0 := by omega
    subst this
    decide)
  have hpre : ∃ r, PreSimulation 1 [1] (exampleBasis ℚ) = Except.ok r := by
    simp only [PreSimulation, exampleBasis, Histogram.GetDimension, List.length_singleton,
      ne_eq, not_true_eq_false, if_false, hLUT]
    exact ⟨_, rfl⟩
  obtain ⟨r, hr⟩ := hpre
  exact ⟨r, hr, C24_coefficient_file (fun x => x) 1 (le_refl 1) [1] (exampleBasis ℚ) r hr
    r.state rfl (fun _ _ => 0) 1⟩


theorem biasAt_set0 {K : Type} [Field K] (D : Nat) (hist : Histogram K)
    (LUT : List (BasisLUT K)) (coeff : List (Map K)) (c0 : Map K) (b : HistBin) :
    biasAt D hist LUT (coeff.set 0 c0) b = biasAt D hist LUT coeff b := by
  unfold biasAt
  rw [List.length_set]
  apply Finset.sum_congr rfl
  intro s hs
  have hs0 : 0 ≠ s := by
    have := Finset.mem_Ico.mp hs
    omega
  rw [getD_set_ne _ _ _ _ _ hs0]

theorem specRow_withSlot0 {K : Type} [LinearOrderedField K] (log : K → K) (D : Nat)
    (coordinate : Nat → Nat → K) (beta : K) (st : Basis K) (v : K) (t : Nat) :
    specRow log D coordinate beta (withSlot0 st v) t = specRow log D coordinate beta st t := by
  simp only [specRow, withSlot0, biasAt_set0]

/-- C25 (counterexample). On the object that `UpdateBias` leaves for the flat
example (three slots), the coefficient output of `PrintBias` has three values,
one for every slot: the first is the entry of slot 0. -/
theorem C25_slot_zero_counterexample :
    (PrintBias Real.log 1 (fun t _ => (t : ℝ)) 1
        (UpdateBias Real.exp Real.log 1 (flatExample ℝ)).state).coeffValues =
      [0, 0, -(5 / 16) * Real.log 2] ∧
    (PrintBias Real.log 1 (fun t _ => (t : ℝ)) 1
        (UpdateBias Real.exp Real.log 1 (flatExample ℝ)).state).coeffValues[0]? =
      ((UpdateBias Real.exp Real.log 1 (flatExample ℝ)).state.coeff[0]?).map Map.value := by
  rw [PrintBias_coeffValues, flatExample_coeff]
  exact ⟨rfl, rfl⟩

/-- C25 (amended). The value of slot 0 does not enter the rows of `basis*.out`:
they are the same whatever slot 0 holds. The coefficient output has one value
for every slot, slot 0 included: its first value is the coefficient of slot 0. -/
theorem C25_slot_zero_output {K : Type} [LinearOrderedField K] (log : K → K) (D : Nat)
    (coordinate : Nat → Nat → K) (beta : K) (st : Basis K) (v : K) :
    (PrintBias log D coordinate beta (withSlot0 st v)).rows =
      (PrintBias log D coordinate beta st).rows ∧
    (PrintBias log D coordinate beta st).coeffValues.length = st.coeff.length ∧
    (PrintBias log D coordinate beta st).coeffValues[0]? = (st.coeff[0]?).map Map.value := by
  refine ⟨?_, ?_, ?_⟩
  · rw [PrintBias_rows, PrintBias_rows]
    apply List.map_congr_left
    intro t _
    exact specRow_withSlot0 log D coordinate beta st v t
  · rw [PrintBias_coeffValues, List.length_map]
  · rw [PrintBias_coeffValues, List.getElem?_map]


/-! ## `UpdateBias`: periodic dimensions -/

theorem UpdateBias_withPeriodic {K : Type} [LinearOrderedField K] (exp log : K → K) (D : Nat)
    (st : Basis K) (per : List Bool) :
    (UpdateBias exp log D (withPeriodic st per)).state.coeff =
      (UpdateBias exp log D st).state.coeff ∧
    (UpdateBias exp log D (withPeriodic st per)).state.unbias =
      (UpdateBias exp log D st).state.unbias ∧
    (UpdateBias exp log D (withPeriodic st per)).sum = (UpdateBias exp log D st).sum :=
  ⟨rfl, rfl, rfl⟩

theorem periodicExample_unbias :
    (UpdateBias Real.exp Real.log 1 (periodicExample ℝ)).state.unbias = [2, 2] := by
  simp [UpdateBias, loopFrom, periodicExample, reweightBody, biasLoops, lutValue, lutIndex,
    HistBin.idx, Histogram.GetNumPoints]

theorem periodicExample_coeff :
    (UpdateBias Real.exp Real.log 1 (periodicExample ℝ)).state.coeff =
      [⟨[0], 0⟩, ⟨[1], 0⟩, ⟨[2], -(5 / 16) * Real.log 2⟩] := by
  simp [UpdateBias, loopFrom, periodicExample, reweightBody, biasLoops, lutValue, lutIndex,
    HistBin.idx, Histogram.GetNumPoints, resetBody, slotUpdateBody, integrateBody]
  constructor <;> ring

theorem periodicExample_claimed :
    nonPeriodicQuadrature Real.log 1 (periodicExample ℝ).hist (periodicExample ℝ).LUT [2, 2]
      ⟨[2], 0⟩ = -(5 / 8) * Real.log 2 := by
  simp [nonPeriodicQuadrature, periodicExample, Finset.sum_filter, Finset.sum_range_succ,
    Histogram.binAt, interiorRank, lutValue, lutIndex, HistBin.idx, Histogram.GetNumPoints,
    nonPeriodicBoundaryCount, Histogram.GetPeriodic, Finset.filter_singleton]
  ring


/-- C26 (counterexample). One periodic CV with two bins, both of which lie on
the edge of the grid: `UpdateBias` leaves `-(5/16) log 2` in the slot of order
2, the sum with both weights halved, and not `-(5/8) log 2`, the sum in which a
periodic dimension halves nothing. -/
theorem C26_periodic_halving_counterexample :
    (periodicExample ℝ).hist.GetPeriodic 0 = true ∧
    (UpdateBias Real.exp Real.log 1 (periodicExample ℝ)).state.coeff[2]? =
      some ⟨[2], -(5 / 16) * Real.log 2⟩ ∧
    nonPeriodicQuadrature Real.log 1 (periodicExample ℝ).hist (periodicExample ℝ).LUT
      (UpdateBias Real.exp Real.log 1 (periodicExample ℝ)).state.unbias ⟨[2], 0⟩ =
        -(5 / 8) * Real.log 2 ∧
    -(5 / 16) * Real.log 2 ≠ -(5 / 8) * Real.log 2 := by
  refine ⟨rfl, ?_, ?_, ?_⟩
  · rw [periodicExample_coeff]
    rfl
  · rw [periodicExample_unbias]
    exact periodicExample_claimed
  · have h : 0 < Real.log 2 := Real.log_pos one_lt_two
    intro heq
    linarith

/-- C26 (amended). In the coefficient integration of `UpdateBias` the weight of
a position is halved once for every dimension in which its index is 0 or
`n_k - 1`, whether that dimension is periodic or not: whatever periodicity flags
`per` the grid carries, the coefficient of a slot `s >= 1` is the quadrature sum
with the factor `(1/2)^h(b)`, `h(b)` counting every such dimension, and the
whole coefficient vector is the one computed with any other flags. -/
theorem C26_halving_in_every_dimension {K : Type} [LinearOrderedField K] (exp log : K → K)
    (D : Nat) (st : Basis K) (hlen : st.unbias.length = st.hist.bins.length)
    (per : List Bool) (s : Nat) (c : Map K) (hs : 1 ≤ s) (hc : st.coeff[s]? = some c) :
    (∃ c' : Map K,
      (UpdateBias exp log D (withPeriodic st per)).state.coeff[s]? = some c' ∧
      c'.map = c.map ∧
      c'.value =
        ∑ t in (Finset.range st.hist.bins.length).filter
            (fun t => (st.hist.binAt t).isUnderOverflowBin = false),
          log ((UpdateBias exp log D (withPeriodic st per)).state.unbias.getD
              (interiorRank st.hist.bins t) 0) *
            (∏ k in Finset.range D,
              (2 * (c.map.getD k 0 : K) + 1) *
                lutValue st.LUT k (lutIndex st.hist (st.hist.binAt t) c k)
                / (st.hist.GetNumPoints k : K)) *
            (1 / 2 : K) ^ boundaryCount D st.hist (st.hist.binAt t)) ∧
    (UpdateBias exp log D (withPeriodic st per)).state.coeff =
      (UpdateBias exp log D st).state.coeff := by
  obtain ⟨h1, h2, _⟩ := UpdateBias_withPeriodic exp log D st per
  refine ⟨⟨Map.mk c.map (∑ t in Finset.range st.hist.bins.length,
    quadTermAt log D st.hist st.LUT (UpdateBias exp log D st).state.unbias c t), ?_, rfl, ?_⟩, h1⟩
  · rw [h1]
    exact UpdateBias_coeff exp log D st hlen s c hs hc
  · simp only
    rw [sum_quadTermAt, h2]
    rfl

theorem C26_halving_in_every_dimension_witness :
    (∃ c' : Map ℝ,
      (UpdateBias Real.exp Real.log 1
        (withPeriodic (periodicExample ℝ) [true])).state.coeff[2]? = some c' ∧
      c'.map = (⟨[2], 0⟩ : Map ℝ).map ∧
      c'.value =
        ∑ t in (Finset.range (periodicExample ℝ).hist.bins.length).filter
            (fun t => ((periodicExample ℝ).hist.binAt t).isUnderOverflowBin = false),
          Real.log ((UpdateBias Real.exp Real.log 1
              (withPeriodic (periodicExample ℝ) [true])).state.unbias.getD
              (interiorRank (periodicExample ℝ).hist.bins t) 0) *
            (∏ k in Finset.range 1,
              (2 * (((⟨[2], 0⟩ : Map ℝ).map.getD k 0 : Nat) : ℝ) + 1) *
                lutValue (periodicExample ℝ).LUT k
                  (lutIndex (periodicExample ℝ).hist ((periodicExample ℝ).hist.binAt t)
                    ⟨[2], 0⟩ k)
                / ((periodicExample ℝ).hist.GetNumPoints k : ℝ)) *
            (1 / 2 : ℝ) ^ boundaryCount 1 (periodicExample ℝ).hist
              ((periodicExample ℝ).hist.binAt t)) ∧
    (UpdateBias Real.exp Real.log 1 (withPeriodic (periodicExample ℝ) [true])).state.coeff =
      (UpdateBias Real.exp Real.log 1 (periodicExample ℝ)).state.coeff :=
  C26_halving_in_every_dimension Real.exp Real.log 1 (periodicExample ℝ) rfl [true] 2
    ⟨[2], 0⟩ (by decide) rfl


/-! ## `UpdateBias`: which entries of `unbias_` are written -/

theorem PreSimulation_unbias_length {K : Type} [Field K] (D : Nat) (polyords : List Nat)
    (st0 : Basis K) (r : PreSimulated K) (hpre : PreSimulation D polyords st0 = Except.ok r) :
    r.state.unbias.length = r.state.hist.bins.length := by
  unfold PreSimulation at hpre
  split at hpre
  · cases hpre
  · simp only at hpre
    split at hpre
    · cases hpre
    · split at hpre
      · cases hpre
      · cases hpre
        simp only [length_resize, List.length_map]

theorem exampleBasis_unbias :
    (UpdateBias Real.exp Real.log 1 (exampleBasis ℝ)).state.unbias =
      [Real.exp (-1) / 2, 3 * Real.exp 1 / 2, 0, 0] := by
  simp [UpdateBias, loopFrom, exampleBasis, reweightBody, biasLoops, lutValue, lutIndex,
    HistBin.idx, Histogram.GetNumPoints]
  norm_num

/-- C27 (counterexample). One CV with two bins between an underflow and an
overflow position: position 0 of the histogram is the underflow position and
entry 0 of the accumulator starts at 0, yet `UpdateBias` leaves
`exp(-1)/2` in entry 0 (the increment of the first interior position). -/
theorem C27_unbias_layout_counterexample :
    (exampleBasis ℝ).unbias.length = (exampleBasis ℝ).hist.bins.length ∧
    ((exampleBasis ℝ).hist.binAt 0).isUnderOverflowBin = true ∧
    (exampleBasis ℝ).unbias.getD 0 0 = 0 ∧
    (UpdateBias Real.exp Real.log 1 (exampleBasis ℝ)).state.unbias.getD 0 0 =
      Real.exp (-1) / 2 ∧
    (UpdateBias Real.exp Real.log 1 (exampleBasis ℝ)).state.unbias.getD 0 0 ≠ 0 := by
  refine ⟨rfl, rfl, ?_, ?_, ?_⟩
  · simp [exampleBasis]
  · rw [exampleBasis_unbias]
    rfl
  · rw [exampleBasis_unbias]
    have h : 0 < Real.exp (-1) := Real.exp_pos _
    simp only [List.getD_cons_zero]
    positivity

/-- C27 (amended). `PreSimulation` gives the unbias accumulator the length of
the full histogram, and `UpdateBias` keeps that length. `UpdateBias` writes the
entries by the running count of interior positions, whatever the layout of the
histogram: every entry whose index is at least the number of interior positions
keeps the value it had. -/
theorem C27_unbias_entries_written {K : Type} [LinearOrderedField K] (exp log : K → K)
    (D : Nat) (polyords : List Nat) (st0 : Basis K) (r : PreSimulated K)
    (hpre : PreSimulation D polyords st0 = Except.ok r)
    (st : Basis K) (hlen : st.unbias.length = st.hist.bins.length) :
    r.state.unbias.length = r.state.hist.bins.length ∧
    (UpdateBias exp log D st).state.unbias.length =
      (UpdateBias exp log D st).state.hist.bins.length ∧
    ∀ k, (st.hist.bins.filter (fun b => !b.isUnderOverflowBin)).length ≤ k →
      (UpdateBias exp log D st).state.unbias.getD k 0 = st.unbias.getD k 0 := by
  obtain ⟨hi, _, _, _, hul, _, _, _, hhigh⟩ := reweight_spec exp D st hlen
  refine ⟨PreSimulation_unbias_length D polyords st0 r hpre, ?_, ?_⟩
  · have hb : (UpdateBias exp log D st).state.hist.bins =
        st.hist.bins.map (fun b => { b with value := 0 }) := by
      simp only [UpdateBias]
      exact reweight_bins_zeroed exp D st
    rw [hb, List.length_map, UpdateBias_unbias, hul, hlen]
  · intro k hk
    rw [UpdateBias_unbias]
    apply hhigh k
    rw [hi]
    unfold interiorRank
    rw [List.take_length]
    exact hk

theorem C27_unbias_entries_written_witness :
    ∃ r, PreSimulation 1 [1] (exampleBasis ℝ) = Except.ok r ∧
      r.state.unbias.length = r.state.hist.bins.length ∧
      (UpdateBias Real.exp Real.log 1 (exampleBasis ℝ)).state.unbias.length =
        (UpdateBias Real.exp Real.log 1 (exampleBasis ℝ)).state.hist.bins.length ∧
      ∀ k, ((exampleBasis ℝ).hist.bins.filter (fun b => !b.isUnderOverflowBin)).length ≤ k →
        (UpdateBias Real.exp Real.log 1 (exampleBasis ℝ)).state.unbias.getD k 0 =
          (exampleBasis ℝ).unbias.getD k 0 := by
  obtain ⟨LUT, hLUT⟩ := BasisInit_completes (K := ℝ) 1 [1] [2] rfl (by
    intro k hk
    have : k = 0 := by omega
    subst this
    decide)
  have hpre : ∃ r, PreSimulation 1 [1] (exampleBasis ℝ) = Except.ok r := by
    simp only [PreSimulation, exampleBasis, Histogram.GetDimension, List.length_singleton,
      ne_eq, not_true_eq_false, if_false, hLUT]
    exact ⟨_, rfl⟩
  obtain ⟨r, hr⟩ := hpre
  exact ⟨r, hr, C27_unbias_entries_written Real.exp Real.log 1 [1] (exampleBasis ℝ) r hr
    (exampleBasis ℝ) rfl⟩


/-! ## `UpdateBias`: odd orders on a symmetric accumulator -/

theorem legendreP_neg {K : Type} [Field K] (x : K) :
    ∀ j, legendreP j (-x) = (-1) ^ j * legendreP j x ∧
      legendreP (j + 1) (-x) = (-1) ^ (j + 1) * legendreP (j + 1) x := by
  intro j
  induction j with
  | zero => simp [legendreP]
  | succ j ih =>
    refine ⟨ih.2, ?_⟩
    show ((2 * ((j + 2 : Nat) : K) - 1) * (-x) * legendreP (j + 1) (-x)
      - (((j + 2 : Nat) : K) - 1) * legendreP j (-x)) / ((j + 2 : Nat) : K) =
      (-1) ^ (j + 1 + 1) * (((2 * ((j + 2 : Nat) : K) - 1) * x * legendreP (j + 1) x
      - (((j + 2 : Nat) : K) - 1) * legendreP j x) / ((j + 2 : Nat) : K))
    rw [ih.1, ih.2, ← mul_div_assoc]
    congr 1
    ring

theorem legendreP_odd {K : Type} [Field K] (j : Nat) (hj : j % 2 = 1) (x : K) :
    legendreP j (-x) = - legendreP j x := by
  rw [(legendreP_neg x j).1, Odd.neg_one_pow (Nat.odd_iff.mpr hj)]
  ring

theorem binCoord_reflect {K : Type} [Field K] [CharZero K] (n r : Nat) (hr : r < n) :
    binCoord (K := K) n (n - 1 - r) = - binCoord n r := by
  have hn : (n : K) ≠ 0 := Nat.cast_ne_zero.mpr (by omega)
  have hcast : ((n - 1 - r : Nat) : K) = (n : K) - 1 - (r : K) := by
    rw [Nat.cast_sub (by omega), Nat.cast_sub (by omega), Nat.cast_one]
  unfold binCoord
  rw [hcast]
  field_simp
  ring

theorem sum_antisymmetric {K : Type} [Field K] [CharZero K] (F : Nat → K) (n : Nat)
    (h : ∀ r, r < n → F (n - 1 - r) = - F r) : ∑ r in Finset.range n, F r = 0 := by
  have h1 := Finset.sum_range_reflect F n
  have h2 : ∑ j in Finset.range n, F (n - 1 - j) = - ∑ j in Finset.range n, F j := by
    rw [← Finset.sum_neg_distrib]
    apply Finset.sum_congr rfl
    intro r hr
    exact h r (Finset.mem_range.mp hr)
  rw [h2] at h1
  have h3 : (2 : K) * ∑ j in Finset.range n, F j = 0 := by
    rw [two_mul]
    nth_rewrite 1 [← h1]
    exact neg_add_cancel _
  rcases mul_eq_zero.mp h3 with h4 | h4
  · exact absurd h4 two_ne_zero
  · exact h4

theorem sum_quadTermAt_by_rank {K : Type} [Field K] (log : K → K) (D : Nat)
    (hist : Histogram K) (LUT : List (BasisLUT K)) (unbias : List K) (c : Map K) (F : Nat → K)
    (hF : ∀ t b, hist.bins[t]? = some b → b.isUnderOverflowBin = false →
      quadTerm log D hist LUT unbias c b (interiorRank hist.bins t) =
        F (interiorRank hist.bins t)) :
    ∀ T, T ≤ hist.bins.length →
      ∑ t in Finset.range T, quadTermAt log D hist LUT unbias c t =
        ∑ r in Finset.range (interiorRank hist.bins T), F r := by
  intro T
  induction T with
  | zero => intro _; simp [interiorRank]
  | succ T ih =>
    intro hT
    have hT' : T < hist.bins.length := by omega
    have hb : hist.bins[T]? = some hist.bins[T] := List.getElem?_eq_getElem hT'
    rw [Finset.sum_range_succ, ih (by omega), interiorRank_succ hist.bins T _ hb]
    cases hint : hist.bins[T].isUnderOverflowBin with
    | true => simp [quadTermAt, hb, hint]
    | false =>
      simp only [Bool.false_eq_true, if_false]
      rw [Finset.sum_range_succ, ← hF T _ hb hint]
      simp [quadTermAt, hb, hint]


theorem lineTerm_reflect {K : Type} [Field K] [CharZero K] (log : K → K) (n o : Nat)
    (unbias : List K) (ho : o % 2 = 1)
    (hsym : ∀ b, b < n → unbias.getD (n - 1 - b) 0 = unbias.getD b 0)
    (r : Nat) (hr : r < n) :
    lineTerm log n o unbias (n - 1 - r) = - lineTerm log n o unbias r := by
  unfold lineTerm
  rw [hsym r hr, binCoord_reflect n r hr, legendreP_odd o ho]
  have hcond : (((n - 1 - r : Nat) : Int) = 0 ∨ ((n - 1 - r : Nat) : Int) = (n : Int) - 1) ↔
      ((r : Int) = 0 ∨ (r : Int) = (n : Int) - 1) := by
    omega
  rw [if_congr hcond rfl rfl]
  ring

theorem boundaryCount_one {K : Type} (hist : Histogram K) (b : HistBin) :
    boundaryCount 1 hist b =
      if b.idx 0 = 0 ∨ b.idx 0 = (hist.GetNumPoints 0 : Int) - 1 then 1 else 0 := by
  unfold boundaryCount
  rw [Finset.range_one, Finset.filter_singleton]
  split <;> simp

theorem quadTerm_single_dimension {K : Type} [Field K] (log : K → K) (n p : Nat)
    (hist : Histogram K) (LUT : List (BasisLUT K)) (unbias : List K) (c : Map K)
    (table : BasisLUT K) (hn : hist.GetNumPoints 0 = n) (hLUT : LUT[0]? = some table)
    (htable : BasisInit_table p n = some table) (hp : 1 ≤ p) (hord : c.map.getD 0 0 ≤ p)
    (b : HistBin) (r : Nat) (hr : r < n) (hidx : b.idx 0 = (r : Int)) :
    quadTerm log 1 hist LUT unbias c b r = lineTerm log n (c.map.getD 0 0) unbias r := by
  obtain ⟨lut, hlut, _, _, hcells⟩ := BasisInit_table_spec (K := K) p n hp
  rw [htable] at hlut
  cases hlut
  have hcell := (hcells (c.map.getD 0 0) r hr hord).1
  have hindex : lutIndex hist b c 0 = ((r + c.map.getD 0 0 * n : Nat) : Int) := by
    unfold lutIndex
    rw [hidx, hn]
    push_cast
    rfl
  have hval : lutValue LUT 0 (lutIndex hist b c 0) =
      legendreP (c.map.getD 0 0) (binCoord n r) := by
    unfold lutValue
    rw [hindex, Int.toNat_ofNat, getD_of_getElem? LUT 0 table _ hLUT]
    exact getD_of_getElem? _ _ _ _ hcell
  unfold quadTerm lineTerm
  rw [Finset.prod_range_one, hval, boundaryCount_one, hidx, hn]


theorem flatExample_table :
    BasisInit_table (K := ℝ) 2 2 =
      some ⟨[1, 1, -1 / 2, 1 / 2, -1 / 8, -1 / 8], [0, 0, 1, 1, -3 / 2, 3 / 2]⟩ := by
  simp [BasisInit_table, loopFromM, initOrder0, initOrder1, recurBody, store, binCoord]
  norm_num

/-- C28. One CV whose grid has `n` interior bins, iterated in the order of their
index `0 .. n-1`, with the table that `BasisInit` builds for the order `p`. If
the unbias accumulator that the integration reads (the one after the reweighting
pass) is symmetric under the reflection of the bins, `unbias[n-1-b] = unbias[b]`
for every bin `b < n`, then `UpdateBias` leaves the coefficient 0 in every slot
`s >= 1` of odd order. -/
theorem C28_odd_orders_vanish {K : Type} [LinearOrderedField K] (exp log : K → K) (n p : Nat)
    (st : Basis K) (hlen : st.unbias.length = st.hist.bins.length)
    (hn : st.hist.GetNumPoints 0 = n)
    (table : BasisLUT K) (hLUT : st.LUT[0]? = some table)
    (htable : BasisInit_table p n = some table)
    (hidx : ∀ t b, st.hist.bins[t]? = some b → b.isUnderOverflowBin = false →
      b.idx 0 = (interiorRank st.hist.bins t : Int))
    (hcount : (st.hist.bins.filter (fun b => !b.isUnderOverflowBin)).length = n)
    (hsym : ∀ b, b < n →
      (UpdateBias exp log 1 st).state.unbias.getD (n - 1 - b) 0 =
        (UpdateBias exp log 1 st).state.unbias.getD b 0)
    (s : Nat) (c : Map K) (hs : 1 ≤ s) (hc : st.coeff[s]? = some c)
    (hodd : c.map.getD 0 0 % 2 = 1) (hord : c.map.getD 0 0 ≤ p) :
    ∃ c' : Map K, (UpdateBias exp log 1 st).state.coeff[s]? = some c' ∧
      c'.map = c.map ∧ c'.value = 0 := by
  have hrank : interiorRank st.hist.bins st.hist.bins.length = n := by
    unfold interiorRank
    rw [List.take_length]
    exact hcount
  refine ⟨Map.mk c.map (∑ t in Finset.range st.hist.bins.length,
    quadTermAt log 1 st.hist st.LUT (UpdateBias exp log 1 st).state.unbias c t),
    UpdateBias_coeff exp log 1 st hlen s c hs hc, rfl, ?_⟩
  simp only
  rw [sum_quadTermAt_by_rank log 1 st.hist st.LUT (UpdateBias exp log 1 st).state.unbias c
    (lineTerm log n (c.map.getD 0 0) (UpdateBias exp log 1 st).state.unbias)
    (by
      intro t b hb hint
      have ht : t < st.hist.bins.length := by
        rcases List.getElem?_eq_some_iff.mp hb with ⟨h1, _⟩
        exact h1
      have hlt := interiorRank_lt st.hist.bins t st.hist.bins.length b ht hb hint
      exact quadTerm_single_dimension log n p st.hist st.LUT _ c table hn hLUT htable
        (by omega) hord b _ (by omega) (hidx t b hb hint))
    st.hist.bins.length (le_refl _), hrank]
  exact sum_antisymmetric _ n
    (fun r hr => lineTerm_reflect log n (c.map.getD 0 0) _ hodd hsym r hr)

theorem C28_odd_orders_vanish_witness :
    ∃ c' : Map ℝ, (UpdateBias Real.exp Real.log 1 (flatExample ℝ)).state.coeff[1]? = some c' ∧
      c'.map = (⟨[1], 0⟩ : Map ℝ).map ∧ c'.value = 0 :=
  C28_odd_orders_vanish Real.exp Real.log 2 2 (flatExample ℝ) rfl rfl
    ⟨[1, 1, -1 / 2, 1 / 2, -1 / 8, -1 / 8], [0, 0, 1, 1, -3 / 2, 3 / 2]⟩ rfl flatExample_table
    (by
      intro t b hb hint
      rcases t with _ | _ | _ | _ | t
      · simp [flatExample] at hb
        subst hb
        simp at hint
      · simp [flatExample] at hb
        subst hb
        simp [HistBin.idx, interiorRank, flatExample]
      · simp [flatExample] at hb
        subst hb
        simp [HistBin.idx, interiorRank, flatExample]
      · simp [flatExample] at hb
        subst hb
        simp at hint
      · simp [flatExample] at hb)
    (by simp [flatExample])
    (by
      intro b hb
      rw [flatExample_unbias]
      interval_cases b <;> rfl)
    1 ⟨[1], 0⟩ (le_refl 1) rfl (by decide) (by decide)


/-! ## `AngleCV::Evaluate`: the gradient -/

theorem sqrt_of_mul_self (a x : ℝ) (ha : 0 ≤ a) (h : a * a = x) : Real.sqrt x = a := by
  rw [← h]
  exact Real.sqrt_mul_self ha

theorem angle_example_gradI :
    (AngleCV.Evaluate Real.sqrt Real.arccos id ⟨1, 0, 0⟩ ⟨0, 0, 0⟩ ⟨24, 7, 0⟩).gradI =
      ⟨0, -(7 / 5), 0⟩ := by
  have h1 : Real.sqrt (1 : ℝ) = 1 := Real.sqrt_one
  have h625 : Real.sqrt (625 : ℝ) = 25 := sqrt_of_mul_self 25 625 (by norm_num) (by norm_num)
  have h25 : Real.sqrt (1 / 25 : ℝ) = 1 / 5 :=
    sqrt_of_mul_self (1 / 5) (1 / 25) (by norm_num) (by norm_num)
  have e1 : (24 : ℝ) * 24 + 7 * 7 = 625 := by norm_num
  have e2 : (1 : ℝ) - 24 / 25 = 1 / 25 := by norm_num
  simp only [AngleCV.Evaluate, Vector3.sub, Vector3.smul, Vector3.sdiv, Vector3.dot,
    Vector3.norm, id, sub_zero, mul_zero, mul_one, add_zero, zero_mul, one_mul, h1, e1, h625,
    e2, h25]
  norm_num


theorem angle_example_formula :
    angleGradient Real.sqrt (⟨1, 0, 0⟩ : Vector3 ℝ) ⟨24, 7, 0⟩ = ⟨0, -1, 0⟩ := by
  have h1 : Real.sqrt (1 : ℝ) = 1 := Real.sqrt_one
  have h625 : Real.sqrt (625 : ℝ) = 25 := sqrt_of_mul_self 25 625 (by norm_num) (by norm_num)
  have h49 : Real.sqrt (49 / 625 : ℝ) = 7 / 25 :=
    sqrt_of_mul_self (7 / 25) (49 / 625) (by norm_num) (by norm_num)
  have e1 : (24 : ℝ) * 24 + 7 * 7 = 625 := by norm_num
  have e2 : (1 : ℝ) - (24 / 25) ^ 2 = 49 / 625 := by norm_num
  simp only [angleGradient, Vector3.sub, Vector3.smul, Vector3.sdiv, Vector3.dot,
    Vector3.norm, mul_zero, mul_one, add_zero, zero_mul, one_mul, h1, e1, h625,
    e2, h49]
  norm_num

theorem angle_example_deriv :
    HasDerivAt (fun y : ℝ =>
      (AngleCV.Evaluate Real.sqrt Real.arccos id ⟨1, y, 0⟩ ⟨0, 0, 0⟩ ⟨24, 7, 0⟩).val) (-1) 0 := by
  have h1 : Real.sqrt (1 : ℝ) = 1 := Real.sqrt_one
  have h625 : Real.sqrt (625 : ℝ) = 25 := sqrt_of_mul_self 25 625 (by norm_num) (by norm_num)
  have h49 : Real.sqrt (49 / 625 : ℝ) = 7 / 25 :=
    sqrt_of_mul_self (7 / 25) (49 / 625) (by norm_num) (by norm_num)
  have hnum : HasDerivAt (fun y : ℝ => 24 + 7 * y) 7 0 := by
    have := ((hasDerivAt_id (0 : ℝ)).const_mul (7 : ℝ)).const_add (24 : ℝ)
    simpa using this
  have hsq : HasDerivAt (fun y : ℝ => 1 + y * y) 0 0 := by
    have := (((hasDerivAt_id (0 : ℝ)).mul (hasDerivAt_id (0 : ℝ))).const_add (1 : ℝ))
    simpa using this
  have hsqrt : HasDerivAt (fun y : ℝ => Real.sqrt (1 + y * y)) 0 0 := by
    have := hsq.sqrt (by norm_num)
    simpa using this
  have hden : HasDerivAt (fun y : ℝ => Real.sqrt (1 + y * y) * 25) 0 0 := by
    have := hsqrt.mul_const (25 : ℝ)
    simpa using this
  have hq : HasDerivAt (fun y : ℝ => (24 + 7 * y) / (Real.sqrt (1 + y * y) * 25)) (7 / 25) 0 := by
    have := hnum.div hden (by simp [h1])
    convert this using 1
    simp [h1]
    norm_num
  have hq0 : (24 + 7 * (0 : ℝ)) / (Real.sqrt (1 + 0 * 0) * 25) = 24 / 25 := by
    simp [h1]
  have harc : HasDerivAt Real.arccos (-(25 / 7)) (24 / 25 : ℝ) := by
    have := Real.hasDerivAt_arccos (x := (24 / 25 : ℝ)) (by norm_num) (by norm_num)
    have e2 : (1 : ℝ) - (24 / 25) ^ 2 = 49 / 625 := by norm_num
    rw [e2, h49] at this
    convert this using 1
    norm_num
  rw [← hq0] at harc
  have hcomp := harc.comp (0 : ℝ) hq
  have hval : (fun y : ℝ =>
      (AngleCV.Evaluate Real.sqrt Real.arccos id ⟨1, y, 0⟩ ⟨0, 0, 0⟩ ⟨24, 7, 0⟩).val) =
      Real.arccos ∘ (fun y : ℝ => (24 + 7 * y) / (Real.sqrt (1 + y * y) * 25)) := by
    funext y
    have e1 : (24 : ℝ) * 24 + 7 * 7 = 625 := by norm_num
    simp only [AngleCV.Evaluate, Vector3.sub, Vector3.dot, Vector3.norm, id, sub_zero,
      mul_zero, mul_one, add_zero, one_mul, e1, h625, Function.comp]
    congr 2
    ring
  rw [hval]
  convert hcomp using 1
  norm_num


/-- C29 (failing input). The second atom at the origin, the first at `(1,0,0)`,
the third at `(24,7,0)`: both bond vectors are non-zero and `cos(theta) = 24/25`.
`Evaluate` stores `(0, -7/5, 0)` for the first atom, while the formula with
`sqrt(1 - cos^2(theta))` gives `(0, -1, 0)`, and the value `_val` has the
derivative `-1` along `y` in the position of the first atom. -/
theorem C29_angle_gradient_prefactor :
    (AngleCV.Evaluate Real.sqrt Real.arccos id ⟨1, 0, 0⟩ ⟨0, 0, 0⟩ ⟨24, 7, 0⟩).gradI =
      ⟨0, -(7 / 5), 0⟩ ∧
    angleGradient Real.sqrt (⟨1, 0, 0⟩ : Vector3 ℝ) ⟨24, 7, 0⟩ = ⟨0, -1, 0⟩ ∧
    HasDerivAt (fun y : ℝ =>
      (AngleCV.Evaluate Real.sqrt Real.arccos id ⟨1, y, 0⟩ ⟨0, 0, 0⟩ ⟨24, 7, 0⟩).val) (-1) 0 ∧
    (AngleCV.Evaluate Real.sqrt Real.arccos id ⟨1, 0, 0⟩ ⟨0, 0, 0⟩ ⟨24, 7, 0⟩).gradI.y ≠ -1 := by
  refine ⟨angle_example_gradI, angle_example_formula, angle_example_deriv, ?_⟩
  rw [angle_example_gradI]
  norm_num


/-! ## `Swarm::PostIntegration`: the harvest index -/

/-- C30 (failing input). No initialization steps, harvest length 20, one
trajectory, one atom. After `PreSimulation` the array of stored positions has
one entry. The first 20 calls of `PostIntegration` return; the call number 11
(`_iterator = 10`) has written entry 0 and left `_index = 1`. The next call
(`_iterator = 20`, still in the restrained phase) writes
`_traj_positions[1]`, outside the array. -/
theorem C30_harvest_index_outside :
    (restrainedRun 1 (fun _ => [[(1 : ℚ), 2, 3]]) 20
      (Swarm.PreSimulation [[(1 : ℚ), 2, 3]] (swarmExample ℚ))).map
        (fun s => (s.iterator, s.initialize_steps + s.restrained_steps, s.index,
          s.number_trajectories, s.traj_positions.length)) = some (20, 20, 1, 1, 1) ∧
    (restrainedRun 1 (fun _ => [[(1 : ℚ), 2, 3]]) 21
      (Swarm.PreSimulation [[(1 : ℚ), 2, 3]] (swarmExample ℚ))).isNone = true := by
  constructor
  · decide
  · decide


/-! ## `Swarm::StringUpdate`: the neighbours -/

/-- C31. For every world size `N >= 2` and every rank `0 <= r < N`, with the
neighbours that `Swarm::StringUpdate` chooses: the rank that `r` sends to
receives from `r`, and the rank that `r` receives from sends to `r`; both
neighbours of `r` are ranks between 0 and `N - 1`; and every rank `r >= 1`
receives from `r - 1`. -/
theorem C31_neighbours_consistent (N r : Int) (hN : 2 ≤ N) (h0 : 0 ≤ r) (hr : r < N) :
    (Swarm.StringUpdate_neighbors
        (Swarm.StringUpdate_neighbors r N).sendneighbor N).recvneighbor = r ∧
    (Swarm.StringUpdate_neighbors
        (Swarm.StringUpdate_neighbors r N).recvneighbor N).sendneighbor = r ∧
    (0 ≤ (Swarm.StringUpdate_neighbors r N).sendneighbor ∧
      (Swarm.StringUpdate_neighbors r N).sendneighbor < N) ∧
    (0 ≤ (Swarm.StringUpdate_neighbors r N).recvneighbor ∧
      (Swarm.StringUpdate_neighbors r N).recvneighbor < N) ∧
    (1 ≤ r → (Swarm.StringUpdate_neighbors r N).recvneighbor = r - 1) := by
  unfold Swarm.StringUpdate_neighbors
  by_cases h1 : r = 0
  · subst h1
    simp only [if_true]
    refine ⟨?_, ?_, ⟨by omega, by omega⟩, ⟨by omega, by omega⟩, fun h => by omega⟩
    · split_ifs <;> simp only <;> omega
    · split_ifs <;> first | rfl | omega
  · by_cases h2 : r = N - 1
    · rw [if_neg h1, if_pos h2]
      simp only [if_true]
      refine ⟨by omega, ?_, ⟨by omega, by omega⟩, ⟨by omega, by omega⟩, fun _ => by omega⟩
      split_ifs <;> simp only <;> omega
    · rw [if_neg h1, if_neg h2]
      simp only
      refine ⟨?_, ?_, ⟨by omega, by omega⟩, ⟨by omega, by omega⟩, fun _ => trivial⟩
      · split_ifs <;> simp only <;> omega
      · split_ifs <;> simp only <;> omega

theorem C31_neighbours_consistent_witness :
    (2 : Int) ≤ 3 ∧ (0 : Int) ≤ 2 ∧ (2 : Int) < 3 ∧
    ((Swarm.StringUpdate_neighbors
        (Swarm.StringUpdate_neighbors 2 3).sendneighbor 3).recvneighbor = 2 ∧
    (Swarm.StringUpdate_neighbors
        (Swarm.StringUpdate_neighbors 2 3).recvneighbor 3).sendneighbor = 2 ∧
    (0 ≤ (Swarm.StringUpdate_neighbors 2 3).sendneighbor ∧
      (Swarm.StringUpdate_neighbors 2 3).sendneighbor < 3) ∧
    (0 ≤ (Swarm.StringUpdate_neighbors 2 3).recvneighbor ∧
      (Swarm.StringUpdate_neighbors 2 3).recvneighbor < 3) ∧
    ((1 : Int) ≤ 2 → (Swarm.StringUpdate_neighbors 2 3).recvneighbor = 2 - 1)) :=
  ⟨by decide, by decide, by decide,
    C31_neighbours_consistent 3 2 (by decide) (by decide) (by decide)⟩

end SSAGES
